import Mathlib

/-!
# Bloom filter over composable hash primitives

A shallow embedding of the Go packages `bloom`, `multiplehash`, `salthash` and
`customhash`, together with the part of the Go standard library package
`encoding/ascii85` that `bloom` calls.

Conventions.
* A Go `[]byte` (and a Go `string`, which is a byte sequence) is a `List Nat`; a
  well-formed byte is below 256.  Where Go converts to `byte` or computes in `uint32`
  the reduction `% 256` or `% 2 ^ 32` is written out.
* A value of the interface `hash.Hash` is a value of the inductive type `Hash`:
  a primitive from outside the repository, or one of the three wrappers of the repository.
* The goroutines of `multiplehash` each touch one sub-hash only; they are run here in
  list order.  Mutexes are not modelled: every call runs to completion alone.
* A run-time panic (index out of range) is an explicit outcome.
-/

/-- A Go byte slice. -/
abbrev Bytes := List Nat

/-- The Go `error` values that occur. -/
inductive Error where
  | ErrInvalidHashList
  | ErrShouldNotBeUsed
  | CorruptInputError (offset : Nat)
  | external (code : Nat)
deriving DecidableEq, Repr

/-- Outcome of a call that may panic with an index out of range. -/
inductive Result (α : Type) where
  | ok (v : α)
  | panic
deriving DecidableEq, Repr

/-- A hash algorithm from outside the repository (`crypto.Hash`, or any other
implementation of `hash.Hash`).  An instance holds the bytes handed to `Write` since the
last `Reset`; `digest` is what `Sum` appends for that content, `writeResult` is what
`Write` reports (count and error) for that content and the new slice. -/
structure Alg where
  digest : Bytes → Bytes
  size : Nat
  blockSize : Nat
  writeResult : Bytes → Bytes → Nat × Option Error

/-- The values of the interface `hash.Hash`.
* `prim alg buf`: an instance of an outside algorithm, `buf` the bytes written since reset.
* `SlatHash`: `salthash.SlatHash`.
* `MultipleHash`: `multiplehash.MultipleHash`.
* `CustomHash`: `customhash.CustomHash`; an absent (`nil`) salt is `none`. -/
inductive Hash where
  | prim (alg : Alg) (buf : Bytes)
  | SlatHash (hash : Hash) (salt : Bytes)
  | MultipleHash (hashList : List Hash) (indexes : List Nat) (numberHash : Nat)
  | CustomHash (hashType : Alg) (hash : List Hash) (saltList : List (Option Bytes))

/-- The method `crypto.Hash.New`: a new instance, nothing written. -/
def Alg.New (alg : Alg) : Hash := Hash.prim alg []

/-- First non-nil error of two, the first taking precedence. -/
def firstError : Option Error → Option Error → Option Error
  | some e, _ => some e
  | none, e => e

mutual
/-- Method `Write` of `hash.Hash`: the hash afterwards, and the pair `(n, err)` returned.
`MultipleHash.Write` adds up the counts of all sub-writes, divides by `numberHash` and
returns the error of the group; `CustomHash.Write` stops at the first failing sub-write. -/
def Hash.Write : Hash → Bytes → Hash × (Nat × Option Error)
  | .prim alg buf, p => (.prim alg (buf ++ p), alg.writeResult buf p)
  | .SlatHash hash salt, p =>
    let r := Hash.Write hash p
    (.SlatHash r.1 salt, r.2)
  | .MultipleHash hashList indexes numberHash, p =>
    let r := multiplehash.writeAll hashList p
    (.MultipleHash r.1 indexes numberHash, (r.2.1 / numberHash, r.2.2))
  | .CustomHash hashType hash saltList, p =>
    let r := customhash.writeEach hash p (0, none)
    (.CustomHash hashType r.1 saltList, r.2)
/-- Loop of `MultipleHash.Write`: every sub-hash is written; the counts are summed and
the first error (in list order) is kept. -/
def multiplehash.writeAll : List Hash → Bytes → List Hash × (Nat × Option Error)
  | [], _ => ([], (0, none))
  | h :: hs, p =>
    let r := Hash.Write h p
    let rs := multiplehash.writeAll hs p
    (r.1 :: rs.1, (r.2.1 + rs.2.1, firstError r.2.2 rs.2.2))
/-- Loop of `CustomHash.Write` over `ch.hash`: `(n, err)` are the named results, returned
at once when a sub-write fails; the sub-hashes after it are not written. -/
def customhash.writeEach : List Hash → Bytes → Nat × Option Error →
    List Hash × (Nat × Option Error)
  | [], _, acc => ([], acc)
  | h :: hs, p, _ =>
    let r := Hash.Write h p
    match r.2.2 with
    | some e => (r.1 :: hs, (r.2.1, some e))
    | none =>
      let rs := customhash.writeEach hs p r.2
      (r.1 :: rs.1, rs.2)
end

mutual
/-- Method `Sum` of `hash.Hash`: `Sum(b)`.  It changes no state.  Both wrappers over a
list join the results `hash[i].Sum(b)` of their sub-hashes. -/
def Hash.Sum : Hash → Bytes → Bytes
  | .prim alg buf, b => b ++ alg.digest buf
  | .SlatHash hash _, b => Hash.Sum hash b
  | .MultipleHash hashList _ _, b => sumJoin hashList b
  | .CustomHash _ hash _, b => sumJoin hash b
/-- The call `bytes.Join(list, nil)` over the list of all `h.Sum(b)`. -/
def sumJoin : List Hash → Bytes → Bytes
  | [], _ => []
  | h :: hs, b => Hash.Sum h b ++ sumJoin hs b
end

mutual
/-- Method `Reset` of `hash.Hash`.  `SlatHash.Reset` resets the wrapped hash and writes
the salt; `MultipleHash.Reset` resets every sub-hash; `CustomHash.Reset` ranges over
`saltList`, resets `hash[i]` and writes the salt when it is not nil. -/
def Hash.Reset : Hash → Hash
  | .prim alg _ => .prim alg []
  | .SlatHash hash salt => .SlatHash (Hash.Write (Hash.Reset hash) salt).1 salt
  | .MultipleHash hashList indexes numberHash =>
    .MultipleHash (multiplehash.resetAll hashList) indexes numberHash
  | .CustomHash hashType hash saltList =>
    .CustomHash hashType (customhash.resetEach hash saltList) saltList
/-- Loop of `MultipleHash.Reset`. -/
def multiplehash.resetAll : List Hash → List Hash
  | [] => []
  | h :: hs => Hash.Reset h :: multiplehash.resetAll hs
/-- Loop of `CustomHash.Reset` over `saltList`, indexing `ch.hash` by the same index.
The two slices have the same length in every value built by `customhash.New`; a hash
without a salt is not reached by the loop. -/
def customhash.resetEach : List Hash → List (Option Bytes) → List Hash
  | [], _ => []
  | hs, [] => hs
  | h :: hs, none :: ss => Hash.Reset h :: customhash.resetEach hs ss
  | h :: hs, some s :: ss => (Hash.Write (Hash.Reset h) s).1 :: customhash.resetEach hs ss
end

/-- Method `Size` of `hash.Hash`.  `MultipleHash.Size` is the last entry of `indexes`,
`CustomHash.Size` is `len(ch.hash) * ch.hash[0].Size()`.  Both index a slice that is
never empty in a value built by `New`; the empty case (a panic in Go) is given `0`. -/
def Hash.Size : Hash → Nat
  | .prim alg _ => alg.size
  | .SlatHash hash _ => Hash.Size hash
  | .MultipleHash _ indexes _ => indexes.getLastD 0
  | .CustomHash _ [] _ => 0
  | .CustomHash _ (h :: hs) _ => (hs.length + 1) * Hash.Size h

mutual
/-- Method `BlockSize` of `hash.Hash`.  `MultipleHash.BlockSize` adds the block sizes of
all sub-hashes, `CustomHash.BlockSize` is `ch.hash[0].BlockSize()`. -/
def Hash.BlockSize : Hash → Nat
  | .prim alg _ => alg.blockSize
  | .SlatHash hash _ => Hash.BlockSize hash
  | .MultipleHash hashList _ _ => multiplehash.blockSizeSum hashList
  | .CustomHash _ [] _ => 0
  | .CustomHash _ (h :: _) _ => Hash.BlockSize h
/-- Loop of `MultipleHash.BlockSize`. -/
def multiplehash.blockSizeSum : List Hash → Nat
  | [] => 0
  | h :: hs => Hash.BlockSize h + multiplehash.blockSizeSum hs
end

namespace salthash

/-- Function `salthash.New`: wrap and call `Reset`. -/
def New (hash : Hash) (salt : Bytes) : Hash := (Hash.SlatHash hash salt).Reset

end salthash

namespace multiplehash

/-- Loop of `multiplehash.New` building `indexes`: at step `i` it appends
`indexes[i] + h.Size()`. -/
def indexesLoop : List Nat → Nat → List Hash → List Nat
  | indexes, _, [] => indexes
  | indexes, i, h :: hs => indexesLoop (indexes ++ [indexes.getD i 0 + h.Size]) (i + 1) hs

/-- Function `multiplehash.New`. -/
def New (hashList : List Hash) : Except Error Hash :=
  if hashList.length = 0 then .error Error.ErrInvalidHashList
  else .ok (Hash.MultipleHash hashList (indexesLoop [0] 0 hashList) hashList.length)

end multiplehash

namespace customhash

/-- Function `customhash.New`: one new instance of `hashType` per salt, then `Reset`. -/
def New (hashType : Alg) (saltList : List (Option Bytes)) : Except Error Hash :=
  if saltList.length = 0 then .error Error.ErrInvalidHashList
  else .ok (Hash.CustomHash hashType (saltList.map fun _ => hashType.New) saltList).Reset

end customhash

mutual
/-- Invariant of the values of `hash.Hash` that the constructors build and the methods
keep (the fields are unexported): a `MultipleHash` has a non-empty list, `numberHash` is
its length and `indexes` has one entry more; a `CustomHash` has as many sub-hashes as
salts, at least one. -/
def Hash.valid : Hash → Prop
  | .prim _ _ => True
  | .SlatHash hash _ => Hash.valid hash
  | .MultipleHash hashList indexes numberHash =>
    allValid hashList ∧ numberHash = hashList.length ∧ 0 < hashList.length ∧
      indexes.length = hashList.length + 1
  | .CustomHash _ hash saltList =>
    allValid hash ∧ hash.length = saltList.length ∧ 0 < hash.length
/-- Every hash of the list is valid. -/
def allValid : List Hash → Prop
  | [] => True
  | h :: hs => Hash.valid h ∧ allValid hs
end

namespace ascii85

/-- Function `ascii85.MaxEncodedLen`. -/
def MaxEncodedLen (n : Nat) : Nat := (n + 3) / 4 * 5

/-- The loop `for i := 4; i >= 0; i-- { dst[i] = 33 + byte(v%85); v /= 85 }` of
`Encode`: the five characters it stores, `dst[0]` first. -/
def digits (v : Nat) : Bytes :=
  [33 + v / 85 / 85 / 85 / 85 % 85, 33 + v / 85 / 85 / 85 % 85, 33 + v / 85 / 85 % 85,
    33 + v / 85 % 85, 33 + v % 85]

/-- Last iteration of `Encode`, on fewer than four source bytes (`k` of them, packed in
`v`): all five characters are stored, `m = 5 - (4 - k)` of them are counted. -/
def encodeShort (dst : Bytes) (v k : Nat) : Result (Bytes × Nat) :=
  if dst.length < 5 then .panic
  else .ok (digits v ++ dst.drop 5, 5 - (4 - k))

/-- Function `ascii85.Encode(dst, src)` of the Go standard library: the content of `dst`
afterwards and the count returned.  Each iteration zeroes `dst[0..4]` (a panic when `dst`
is shorter), packs up to four bytes into a `uint32`, stores `z` for a zero group of four
and five base-85 characters otherwise, and goes on with `dst[m:]`. -/
def Encode : Bytes → Bytes → Result (Bytes × Nat)
  | dst, [] => .ok (dst, 0)
  | dst, [s0] => encodeShort dst (s0 <<< 24) 1
  | dst, [s0, s1] => encodeShort dst ((s1 <<< 16) ||| (s0 <<< 24)) 2
  | dst, [s0, s1, s2] => encodeShort dst ((s2 <<< 8) ||| (s1 <<< 16) ||| (s0 <<< 24)) 3
  | dst, s0 :: s1 :: s2 :: s3 :: src =>
    if dst.length < 5 then .panic
    else
      let v := s3 ||| (s2 <<< 8) ||| (s1 <<< 16) ||| (s0 <<< 24)
      if v = 0 then
        match Encode ([0, 0, 0, 0] ++ dst.drop 5) src with
        | .panic => .panic
        | .ok r => .ok (122 :: r.1, r.2 + 1)
      else
        match Encode (dst.drop 5) src with
        | .panic => .panic
        | .ok r => .ok (digits v ++ r.1, r.2 + 5)

/-- The four stores `dst[ndst] = byte(v >> 24)` ... `dst[ndst+3] = byte(v)` of `Decode`. -/
def store4 (dst : Bytes) (ndst v : Nat) : Bytes :=
  (((dst.set ndst (v >>> 24 % 256)).set (ndst + 1) (v >>> 16 % 256)).set (ndst + 2)
    (v >>> 8 % 256)).set (ndst + 3) (v % 256)

/-- The loop `for i := nb; i < 5; i++ { v = v*85 + 84 }` of `Decode`, in `uint32`. -/
def padLoop : Nat → Nat → Nat
  | 0, v => v
  | k + 1, v => padLoop k ((v * 85 + 84) % 2 ^ 32)

/-- The loop `for i := 0; i < nb-1; i++ { dst[ndst] = byte(v >> 24); v <<= 8; ndst++ }`
of `Decode`: the slice and `ndst` afterwards. -/
def flushLoop : Nat → Bytes → Nat → Nat → Bytes × Nat
  | 0, dst, _, ndst => (dst, ndst)
  | k + 1, dst, v, ndst => flushLoop k (dst.set ndst (v >>> 24 % 256)) (v <<< 8 % 2 ^ 32) (ndst + 1)

/-- The part of `Decode` after the loop over `src`. The result is the content of `dst`
and the three values `(ndst, nsrc, err)` returned. -/
def decodeEnd (flush : Bool) (srcLen : Nat) (dst : Bytes) (v nb ndst nsrc : Nat) :
    Bytes × (Nat × Nat × Option Error) :=
  if flush then
    if nb > 0 then
      if nb = 1 then (dst, (0, 0, some (Error.CorruptInputError srcLen)))
      else
        let r := flushLoop (nb - 1) dst (padLoop (5 - nb) v) ndst
        (r.1, (r.2, srcLen, none))
    else (dst, (ndst, srcLen, none))
  else (dst, (ndst, nsrc, none))

/-- The loop `for i, b := range src` of `Decode`, on the bytes not yet read. -/
def decodeLoop (flush : Bool) (srcLen : Nat) :
    Bytes → Nat → Nat → Nat → Nat → Nat → Bytes → Bytes × (Nat × Nat × Option Error)
  | dst, v, nb, ndst, nsrc, _, [] => decodeEnd flush srcLen dst v nb ndst nsrc
  | dst, v, nb, ndst, nsrc, i, b :: src =>
    if dst.length - ndst < 4 then (dst, (ndst, nsrc, none))
    else if b ≤ 32 then decodeLoop flush srcLen dst v nb ndst nsrc (i + 1) src
    else if b = 122 ∧ nb = 0 then
      decodeLoop flush srcLen (store4 dst ndst 0) 0 0 (ndst + 4) (i + 1) (i + 1) src
    else if 33 ≤ b ∧ b ≤ 117 then
      let v1 := (v * 85 + (b - 33)) % 2 ^ 32
      if nb + 1 = 5 then
        decodeLoop flush srcLen (store4 dst ndst v1) 0 0 (ndst + 4) (i + 1) (i + 1) src
      else decodeLoop flush srcLen dst v1 (nb + 1) ndst nsrc (i + 1) src
    else (dst, (0, 0, some (Error.CorruptInputError i)))

/-- Function `ascii85.Decode(dst, src, flush)` of the Go standard library: the content
of `dst` afterwards and the values `(ndst, nsrc, err)` returned.  It stops, without an
error, as soon as fewer than four bytes of `dst` are free. -/
def Decode (dst src : Bytes) (flush : Bool) : Bytes × (Nat × Nat × Option Error) :=
  decodeLoop flush src.length dst 0 0 0 0 0 src

end ascii85

namespace bloom

/-- The struct `filter` (the mutex left out). -/
structure filter where
  hash : Hash
  fingerprint : Bytes

/-- Function `bloom.New`. -/
def New (hashList : List Hash) : Except Error filter :=
  match hashList with
  | [h] => .ok ⟨h, List.replicate h.Size 0⟩
  | _ =>
    match multiplehash.New hashList with
    | .error err => .error err
    | .ok hash => .ok ⟨hash, List.replicate hash.Size 0⟩

/-- Method `hashBytes`: `Write(b)`, `Sum(nil)`, `Reset()` on the owned hash. -/
def filter.hashBytes (f : filter) (b : Bytes) : filter × Bytes :=
  let h := (f.hash.Write b).1
  (⟨h.Reset, f.fingerprint⟩, h.Sum [])

/-- The loop `for i, v := range f.fingerprint { f.fingerprint[i] = v | fp[i] }`: the
fingerprint afterwards; `fp[i]` out of range stops it with a panic, the bytes before
`i` already merged. -/
def orLoop : Bytes → Bytes → Bytes × Result Unit
  | [], _ => ([], .ok ())
  | v :: vs, [] => (v :: vs, .panic)
  | v :: vs, x :: xs =>
    let r := orLoop vs xs
    ((v ||| x) :: r.1, r.2)

/-- Method `AddFingerprint`. -/
def filter.AddFingerprint (f : filter) (fp : Bytes) : filter × Result Unit :=
  let r := orLoop f.fingerprint fp
  (⟨f.hash, r.1⟩, r.2)

/-- Method `Add`. -/
def filter.Add (f : filter) (b : Bytes) : filter × Result Unit :=
  let r := f.hashBytes b
  r.1.AddFingerprint r.2

/-- The loop `for i, v := range f.fingerprint { if v|fp[i] != v { return false } }`
followed by `return true`. -/
def coverLoop : Bytes → Bytes → Result Bool
  | [], _ => .ok true
  | _ :: _, [] => .panic
  | v :: vs, x :: xs => if v ||| x ≠ v then .ok false else coverLoop vs xs

/-- Method `ContainFingerprint`. -/
def filter.ContainFingerprint (f : filter) (fp : Bytes) : Result Bool :=
  coverLoop f.fingerprint fp

/-- Method `Contain`: the filter afterwards (the owned hash has been used) and the
answer. -/
def filter.Contain (f : filter) (b : Bytes) : filter × Result Bool :=
  let r := f.hashBytes b
  (r.1, r.1.ContainFingerprint r.2)

/-- Method `LoadFingerprint`: `ascii85.Decode(f.fingerprint, []byte(str), true)`, of
which only the error is kept. -/
def filter.LoadFingerprint (f : filter) (str : Bytes) : filter × Option Error :=
  let r := ascii85.Decode f.fingerprint str true
  (⟨f.hash, r.1⟩, r.2.2.2)

/-- Method `String`: `ascii85.Encode` into a zeroed slice of `MaxEncodedLen` bytes, all
of which is returned. -/
def filter.String (f : filter) : Result Bytes :=
  match ascii85.Encode (List.replicate (ascii85.MaxEncodedLen f.fingerprint.length) 0)
    f.fingerprint with
  | .panic => .panic
  | .ok r => .ok r.1

/-- A call on a filter. -/
inductive Op where
  | Add (b : Bytes)
  | AddFingerprint (fp : Bytes)
  | Contain (b : Bytes)
  | ContainFingerprint (fp : Bytes)
  | LoadFingerprint (str : Bytes)
  | String

/-- The filter after one call, or `panic` when the call panics. -/
def filter.step (f : filter) : Op → Result filter
  | .Add b => match (f.Add b).2 with
    | .ok _ => .ok (f.Add b).1
    | .panic => .panic
  | .AddFingerprint fp => match (f.AddFingerprint fp).2 with
    | .ok _ => .ok (f.AddFingerprint fp).1
    | .panic => .panic
  | .Contain b => match (f.Contain b).2 with
    | .ok _ => .ok (f.Contain b).1
    | .panic => .panic
  | .ContainFingerprint fp => match f.ContainFingerprint fp with
    | .ok _ => .ok f
    | .panic => .panic
  | .LoadFingerprint str => .ok (f.LoadFingerprint str).1
  | .String => match f.String with
    | .ok _ => .ok f
    | .panic => .panic

/-- The filter after a sequence of calls, or `panic` when one of them panics. -/
def filter.run (f : filter) : List Op → Result filter
  | [] => .ok f
  | op :: ops => match f.step op with
    | .ok g => g.run ops
    | .panic => .panic

end bloom

/-! ## Sample primitives -/

/-- A sample algorithm with a two-byte digest: the length and the sum of the content,
as bytes.  Its `Write` takes the whole slice and never fails. -/
def sampleAlg : Alg :=
  ⟨fun b => [b.length % 256, b.sum % 256], 2, 64, fun _ p => (p.length, none)⟩

/-- A sample algorithm with a six-byte digest (a size that `blake2b.New(6, nil)` has). -/
def sampleAlg6 : Alg :=
  ⟨fun b => [1, 2, 3, 4, 5, (6 + b.length) % 256], 6, 128, fun _ p => (p.length, none)⟩

/-- A sample algorithm with a four-byte digest. -/
def sampleAlg4 : Alg :=
  ⟨fun b => [b.length % 256, b.sum % 256, 0, 7], 4, 64, fun _ p => (p.length, none)⟩

/-- A sample primitive whose `Write` fails: it reports no byte and an error. -/
def sampleFailing : Alg :=
  ⟨fun b => [b.length % 256], 1, 64, fun _ _ => (0, some (Error.external 1))⟩

/-- A sample algorithm with a four-byte digest that is zero for some contents (as the
digest of CRC-32 is for the empty content): three zero bytes and the sum of the content. -/
def sampleAlg4z : Alg :=
  ⟨fun b => [0, 0, 0, b.sum % 256], 4, 64, fun _ p => (p.length, none)⟩

/-! ## Sequences of writes -/

/-- A sequence of calls of `Write` on one hash, the returned counts and errors dropped. -/
def Hash.writeMany : Hash → List Bytes → Hash
  | h, [] => h
  | h, x :: xs => Hash.writeMany (h.Write x).1 xs

/-! ## The encoded text -/

namespace ascii85

/-- The text that `Encode` writes, `dst[:n]` for the count `n` it returns: `z` for a zero
group of four bytes, five characters for any other group of four, and the first `k + 1`
of the five characters for a last group of `k < 4` bytes. -/
def encoded : Bytes → Bytes
  | [] => []
  | [s0] => (digits (s0 <<< 24)).take 2
  | [s0, s1] => (digits ((s1 <<< 16) ||| (s0 <<< 24))).take 3
  | [s0, s1, s2] => (digits ((s2 <<< 8) ||| (s1 <<< 16) ||| (s0 <<< 24))).take 4
  | s0 :: s1 :: s2 :: s3 :: src =>
    (if s3 ||| (s2 <<< 8) ||| (s1 <<< 16) ||| (s0 <<< 24) = 0 then [122]
      else digits (s3 ||| (s2 <<< 8) ||| (s1 <<< 16) ||| (s0 <<< 24))) ++ encoded src

end ascii85

/-- The calls on a filter whose state has `n` bytes that hand over a fingerprint of
that length; the other calls are not restricted. -/
def bloom.Op.fits (n : Nat) : bloom.Op → Prop
  | .AddFingerprint fp => fp.length = n
  | .ContainFingerprint fp => fp.length = n
  | _ => True

/-! ## Sequences of calls -/

/-- A call that changes a hash: `Write(p)` or `Reset()`. -/
inductive HashCall where
  | Write (p : Bytes)
  | Reset

/-- The hash after one call, what `Write` returns dropped. -/
def Hash.call (h : Hash) : HashCall → Hash
  | .Write p => (h.Write p).1
  | .Reset => h.Reset

/-- The hash after a sequence of calls. -/
def Hash.calls : Hash → List HashCall → Hash
  | h, [] => h
  | h, c :: cs => Hash.calls (h.call c) cs

/-- A hash whose `Sum(nil)` returns exactly `Size()` bytes in every state that `Write`
and `Reset` bring it to (the contract of `hash.Hash`). -/
def Hash.sumSized (h : Hash) : Prop :=
  ∀ cs : List HashCall, ((h.calls cs).Sum []).length = h.Size

/-! ## What the calls on a filter return -/

namespace bloom

/-- What a call on a filter hands back to its caller: nothing (`Add`, `AddFingerprint`),
the answer of `Contain` and `ContainFingerprint`, the error of `LoadFingerprint`, or the
string of `String`. -/
inductive Answer where
  | unit
  | bool (b : Bool)
  | error (e : Option Error)
  | text (s : Bytes)

/-- What one call returns, or `panic` when the call panics. -/
def filter.answer (f : filter) : Op → Result Answer
  | .Add b => match (f.Add b).2 with
    | .ok _ => .ok .unit
    | .panic => .panic
  | .AddFingerprint fp => match (f.AddFingerprint fp).2 with
    | .ok _ => .ok .unit
    | .panic => .panic
  | .Contain b => match (f.Contain b).2 with
    | .ok r => .ok (.bool r)
    | .panic => .panic
  | .ContainFingerprint fp => match f.ContainFingerprint fp with
    | .ok r => .ok (.bool r)
    | .panic => .panic
  | .LoadFingerprint str => .ok (.error (f.LoadFingerprint str).2)
  | .String => match f.String with
    | .ok s => .ok (.text s)
    | .panic => .panic

/-- What the calls of a sequence return, one after the other, up to and with the first
panic. -/
def filter.answers (f : filter) : List Op → List (Result Answer)
  | [] => []
  | op :: ops => f.answer op :: (match f.step op with
    | .ok g => g.answers ops
    | .panic => [])

end bloom

/-! ## The service -/

/-- Modelled from the spec: the method `Reset` of the filter, which `Service.AddURL`
calls and which the source of the filter does not have.  The spec has it clear the state
to all-zero bytes; the length and the owned hash stay. -/
def bloom.filter.Reset (f : bloom.filter) : bloom.filter :=
  ⟨f.hash, List.replicate f.fingerprint.length 0⟩

namespace server

/-- The outcome of a handler: the message it puts in the response with a nil error, or
the error it returns. -/
inductive Reply where
  | OK
  | NOK
  | error (e : Error)

/-- The struct `Service`: `data` maps an identity to the string stored for it.  The pool
is left out of the state: the filter that `hashPool.Get()` hands out is an argument of
the handlers, and they return the filter that the deferred `hashPool.Put` puts back. -/
structure Service where
  data : Bytes → Option Bytes

/-- The salt list of both hashes of the pooled filter: `nil` and seven strings of eight
characters. -/
def saltList : List (Option Bytes) :=
  [none, some [51, 100, 98, 85, 104, 103, 55, 120], some [97, 70, 100, 77, 118, 110, 83, 68],
    some [72, 74, 109, 84, 107, 72, 90, 80], some [71, 72, 77, 81, 65, 116, 82, 106],
    some [53, 117, 50, 67, 54, 67, 121, 117], some [68, 104, 57, 50, 112, 97, 52, 122],
    some [69, 120, 74, 90, 119, 99, 117, 80]]

/-- The function `New` of `hashPool` in `NewService`, the algorithm `crypto.BLAKE2b_512`
taken as a parameter.  The source drops the errors of the three constructors; a nil
result would panic at its first use. -/
def hashPool.New (hashType : Alg) : Result bloom.filter :=
  match customhash.New hashType saltList, customhash.New hashType saltList with
  | .ok hashBlake8, .ok hashSHA8 =>
    match bloom.New [hashBlake8, hashSHA8] with
    | .ok filter => .ok filter
    | .error _ => .panic
  | _, _ => .panic

/-- Method `Service.AddURL` for the identity `userId`; `url` is `none` when the request
has no properties.  The service afterwards, the filter put back in the pool and the
outcome; `panic` when `Add` or `String` panics. -/
def Service.AddURL (g : Service) (filter : bloom.filter) (userId : Bytes)
    (url : Option Bytes) : Result (Service × bloom.filter × Reply) :=
  let loaded : bloom.filter × Option Error :=
    match g.data userId with
    | some fp => filter.LoadFingerprint fp
    | none => (filter.Reset, none)
  match loaded.2 with
  | some err => .ok (g, loaded.1, .error err)
  | none =>
    match url with
    | none => .ok (g, loaded.1, .OK)
    | some w =>
      match (loaded.1.Add w).2 with
      | .panic => .panic
      | .ok _ =>
        match (loaded.1.Add w).1.String with
        | .panic => .panic
        | .ok s => .ok (⟨fun k => if k = userId then some s else g.data k⟩,
            (loaded.1.Add w).1, .OK)

/-- Method `Service.ContainURL`: the filter put back in the pool and the outcome; `panic`
when `Contain` panics. -/
def Service.ContainURL (g : Service) (filter : bloom.filter) (userId url : Bytes) :
    Result (bloom.filter × Reply) :=
  match g.data userId with
  | none => .ok (filter, .NOK)
  | some fp =>
    match (filter.LoadFingerprint fp).2 with
    | some err => .ok ((filter.LoadFingerprint fp).1, .error err)
    | none =>
      match ((filter.LoadFingerprint fp).1.Contain url).2 with
      | .panic => .panic
      | .ok true => .ok (((filter.LoadFingerprint fp).1.Contain url).1, .OK)
      | .ok false => .ok (((filter.LoadFingerprint fp).1.Contain url).1, .NOK)

end server

/-! ## Lengths kept by the loops over sub-hashes -/

theorem writeAll_length (hs : List Hash) (p : Bytes) :
    (multiplehash.writeAll hs p).1.length = hs.length := by
  induction hs with
  | nil => simp [multiplehash.writeAll]
  | cons h hs ih => simp [multiplehash.writeAll, ih]

theorem writeEach_length (hs : List Hash) (p : Bytes) (acc : Nat × Option Error) :
    (customhash.writeEach hs p acc).1.length = hs.length := by
  induction hs generalizing acc with
  | nil => simp [customhash.writeEach]
  | cons h hs ih =>
    simp only [customhash.writeEach]
    split
    · simp
    · simp [ih]

theorem resetAll_length (hs : List Hash) : (multiplehash.resetAll hs).length = hs.length := by
  induction hs with
  | nil => simp [multiplehash.resetAll]
  | cons h hs ih => simp [multiplehash.resetAll, ih]

theorem resetEach_length (hs : List Hash) (ss : List (Option Bytes)) :
    (customhash.resetEach hs ss).length = hs.length := by
  induction hs generalizing ss with
  | nil => simp [customhash.resetEach]
  | cons h hs ih =>
    cases ss with
    | nil => simp [customhash.resetEach]
    | cons s ss => cases s <;> simp [customhash.resetEach, ih]

mutual
theorem valid_Write : ∀ (h : Hash) (p : Bytes), h.valid → (h.Write p).1.valid
  | .prim _ _, _, _ => by simp [Hash.Write, Hash.valid]
  | .SlatHash hash _, p, hv => by
    simp only [Hash.Write, Hash.valid] at hv ⊢
    exact valid_Write hash p hv
  | .MultipleHash hashList _ _, p, hv => by
    simp only [Hash.Write, Hash.valid, writeAll_length] at hv ⊢
    exact ⟨allValid_writeAll hashList p hv.1, hv.2⟩
  | .CustomHash _ hash _, p, hv => by
    simp only [Hash.Write, Hash.valid, writeEach_length] at hv ⊢
    exact ⟨allValid_writeEach hash p (0, none) hv.1, hv.2⟩
theorem allValid_writeAll : ∀ (hs : List Hash) (p : Bytes), allValid hs →
    allValid (multiplehash.writeAll hs p).1
  | [], _, _ => by simp [multiplehash.writeAll, allValid]
  | h :: hs, p, hv => by
    simp only [multiplehash.writeAll, allValid] at hv ⊢
    exact ⟨valid_Write h p hv.1, allValid_writeAll hs p hv.2⟩
theorem allValid_writeEach : ∀ (hs : List Hash) (p : Bytes) (acc : Nat × Option Error),
    allValid hs → allValid (customhash.writeEach hs p acc).1
  | [], _, _, _ => by simp [customhash.writeEach, allValid]
  | h :: hs, p, _, hv => by
    simp only [customhash.writeEach, allValid] at hv ⊢
    split
    · exact ⟨valid_Write h p hv.1, hv.2⟩
    · exact ⟨valid_Write h p hv.1, allValid_writeEach hs p _ hv.2⟩
end

mutual
theorem valid_Reset : ∀ (h : Hash), h.valid → h.Reset.valid
  | .prim _ _, _ => by simp [Hash.Reset, Hash.valid]
  | .SlatHash hash salt, hv => by
    simp only [Hash.Reset, Hash.valid] at hv ⊢
    exact valid_Write _ salt (valid_Reset hash hv)
  | .MultipleHash hashList _ _, hv => by
    simp only [Hash.Reset, Hash.valid, resetAll_length] at hv ⊢
    exact ⟨allValid_resetAll hashList hv.1, hv.2⟩
  | .CustomHash _ hash saltList, hv => by
    simp only [Hash.Reset, Hash.valid, resetEach_length] at hv ⊢
    exact ⟨allValid_resetEach hash saltList hv.1, hv.2⟩
theorem allValid_resetAll : ∀ (hs : List Hash), allValid hs →
    allValid (multiplehash.resetAll hs)
  | [], _ => by simp [multiplehash.resetAll, allValid]
  | h :: hs, hv => by
    simp only [multiplehash.resetAll, allValid] at hv ⊢
    exact ⟨valid_Reset h hv.1, allValid_resetAll hs hv.2⟩
theorem allValid_resetEach : ∀ (hs : List Hash) (ss : List (Option Bytes)), allValid hs →
    allValid (customhash.resetEach hs ss)
  | [], _, _ => by simp [customhash.resetEach, allValid]
  | h :: hs, [], hv => by simpa [customhash.resetEach] using hv
  | h :: hs, none :: ss, hv => by
    simp only [customhash.resetEach, allValid] at hv ⊢
    exact ⟨valid_Reset h hv.1, allValid_resetEach hs ss hv.2⟩
  | h :: hs, some s :: ss, hv => by
    simp only [customhash.resetEach, allValid] at hv ⊢
    exact ⟨valid_Write _ s (valid_Reset h hv.1), allValid_resetEach hs ss hv.2⟩
end

/-! ## A reset forgets what was written -/

mutual
theorem Reset_Write : ∀ (h : Hash) (p : Bytes), h.valid → (h.Write p).1.Reset = h.Reset
  | .prim _ _, _, _ => by simp [Hash.Write, Hash.Reset]
  | .SlatHash hash salt, p, hv => by
    simp only [Hash.Write, Hash.Reset, Hash.valid] at hv ⊢
    rw [Reset_Write hash p hv]
  | .MultipleHash hashList _ _, p, hv => by
    simp only [Hash.Write, Hash.Reset, Hash.valid] at hv ⊢
    rw [resetAll_writeAll hashList p hv.1]
  | .CustomHash _ hash saltList, p, hv => by
    simp only [Hash.Write, Hash.Reset, Hash.valid] at hv ⊢
    rw [resetEach_writeEach hash p (0, none) saltList hv.1 (Nat.le_of_eq hv.2.1)]
theorem resetAll_writeAll : ∀ (hs : List Hash) (p : Bytes), allValid hs →
    multiplehash.resetAll (multiplehash.writeAll hs p).1 = multiplehash.resetAll hs
  | [], _, _ => by simp [multiplehash.writeAll]
  | h :: hs, p, hv => by
    simp only [multiplehash.writeAll, multiplehash.resetAll, allValid] at hv ⊢
    rw [Reset_Write h p hv.1, resetAll_writeAll hs p hv.2]
theorem resetEach_writeEach : ∀ (hs : List Hash) (p : Bytes) (acc : Nat × Option Error)
    (ss : List (Option Bytes)), allValid hs → hs.length ≤ ss.length →
    customhash.resetEach (customhash.writeEach hs p acc).1 ss = customhash.resetEach hs ss
  | [], _, _, _, _, _ => by simp [customhash.writeEach]
  | h :: hs, p, _, [], _, hl => by simp at hl
  | h :: hs, p, _, none :: ss, hv, hl => by
    simp only [allValid, List.length_cons, Nat.add_le_add_iff_right] at hv hl
    simp only [customhash.writeEach]
    split
    · simp only [customhash.resetEach]
      rw [Reset_Write h p hv.1]
    · simp only [customhash.resetEach]
      rw [Reset_Write h p hv.1, resetEach_writeEach hs p _ ss hv.2 hl]
  | h :: hs, p, _, some s :: ss, hv, hl => by
    simp only [allValid, List.length_cons, Nat.add_le_add_iff_right] at hv hl
    simp only [customhash.writeEach]
    split
    · simp only [customhash.resetEach]
      rw [Reset_Write h p hv.1]
    · simp only [customhash.resetEach]
      rw [Reset_Write h p hv.1, resetEach_writeEach hs p _ ss hv.2 hl]
end

mutual
theorem Reset_Reset : ∀ (h : Hash), h.valid → h.Reset.Reset = h.Reset
  | .prim _ _, _ => by simp [Hash.Reset]
  | .SlatHash hash salt, hv => by
    simp only [Hash.Reset, Hash.valid] at hv ⊢
    rw [Reset_Write _ salt (valid_Reset hash hv), Reset_Reset hash hv]
  | .MultipleHash hashList _ _, hv => by
    simp only [Hash.Reset, Hash.valid] at hv ⊢
    rw [resetAll_resetAll hashList hv.1]
  | .CustomHash _ hash saltList, hv => by
    simp only [Hash.Reset, Hash.valid] at hv ⊢
    rw [resetEach_resetEach hash saltList hv.1]
theorem resetAll_resetAll : ∀ (hs : List Hash), allValid hs →
    multiplehash.resetAll (multiplehash.resetAll hs) = multiplehash.resetAll hs
  | [], _ => by simp [multiplehash.resetAll]
  | h :: hs, hv => by
    simp only [multiplehash.resetAll, allValid] at hv ⊢
    rw [Reset_Reset h hv.1, resetAll_resetAll hs hv.2]
theorem resetEach_resetEach : ∀ (hs : List Hash) (ss : List (Option Bytes)), allValid hs →
    customhash.resetEach (customhash.resetEach hs ss) ss = customhash.resetEach hs ss
  | [], _, _ => by simp [customhash.resetEach]
  | h :: hs, [], _ => by simp [customhash.resetEach]
  | h :: hs, none :: ss, hv => by
    simp only [customhash.resetEach, allValid] at hv ⊢
    rw [Reset_Reset h hv.1, resetEach_resetEach hs ss hv.2]
  | h :: hs, some s :: ss, hv => by
    simp only [customhash.resetEach, allValid] at hv ⊢
    rw [Reset_Write _ s (valid_Reset h hv.1), Reset_Reset h hv.1,
      resetEach_resetEach hs ss hv.2]
end

namespace bloom

/-! ## The two loops over the fingerprint -/

theorem orLoop_length (s fp : Bytes) : (orLoop s fp).1.length = s.length := by
  induction s generalizing fp with
  | nil => simp [orLoop]
  | cons v vs ih =>
    cases fp with
    | nil => simp [orLoop]
    | cons x xs => simp [orLoop, ih]

theorem orLoop_ok_iff (s fp : Bytes) : (orLoop s fp).2 = .ok () ↔ s.length ≤ fp.length := by
  induction s generalizing fp with
  | nil => simp [orLoop]
  | cons v vs ih =>
    cases fp with
    | nil => simp [orLoop]
    | cons x xs => simp [orLoop, ih]

theorem orLoop_panic_iff (s fp : Bytes) : (orLoop s fp).2 = .panic ↔ fp.length < s.length := by
  have h := orLoop_ok_iff s fp
  cases hr : (orLoop s fp).2 with
  | ok u => simp [hr] at h; simp; omega
  | panic => simp [hr] at h; simp; omega

theorem orLoop_eq (s fp : Bytes) :
    (orLoop s fp).1 = List.zipWith (fun v x => v ||| x) s fp ++ s.drop fp.length := by
  induction s generalizing fp with
  | nil => simp [orLoop]
  | cons v vs ih =>
    cases fp with
    | nil => simp [orLoop]
    | cons x xs => simp [orLoop, ih]

theorem orLoop_getD (s fp : Bytes) (i : Nat) (hi : i < s.length) (hl : s.length ≤ fp.length) :
    (orLoop s fp).1.getD i 0 = s.getD i 0 ||| fp.getD i 0 := by
  induction s generalizing fp i with
  | nil => simp at hi
  | cons v vs ih =>
    cases fp with
    | nil => simp at hl
    | cons x xs =>
      cases i with
      | zero => simp [orLoop]
      | succ i =>
        simp only [List.length_cons, Nat.add_lt_add_iff_right, Nat.add_le_add_iff_right] at hi hl
        simpa [orLoop] using ih xs i hi hl

theorem coverLoop_total (s fp : Bytes) (hl : s.length ≤ fp.length) :
    coverLoop s fp = .ok true ∨ coverLoop s fp = .ok false := by
  induction s generalizing fp with
  | nil => simp [coverLoop]
  | cons v vs ih =>
    cases fp with
    | nil => simp at hl
    | cons x xs =>
      simp only [List.length_cons, Nat.add_le_add_iff_right] at hl
      simp only [coverLoop]
      split
      · simp
      · exact ih xs hl

theorem coverLoop_true_iff (s fp : Bytes) (hl : s.length ≤ fp.length) :
    coverLoop s fp = .ok true ↔ ∀ i, i < s.length → s.getD i 0 ||| fp.getD i 0 = s.getD i 0 := by
  induction s generalizing fp with
  | nil => simp [coverLoop]
  | cons v vs ih =>
    cases fp with
    | nil => simp at hl
    | cons x xs =>
      simp only [List.length_cons, Nat.add_le_add_iff_right] at hl
      simp only [coverLoop]
      constructor
      · intro h i hi
        by_cases hvx : v ||| x = v
        · simp only [hvx, ne_eq, not_true_eq_false, ↓reduceIte] at h
          cases i with
          | zero => simpa using hvx
          | succ i =>
            simp only [List.length_cons, Nat.add_lt_add_iff_right] at hi
            simpa using (ih xs hl).1 h i hi
        · simp [hvx] at h
      · intro h
        have h0 := h 0 (by simp)
        simp only [List.getD_cons_zero] at h0
        simp only [h0, ne_eq, not_true_eq_false, ↓reduceIte]
        refine (ih xs hl).2 ?_
        intro i hi
        simpa using h (i + 1) (by simpa using hi)

theorem coverLoop_true_length (s fp : Bytes) (h : coverLoop s fp = .ok true) :
    s.length ≤ fp.length := by
  induction s generalizing fp with
  | nil => simp
  | cons v vs ih =>
    cases fp with
    | nil => simp [coverLoop] at h
    | cons x xs =>
      simp only [coverLoop] at h
      split at h
      · simp at h
      · simpa using ih xs h

theorem lor_lor_self (v x : Nat) : (v ||| x) ||| x = v ||| x := by
  rw [Nat.lor_assoc, Nat.or_self]

theorem lor_keeps (v x y : Nat) (h : v ||| x = v) : (v ||| y) ||| x = v ||| y := by
  rw [Nat.lor_assoc, Nat.lor_comm y x, ← Nat.lor_assoc, h]

theorem coverLoop_orLoop_self (s fp : Bytes) (hl : s.length ≤ fp.length) :
    coverLoop (orLoop s fp).1 fp = .ok true := by
  induction s generalizing fp with
  | nil => simp [orLoop, coverLoop]
  | cons v vs ih =>
    cases fp with
    | nil => simp at hl
    | cons x xs =>
      simp only [List.length_cons, Nat.add_le_add_iff_right] at hl
      simp [orLoop, coverLoop, lor_lor_self, ih xs hl]

theorem coverLoop_orLoop (s fp g : Bytes) (h : coverLoop s fp = .ok true)
    (hl : s.length ≤ g.length) : coverLoop (orLoop s g).1 fp = .ok true := by
  induction s generalizing fp g with
  | nil => simp [orLoop, coverLoop]
  | cons v vs ih =>
    cases g with
    | nil => simp at hl
    | cons y ys =>
      cases fp with
      | nil => simp [coverLoop] at h
      | cons x xs =>
        simp only [List.length_cons, Nat.add_le_add_iff_right] at hl
        simp only [coverLoop] at h
        split at h
        · simp at h
        · rename_i hvx
          simp only [ne_eq, Decidable.not_not] at hvx
          simp [orLoop, coverLoop, lor_keeps v x y hvx, ih xs ys h hl]

end bloom

/-! ## Filters built by `New` -/

theorem indexesLoop_length (hs : List Hash) (indexes : List Nat) (i : Nat) :
    (multiplehash.indexesLoop indexes i hs).length = indexes.length + hs.length := by
  induction hs generalizing indexes i with
  | nil => simp [multiplehash.indexesLoop]
  | cons h hs ih => simp [multiplehash.indexesLoop, ih]; omega

theorem allValid_of_forall (hs : List Hash) (h : ∀ x ∈ hs, x.valid) : allValid hs := by
  induction hs with
  | nil => simp [allValid]
  | cons x xs ih =>
    simp only [allValid]
    exact ⟨h x (by simp), ih (fun y hy => h y (by simp [hy]))⟩

theorem resetAll_of_forall (hs : List Hash) (h : ∀ x ∈ hs, x.Reset = x) :
    multiplehash.resetAll hs = hs := by
  induction hs with
  | nil => simp [multiplehash.resetAll]
  | cons x xs ih =>
    simp only [multiplehash.resetAll]
    rw [h x (by simp), ih (fun y hy => h y (by simp [hy]))]

namespace bloom

theorem New_hash (hashList : List Hash) (f : filter) (hv : ∀ h ∈ hashList, h.valid)
    (hr : ∀ h ∈ hashList, h.Reset = h) (hnew : New hashList = .ok f) :
    f.hash.valid ∧ f.hash.Reset = f.hash := by
  cases hashList with
  | nil => simp [New, multiplehash.New] at hnew
  | cons a t =>
    cases t with
    | nil =>
      simp only [New, Except.ok.injEq] at hnew
      subst hnew
      exact ⟨hv a (by simp), hr a (by simp)⟩
    | cons b t =>
      simp only [New, multiplehash.New, List.length_cons, Nat.add_one_ne_zero, ↓reduceIte,
        Except.ok.injEq] at hnew
      subst hnew
      refine ⟨?_, ?_⟩
      · simp only [Hash.valid, indexesLoop_length, List.length_singleton, List.length_cons]
        exact ⟨allValid_of_forall _ hv, trivial, by omega, by simp; omega⟩
      · simp only [Hash.Reset, resetAll_of_forall _ hr]

theorem hashBytes_fst (f : filter) (b : Bytes) (hv : f.hash.valid) (hr : f.hash.Reset = f.hash) :
    (f.hashBytes b).1 = f := by
  cases f with
  | mk hash fingerprint =>
    simp only at hv hr
    simp only [filter.hashBytes, Reset_Write hash b hv, hr]

theorem Add_hash (f : filter) (b : Bytes) (hv : f.hash.valid) (hr : f.hash.Reset = f.hash) :
    (f.Add b).1.hash = f.hash := by
  simp only [filter.Add, filter.AddFingerprint, hashBytes_fst f b hv hr]

theorem Add_fingerprint (f : filter) (b : Bytes) (hv : f.hash.valid)
    (hr : f.hash.Reset = f.hash) :
    (f.Add b).1.fingerprint = (orLoop f.fingerprint (f.hashBytes b).2).1 := by
  simp only [filter.Add, filter.AddFingerprint, hashBytes_fst f b hv hr]

theorem Add_result (f : filter) (b : Bytes) (hv : f.hash.valid) (hr : f.hash.Reset = f.hash) :
    (f.Add b).2 = (orLoop f.fingerprint (f.hashBytes b).2).2 := by
  simp only [filter.Add, filter.AddFingerprint, hashBytes_fst f b hv hr]

/-- The calls other than `LoadFingerprint`. -/
theorem step_keeps (f g : filter) (op : Op) (hop : ∀ str, op ≠ Op.LoadFingerprint str)
    (hv : f.hash.valid) (hr : f.hash.Reset = f.hash) (hs : f.step op = .ok g) :
    g.hash = f.hash ∧ g.fingerprint.length = f.fingerprint.length ∧
      ∀ d, coverLoop f.fingerprint d = .ok true → coverLoop g.fingerprint d = .ok true := by
  cases op with
  | Add b =>
    simp only [filter.step] at hs
    split at hs
    · rename_i u hu
      simp only [Result.ok.injEq] at hs
      subst hs
      rw [Add_result f b hv hr] at hu
      have hl := (orLoop_ok_iff _ _).1 (by rw [hu])
      refine ⟨Add_hash f b hv hr, ?_, ?_⟩
      · rw [Add_fingerprint f b hv hr, orLoop_length]
      · intro d hd
        rw [Add_fingerprint f b hv hr]
        exact coverLoop_orLoop _ _ _ hd hl
    · simp at hs
  | AddFingerprint fp =>
    simp only [filter.step] at hs
    split at hs
    · rename_i u hu
      simp only [Result.ok.injEq] at hs
      subst hs
      simp only [filter.AddFingerprint] at hu ⊢
      have hl := (orLoop_ok_iff _ _).1 (by rw [hu])
      exact ⟨trivial, orLoop_length _ _, fun d hd => coverLoop_orLoop _ _ _ hd hl⟩
    · simp at hs
  | Contain b =>
    simp only [filter.step] at hs
    split at hs
    · simp only [Result.ok.injEq] at hs
      subst hs
      simp only [filter.Contain, hashBytes_fst f b hv hr]
      simp
    · simp at hs
  | ContainFingerprint fp =>
    simp only [filter.step] at hs
    split at hs
    · simp only [Result.ok.injEq] at hs
      subst hs
      simp
    · simp at hs
  | LoadFingerprint str => exact absurd rfl (hop str)
  | String =>
    simp only [filter.step] at hs
    split at hs
    · simp only [Result.ok.injEq] at hs
      subst hs
      simp
    · simp at hs

theorem run_keeps (ops : List Op) (f g : filter)
    (hop : ∀ op ∈ ops, ∀ str, op ≠ Op.LoadFingerprint str)
    (hv : f.hash.valid) (hr : f.hash.Reset = f.hash) (hs : f.run ops = .ok g) :
    g.hash = f.hash ∧ g.fingerprint.length = f.fingerprint.length ∧
      ∀ d, coverLoop f.fingerprint d = .ok true → coverLoop g.fingerprint d = .ok true := by
  induction ops generalizing f with
  | nil =>
    simp only [filter.run, Result.ok.injEq] at hs
    subst hs
    exact ⟨rfl, rfl, fun d hd => hd⟩
  | cons op ops ih =>
    simp only [filter.run] at hs
    split at hs
    · rename_i m hm
      have h1 := step_keeps f m op (hop op (by simp)) hv hr hm
      have h2 := ih m (fun o ho => hop o (by simp [ho])) (h1.1 ▸ hv) (by rw [h1.1]; exact hr) hs
      exact ⟨h2.1.trans h1.1, h2.2.1.trans h1.2.1, fun d hd => h2.2.2 d (h1.2.2 d hd)⟩
    · simp at hs

end bloom

namespace bloom

theorem step_hash (f g : filter) (op : Op) (hv : f.hash.valid) (hr : f.hash.Reset = f.hash)
    (hs : f.step op = .ok g) : g.hash = f.hash := by
  cases op with
  | LoadFingerprint str =>
    simp only [filter.step, Result.ok.injEq] at hs
    subst hs
    rfl
  | Add b => exact (step_keeps f g _ (by simp) hv hr hs).1
  | AddFingerprint fp => exact (step_keeps f g _ (by simp) hv hr hs).1
  | Contain b => exact (step_keeps f g _ (by simp) hv hr hs).1
  | ContainFingerprint fp => exact (step_keeps f g _ (by simp) hv hr hs).1
  | String => exact (step_keeps f g _ (by simp) hv hr hs).1

theorem run_hash (ops : List Op) (f g : filter) (hv : f.hash.valid)
    (hr : f.hash.Reset = f.hash) (hs : f.run ops = .ok g) : g.hash = f.hash := by
  induction ops generalizing f with
  | nil =>
    simp only [filter.run, Result.ok.injEq] at hs
    subst hs
    rfl
  | cons op ops ih =>
    simp only [filter.run] at hs
    split at hs
    · rename_i m hm
      have h1 := step_hash f m op hv hr hm
      exact (ih m (h1 ▸ hv) (by rw [h1]; exact hr) hs).trans h1
    · simp at hs

theorem run_append (a b : List Op) (f g : filter) (h : f.run (a ++ b) = .ok g) :
    ∃ m, f.run a = .ok m ∧ m.run b = .ok g := by
  induction a generalizing f with
  | nil => exact ⟨f, rfl, h⟩
  | cons op a ih =>
    simp only [List.cons_append, filter.run] at h ⊢
    cases hm : f.step op with
    | ok m =>
      rw [hm] at h
      exact ih m h
    | panic =>
      rw [hm] at h
      simp at h

theorem hashBytes_snd_congr (f g : filter) (b : Bytes) (h : g.hash = f.hash) :
    (g.hashBytes b).2 = (f.hashBytes b).2 := by
  simp only [filter.hashBytes, h]

/-- C1: no false negatives.  For a filter built by `New` over valid primitives in their
reset state, and any sequence of calls (none of them `LoadFingerprint`) that contains
`Add x` and in which every call returns, `Contain x` answers true in the final state;
the calls after `Add x` are arbitrary, so this holds in every later state. -/
theorem no_false_negatives (hashList : List Hash) (f g : filter) (before after : List Op)
    (x : Bytes) (hv : ∀ h ∈ hashList, h.valid) (hr : ∀ h ∈ hashList, h.Reset = h)
    (hnew : New hashList = .ok f)
    (hb : ∀ op ∈ before, ∀ str, op ≠ Op.LoadFingerprint str)
    (ha : ∀ op ∈ after, ∀ str, op ≠ Op.LoadFingerprint str)
    (hrun : f.run (before ++ Op.Add x :: after) = .ok g) :
    (g.Contain x).2 = .ok true := by
  obtain ⟨hfv, hfr⟩ := New_hash hashList f hv hr hnew
  obtain ⟨f1, h1, h2⟩ := run_append before (Op.Add x :: after) f g hrun
  have k1 := run_keeps before f f1 hb hfv hfr h1
  have hv1 : f1.hash.valid := k1.1 ▸ hfv
  have hr1 : f1.hash.Reset = f1.hash := by rw [k1.1]; exact hfr
  simp only [filter.run] at h2
  split at h2
  · rename_i f2 hstep
    have k2 := step_keeps f1 f2 (Op.Add x) (by simp) hv1 hr1 hstep
    have hv2 : f2.hash.valid := k2.1 ▸ hv1
    have hr2 : f2.hash.Reset = f2.hash := by rw [k2.1]; exact hr1
    have k3 := run_keeps after f2 g ha hv2 hr2 h2
    have hv3 : g.hash.valid := k3.1 ▸ hv2
    have hr3 : g.hash.Reset = g.hash := by rw [k3.1]; exact hr2
    -- the digest of `x` is covered right after `Add x`
    have hcov : coverLoop f2.fingerprint (f1.hashBytes x).2 = .ok true := by
      simp only [filter.step] at hstep
      split at hstep
      · rename_i u hu
        simp only [Result.ok.injEq] at hstep
        subst hstep
        rw [Add_result f1 x hv1 hr1] at hu
        rw [Add_fingerprint f1 x hv1 hr1]
        exact coverLoop_orLoop_self _ _ ((orLoop_ok_iff _ _).1 (by rw [hu]))
      · simp at hstep
    have hd : (g.hashBytes x).2 = (f1.hashBytes x).2 :=
      hashBytes_snd_congr f1 g x (k3.1.trans k2.1)
    simp only [filter.Contain, filter.ContainFingerprint, hashBytes_fst g x hv3 hr3, hd]
    exact k3.2.2 _ hcov
  · simp at h2

theorem no_false_negatives_witness :
    ((⟨sampleAlg.New, [1, 99]⟩ : filter).Contain [97]).2 = .ok true :=
  no_false_negatives [sampleAlg.New] ⟨sampleAlg.New, [0, 0]⟩ ⟨sampleAlg.New, [1, 99]⟩
    [Op.ContainFingerprint [0, 0]] [Op.Add [98]] [97]
    (by simp [sampleAlg, Alg.New, Hash.valid]) (by simp [sampleAlg, Alg.New, Hash.Reset])
    rfl (by simp) (by simp) rfl

/-- C10: determinism of the digest.  On filters built by `New` from one configuration of
valid primitives in their reset state, the digest that `hashBytes` computes for `v` is
the same after any two histories of calls, and the same as on the new filter. -/
theorem digest_deterministic (hashList : List Hash) (f f' g g' : filter)
    (ops ops' : List Op) (v : Bytes)
    (hv : ∀ h ∈ hashList, h.valid) (hr : ∀ h ∈ hashList, h.Reset = h)
    (hnew : New hashList = .ok f) (hnew' : New hashList = .ok f')
    (hrun : f.run ops = .ok g) (hrun' : f'.run ops' = .ok g') :
    (g.hashBytes v).2 = (g'.hashBytes v).2 ∧ (g.hashBytes v).2 = (f.hashBytes v).2 := by
  obtain ⟨hfv, hfr⟩ := New_hash hashList f hv hr hnew
  obtain ⟨hfv', hfr'⟩ := New_hash hashList f' hv hr hnew'
  have e : f' = f := by
    rw [hnew] at hnew'
    simp only [Except.ok.injEq] at hnew'
    exact hnew'.symm
  have k := run_hash ops f g hfv hfr hrun
  have k' := run_hash ops' f' g' hfv' hfr' hrun'
  refine ⟨?_, hashBytes_snd_congr f g v k⟩
  rw [hashBytes_snd_congr f g v k, hashBytes_snd_congr f' g' v k', e]

theorem digest_deterministic_witness :
    ((⟨sampleAlg.New, [1, 99]⟩ : filter).hashBytes [5]).2
        = ((⟨sampleAlg.New, [1, 4]⟩ : filter).hashBytes [5]).2 ∧
      ((⟨sampleAlg.New, [1, 99]⟩ : filter).hashBytes [5]).2
        = ((⟨sampleAlg.New, [0, 0]⟩ : filter).hashBytes [5]).2 :=
  digest_deterministic [sampleAlg.New] ⟨sampleAlg.New, [0, 0]⟩ ⟨sampleAlg.New, [0, 0]⟩
    ⟨sampleAlg.New, [1, 99]⟩ ⟨sampleAlg.New, [1, 4]⟩
    [Op.Add [97], Op.Add [98]] [Op.Contain [7], Op.Add [4]] [5]
    (by simp [sampleAlg, Alg.New, Hash.valid]) (by simp [sampleAlg, Alg.New, Hash.Reset])
    rfl rfl rfl rfl

end bloom

namespace bloom

theorem lor_eq_iff_testBit (s x : Nat) :
    s ||| x = s ↔ ∀ k, x.testBit k = true → s.testBit k = true := by
  constructor
  · intro h k hk
    rw [← h, Nat.testBit_or, hk, Bool.or_true]
  · intro h
    apply Nat.eq_of_testBit_eq
    intro k
    rw [Nat.testBit_or]
    cases hx : x.testBit k with
    | false => simp
    | true => simp [h k hx]

/-- C2: the OR-merge is monotone.  For `fp` as long as the state, `AddFingerprint fp`
returns, keeps the length, leaves `s[i] | fp[i]` at every position, keeps every bit that
was set, and `ContainFingerprint fp` answers true right afterwards; the same holds for
`Add v` with `fp` the digest of `v`. -/
theorem or_merge_monotone (f : filter) (fp : Bytes) (hlen : fp.length = f.fingerprint.length) :
    ((f.AddFingerprint fp).2 = .ok () ∧
      (f.AddFingerprint fp).1.fingerprint.length = f.fingerprint.length ∧
      (∀ i, i < f.fingerprint.length → (f.AddFingerprint fp).1.fingerprint.getD i 0
        = f.fingerprint.getD i 0 ||| fp.getD i 0) ∧
      (∀ i k, i < f.fingerprint.length → (f.fingerprint.getD i 0).testBit k = true →
        ((f.AddFingerprint fp).1.fingerprint.getD i 0).testBit k = true) ∧
      (f.AddFingerprint fp).1.ContainFingerprint fp = .ok true) ∧
    (∀ v, (f.hashBytes v).2 = fp →
      (f.Add v).2 = .ok () ∧
      (f.Add v).1.fingerprint.length = f.fingerprint.length ∧
      (∀ i, i < f.fingerprint.length → (f.Add v).1.fingerprint.getD i 0
        = f.fingerprint.getD i 0 ||| fp.getD i 0) ∧
      (∀ i k, i < f.fingerprint.length → (f.fingerprint.getD i 0).testBit k = true →
        ((f.Add v).1.fingerprint.getD i 0).testBit k = true) ∧
      (f.Add v).1.ContainFingerprint fp = .ok true) := by
  have hle : f.fingerprint.length ≤ fp.length := Nat.le_of_eq hlen.symm
  have main : ∀ h : Hash, ((⟨h, f.fingerprint⟩ : filter).AddFingerprint fp).2 = .ok () ∧
      ((⟨h, f.fingerprint⟩ : filter).AddFingerprint fp).1.fingerprint.length
        = f.fingerprint.length ∧
      (∀ i, i < f.fingerprint.length →
        ((⟨h, f.fingerprint⟩ : filter).AddFingerprint fp).1.fingerprint.getD i 0
          = f.fingerprint.getD i 0 ||| fp.getD i 0) ∧
      (∀ i k, i < f.fingerprint.length → (f.fingerprint.getD i 0).testBit k = true →
        (((⟨h, f.fingerprint⟩ : filter).AddFingerprint fp).1.fingerprint.getD i 0).testBit k
          = true) ∧
      ((⟨h, f.fingerprint⟩ : filter).AddFingerprint fp).1.ContainFingerprint fp
        = .ok true := by
    intro h
    simp only [filter.AddFingerprint, filter.ContainFingerprint]
    refine ⟨(orLoop_ok_iff _ _).2 hle, orLoop_length _ _,
      fun i hi => orLoop_getD _ _ i hi hle, ?_, coverLoop_orLoop_self _ _ hle⟩
    intro i k hi hk
    rw [orLoop_getD _ _ i hi hle, Nat.testBit_or, hk, Bool.true_or]
  refine ⟨main f.hash, ?_⟩
  intro v hd
  have e : f.Add v = (⟨(f.hashBytes v).1.hash, f.fingerprint⟩ : filter).AddFingerprint fp := by
    simp only [filter.Add, ← hd]
    rfl
  rw [e]
  exact main _

theorem or_merge_monotone_witness :
    ((⟨sampleAlg.New, [1, 4]⟩ : filter).AddFingerprint [1, 97]).1.ContainFingerprint [1, 97]
        = .ok true ∧
      ((⟨sampleAlg.New, [1, 4]⟩ : filter).Add [97]).1.fingerprint.getD 1 0 = 4 ||| 97 :=
  ⟨(or_merge_monotone ⟨sampleAlg.New, [1, 4]⟩ [1, 97] rfl).1.2.2.2.2,
    ((or_merge_monotone ⟨sampleAlg.New, [1, 4]⟩ [1, 97] rfl).2 [97] rfl).2.2.1 1 (by decide)⟩

theorem coverLoop_zero (n : Nat) (fp : Bytes) (hlen : fp.length = n) :
    coverLoop (List.replicate n 0) fp = .ok true ↔ ∀ b ∈ fp, b = 0 := by
  induction n generalizing fp with
  | zero =>
    cases fp with
    | nil => simp [coverLoop]
    | cons x xs => simp at hlen
  | succ n ih =>
    cases fp with
    | nil => simp at hlen
    | cons x xs =>
      simp only [List.length_cons, Nat.add_right_cancel_iff] at hlen
      simp only [List.replicate_succ, coverLoop, Nat.zero_or, ne_eq, List.mem_cons,
        forall_eq_or_imp]
      by_cases hx : x = 0
      · simp [hx, ih xs hlen]
      · simp [hx]

theorem New_fingerprint (hashList : List Hash) (f : filter) (hnew : New hashList = .ok f) :
    f.fingerprint = List.replicate f.hash.Size 0 := by
  cases hashList with
  | nil => simp [New, multiplehash.New] at hnew
  | cons a t =>
    cases t with
    | nil =>
      simp only [New, Except.ok.injEq] at hnew
      subst hnew
      rfl
    | cons b t =>
      simp only [New, multiplehash.New, List.length_cons, Nat.add_one_ne_zero, ↓reduceIte,
        Except.ok.injEq] at hnew
      subst hnew
      rfl

/-- C3: what `ContainFingerprint` computes.  For `fp` as long as the state it returns
(no panic) and answers true exactly when `s[i] | fp[i] = s[i]` at every position, that is
when every bit set in `fp` is set in the state; on a filter just built by `New` it
answers true exactly for the all-zero `fp`. -/
theorem ContainFingerprint_iff (f : filter) (fp : Bytes)
    (hlen : fp.length = f.fingerprint.length) :
    (f.ContainFingerprint fp = .ok true ∨ f.ContainFingerprint fp = .ok false) ∧
    (f.ContainFingerprint fp = .ok true ↔
      ∀ i, i < f.fingerprint.length →
        f.fingerprint.getD i 0 ||| fp.getD i 0 = f.fingerprint.getD i 0) ∧
    (f.ContainFingerprint fp = .ok true ↔
      ∀ i k, i < f.fingerprint.length → (fp.getD i 0).testBit k = true →
        (f.fingerprint.getD i 0).testBit k = true) ∧
    (∀ hashList, New hashList = .ok f →
      (f.ContainFingerprint fp = .ok true ↔ ∀ b ∈ fp, b = 0)) := by
  have hle : f.fingerprint.length ≤ fp.length := Nat.le_of_eq hlen.symm
  refine ⟨coverLoop_total _ _ hle, coverLoop_true_iff _ _ hle, ?_, ?_⟩
  · simp only [filter.ContainFingerprint, coverLoop_true_iff _ _ hle, lor_eq_iff_testBit]
    constructor
    · intro h i k hi hk
      exact h i hi k hk
    · intro h i hi k hk
      exact h i k hi hk
  · intro hashList hnew
    have e := New_fingerprint hashList f hnew
    simp only [filter.ContainFingerprint]
    rw [e] at hlen ⊢
    exact coverLoop_zero _ fp (by simpa using hlen)

theorem ContainFingerprint_iff_witness :
    ((⟨sampleAlg.New, [0, 0]⟩ : filter).ContainFingerprint [0, 0] = .ok true ↔
      ∀ b ∈ [0, 0], b = 0) :=
  (ContainFingerprint_iff ⟨sampleAlg.New, [0, 0]⟩ [0, 0] rfl).2.2.2 [sampleAlg.New] rfl

end bloom

namespace bloom

theorem orLoop_append (s fp extra : Bytes) (hl : s.length ≤ fp.length) :
    orLoop s (fp ++ extra) = orLoop s fp := by
  induction s generalizing fp with
  | nil => simp [orLoop]
  | cons v vs ih =>
    cases fp with
    | nil => simp at hl
    | cons x xs =>
      simp only [List.length_cons, Nat.add_le_add_iff_right] at hl
      simp [orLoop, ih xs hl]

theorem coverLoop_append (s fp extra : Bytes) (hl : s.length ≤ fp.length) :
    coverLoop s (fp ++ extra) = coverLoop s fp := by
  induction s generalizing fp with
  | nil => simp [coverLoop]
  | cons v vs ih =>
    cases fp with
    | nil => simp at hl
    | cons x xs =>
      simp only [List.length_cons, Nat.add_le_add_iff_right] at hl
      simp [coverLoop, ih xs hl]

theorem coverLoop_short (s fp : Bytes) (hl : fp.length < s.length) :
    (coverLoop s fp = .panic ∨ coverLoop s fp = .ok false) ∧
    (coverLoop s fp = .panic ↔
      ∀ i, i < fp.length → s.getD i 0 ||| fp.getD i 0 = s.getD i 0) := by
  induction s generalizing fp with
  | nil => simp at hl
  | cons v vs ih =>
    cases fp with
    | nil => simp [coverLoop]
    | cons x xs =>
      simp only [List.length_cons, Nat.add_lt_add_iff_right] at hl
      simp only [coverLoop]
      by_cases hvx : v ||| x = v
      · simp only [hvx, ne_eq, not_true_eq_false, ↓reduceIte, List.length_cons]
        refine ⟨(ih xs hl).1, ?_⟩
        rw [(ih xs hl).2]
        constructor
        · intro h i hi
          cases i with
          | zero => simpa using hvx
          | succ i => simpa using h i (by omega)
        · intro h i hi
          simpa using h (i + 1) (by omega)
      · simp only [ne_eq, hvx, not_false_eq_true, ↓reduceIte, reduceCtorEq, or_true,
          List.length_cons, false_iff, not_forall, true_and]
        exact ⟨0, by simp, by simpa using hvx⟩

/-- C6, refuted as stated: with a state of two bytes and `fp` of one byte,
`AddFingerprint` panics after it has changed the first byte, and `ContainFingerprint`
panics; with `fp` longer than the state `AddFingerprint` returns and has merged the
leading byte.  No error value is reported in either case. -/
theorem length_mismatch_counterexample :
    ((⟨sampleAlg.New, [0, 0]⟩ : filter).AddFingerprint [1]).2 = .panic ∧
    ((⟨sampleAlg.New, [0, 0]⟩ : filter).AddFingerprint [1]).1.fingerprint = [1, 0] ∧
    (⟨sampleAlg.New, [1, 0]⟩ : filter).ContainFingerprint [1] = .panic ∧
    ((⟨sampleAlg.New, [0]⟩ : filter).AddFingerprint [1, 1]).2 = .ok () ∧
    ((⟨sampleAlg.New, [0]⟩ : filter).AddFingerprint [1, 1]).1.fingerprint = [1] := by
  decide

/-- C6, amended: there is no length check.  Bytes of `fp` beyond the length of the state
are ignored by `AddFingerprint` and `ContainFingerprint` (nothing is read out of bounds
and the calls return).  With `fp` shorter than the state, `AddFingerprint` panics after
merging `fp` into the leading bytes of the state (the other bytes are unchanged), and
`ContainFingerprint` answers false when some byte of `fp` is not covered and panics
otherwise. -/
theorem length_mismatch_behaviour (f : filter) (fp : Bytes) :
    (∀ extra, f.fingerprint.length ≤ fp.length →
      f.AddFingerprint (fp ++ extra) = f.AddFingerprint fp ∧
      (f.AddFingerprint (fp ++ extra)).2 = .ok () ∧
      f.ContainFingerprint (fp ++ extra) = f.ContainFingerprint fp ∧
      f.ContainFingerprint (fp ++ extra) ≠ .panic) ∧
    (fp.length < f.fingerprint.length →
      (f.AddFingerprint fp).2 = .panic ∧
      (f.AddFingerprint fp).1.fingerprint
        = List.zipWith (fun v x => v ||| x) f.fingerprint fp ++ f.fingerprint.drop fp.length ∧
      (f.ContainFingerprint fp = .panic ∨ f.ContainFingerprint fp = .ok false) ∧
      (f.ContainFingerprint fp = .panic ↔
        ∀ i, i < fp.length → f.fingerprint.getD i 0 ||| fp.getD i 0 = f.fingerprint.getD i 0)) := by
  constructor
  · intro extra hl
    simp only [filter.AddFingerprint, filter.ContainFingerprint, orLoop_append _ _ extra hl,
      coverLoop_append _ _ extra hl, true_and]
    refine ⟨(orLoop_ok_iff _ _).2 hl, ?_⟩
    rcases coverLoop_total _ _ hl with h | h <;> simp [h]
  · intro hl
    simp only [filter.AddFingerprint, filter.ContainFingerprint]
    exact ⟨(orLoop_panic_iff _ _).2 hl, orLoop_eq _ _, coverLoop_short _ _ hl⟩

theorem length_mismatch_behaviour_witness :
    ((⟨sampleAlg.New, [4]⟩ : filter).AddFingerprint ([1] ++ [1, 1])
        = (⟨sampleAlg.New, [4]⟩ : filter).AddFingerprint [1]) ∧
      ((⟨sampleAlg.New, [4, 0]⟩ : filter).AddFingerprint [1]).1.fingerprint
        = List.zipWith (fun v x => v ||| x) [4, 0] [1] ++ [4, 0].drop 1 :=
  ⟨((length_mismatch_behaviour ⟨sampleAlg.New, [4]⟩ [1]).1 [1, 1] (by decide)).1,
    ((length_mismatch_behaviour ⟨sampleAlg.New, [4, 0]⟩ [1]).2 (by decide)).2.1⟩

/-- C9, refuted as stated: a primitive that holds the byte 9 when it is handed to `New`
makes the first `Add [1]` merge the digest of `[9, 1]`, which is `[2, 10]`, not the
digest `[1, 1]` of `[1]` alone. -/
theorem Add_resets_first_counterexample :
    ∃ f : filter, New [Hash.prim sampleAlg [9]] = .ok f ∧
      (f.Add [1]).1.fingerprint = [2, 10] ∧
      (orLoop f.fingerprint ((f.hash.Reset.Write [1]).1.Sum [])).1 = [1, 1] :=
  ⟨⟨Hash.prim sampleAlg [9], [0, 0]⟩, rfl, by decide, by decide⟩

/-- C9, amended: `Add` writes `v` on top of what the owned primitive holds, takes
`Sum(nil)` and resets afterwards.  After `Add v` the primitive is in its reset state;
when the digest `S` so obtained is at least as long as the state, `Add` returns and the
state is `old | S` byte by byte; `S` is the digest of `v` alone when the primitive was in
its reset state before the call, and for an outside primitive holding `buf` it is the
digest of `buf ++ v`. -/
theorem Add_digest (f : filter) (v : Bytes) (hv : f.hash.valid) :
    (f.Add v).1.hash = f.hash.Reset ∧
    (f.Add v).1.hash.Reset = (f.Add v).1.hash ∧
    (f.fingerprint.length ≤ ((f.hash.Write v).1.Sum []).length →
      (f.Add v).2 = .ok () ∧
      (f.Add v).1.fingerprint.length = f.fingerprint.length ∧
      ∀ i, i < f.fingerprint.length → (f.Add v).1.fingerprint.getD i 0
        = f.fingerprint.getD i 0 ||| ((f.hash.Write v).1.Sum []).getD i 0) ∧
    (f.hash.Reset = f.hash →
      (f.hash.Write v).1.Sum [] = (f.hash.Reset.Write v).1.Sum []) ∧
    (∀ alg buf, f.hash = Hash.prim alg buf →
      (f.hash.Write v).1.Sum [] = alg.digest (buf ++ v)) := by
  have e : (f.Add v).1.hash = f.hash.Reset := by
    simp only [filter.Add, filter.AddFingerprint, filter.hashBytes]
    exact Reset_Write f.hash v hv
  refine ⟨e, ?_, ?_, ?_, ?_⟩
  · rw [e]
    exact Reset_Reset f.hash hv
  · intro hl
    simp only [filter.Add, filter.AddFingerprint, filter.hashBytes]
    exact ⟨(orLoop_ok_iff _ _).2 hl, orLoop_length _ _, fun i hi => orLoop_getD _ _ i hi hl⟩
  · intro hr
    rw [hr]
  · intro alg buf hh
    rw [hh]
    simp [Hash.Write, Hash.Sum]

theorem Add_digest_witness :
    ((⟨Hash.prim sampleAlg [9], [0, 0]⟩ : filter).Add [1]).1.hash
        = (Hash.prim sampleAlg [9]).Reset ∧
      ((Hash.prim sampleAlg [9]).Write [1]).1.Sum [] = sampleAlg.digest ([9] ++ [1]) :=
  ⟨(Add_digest ⟨Hash.prim sampleAlg [9], [0, 0]⟩ [1] (by simp [Hash.valid])).1,
    (Add_digest ⟨Hash.prim sampleAlg [9], [0, 0]⟩ [1] (by simp [Hash.valid])).2.2.2.2
      sampleAlg [9] rfl⟩

end bloom

namespace ascii85

/-! ## Steps of the decoding loop -/

theorem store4_length (dst : Bytes) (ndst v : Nat) : (store4 dst ndst v).length = dst.length := by
  simp [store4]

theorem decodeLoop_full (fl : Bool) (L : Nat) (dst : Bytes) (v nb ndst nsrc i b : Nat)
    (src : Bytes) (h : dst.length - ndst < 4) :
    decodeLoop fl L dst v nb ndst nsrc i (b :: src) = (dst, (ndst, nsrc, none)) := by
  simp [decodeLoop, h]

theorem decodeLoop_space (fl : Bool) (L : Nat) (dst : Bytes) (v nb ndst nsrc i b : Nat)
    (src : Bytes) (h : ndst + 4 ≤ dst.length) (hb : b ≤ 32) :
    decodeLoop fl L dst v nb ndst nsrc i (b :: src)
      = decodeLoop fl L dst v nb ndst nsrc (i + 1) src := by
  have h1 : ¬ dst.length - ndst < 4 := by omega
  simp [decodeLoop, h1, hb]

theorem decodeLoop_z (fl : Bool) (L : Nat) (dst : Bytes) (v ndst nsrc i : Nat)
    (src : Bytes) (h : ndst + 4 ≤ dst.length) :
    decodeLoop fl L dst v 0 ndst nsrc i (122 :: src)
      = decodeLoop fl L (store4 dst ndst 0) 0 0 (ndst + 4) (i + 1) (i + 1) src := by
  have h1 : ¬ dst.length - ndst < 4 := by omega
  simp [decodeLoop, h1]

theorem decodeLoop_digit (fl : Bool) (L : Nat) (dst : Bytes) (v nb ndst nsrc i b : Nat)
    (src : Bytes) (h : ndst + 4 ≤ dst.length) (hb : 33 ≤ b ∧ b ≤ 117) (hnb : nb + 1 ≠ 5) :
    decodeLoop fl L dst v nb ndst nsrc i (b :: src)
      = decodeLoop fl L dst ((v * 85 + (b - 33)) % 2 ^ 32) (nb + 1) ndst nsrc (i + 1) src := by
  have h1 : ¬ dst.length - ndst < 4 := by omega
  have h2 : ¬ b ≤ 32 := by omega
  have h3 : ¬ (b = 122 ∧ nb = 0) := by omega
  simp only [decodeLoop, h1, h2, h3, hb, hnb, if_false, if_true, and_self]

theorem decodeLoop_digit5 (fl : Bool) (L : Nat) (dst : Bytes) (v nb ndst nsrc i b : Nat)
    (src : Bytes) (h : ndst + 4 ≤ dst.length) (hb : 33 ≤ b ∧ b ≤ 117) (hnb : nb + 1 = 5) :
    decodeLoop fl L dst v nb ndst nsrc i (b :: src)
      = decodeLoop fl L (store4 dst ndst ((v * 85 + (b - 33)) % 2 ^ 32)) 0 0 (ndst + 4)
          (i + 1) (i + 1) src := by
  have h1 : ¬ dst.length - ndst < 4 := by omega
  have h2 : ¬ b ≤ 32 := by omega
  have h3 : ¬ (b = 122 ∧ nb = 0) := by omega
  simp only [decodeLoop, h1, h2, h3, hb, hnb, if_false, if_true, and_self]

theorem decodeLoop_bad (fl : Bool) (L : Nat) (dst : Bytes) (v nb ndst nsrc i b : Nat)
    (src : Bytes) (h : ndst + 4 ≤ dst.length) (hb : 117 < b) (hz : b = 122 → nb ≠ 0) :
    decodeLoop fl L dst v nb ndst nsrc i (b :: src)
      = (dst, (0, 0, some (Error.CorruptInputError i))) := by
  have h1 : ¬ dst.length - ndst < 4 := by omega
  have h2 : ¬ b ≤ 32 := by omega
  have h3 : ¬ (b = 122 ∧ nb = 0) := fun hh => hz hh.1 hh.2
  have h4 : ¬ (33 ≤ b ∧ b ≤ 117) := by omega
  simp only [decodeLoop, h1, h2, h3, h4, if_false]

/-- Digits that do not complete a group are accumulated. -/
theorem decodeLoop_pending (fl : Bool) (L : Nat) (pending : Bytes) :
    ∀ (dst : Bytes) (v nb ndst nsrc i : Nat) (src : Bytes), ndst + 4 ≤ dst.length →
      (∀ b ∈ pending, 33 ≤ b ∧ b ≤ 117) → nb + pending.length < 5 →
      ∃ v', decodeLoop fl L dst v nb ndst nsrc i (pending ++ src)
        = decodeLoop fl L dst v' (nb + pending.length) ndst nsrc (i + pending.length) src := by
  induction pending with
  | nil => intro dst v nb ndst nsrc i src _ _ _; exact ⟨v, by simp⟩
  | cons b bs ih =>
    intro dst v nb ndst nsrc i src h hd hl
    simp only [List.length_cons] at hl
    obtain ⟨v', hv'⟩ := ih dst ((v * 85 + (b - 33)) % 2 ^ 32) (nb + 1) ndst nsrc (i + 1) src h
      (fun x hx => hd x (by simp [hx])) (by omega)
    refine ⟨v', ?_⟩
    rw [List.cons_append, decodeLoop_digit fl L dst v nb ndst nsrc i b _ h (hd b (by simp))
      (by omega), hv']
    simp only [List.length_cons]
    congr 1 <;> omega

/-- One whole group, `z` or five digits, stores four bytes. -/
theorem decodeLoop_group (fl : Bool) (L : Nat) (g : Bytes)
    (hg : g = [122] ∨ (g.length = 5 ∧ ∀ b ∈ g, 33 ≤ b ∧ b ≤ 117))
    (dst : Bytes) (ndst nsrc i : Nat) (src : Bytes) (h : ndst + 4 ≤ dst.length) :
    ∃ dst', dst'.length = dst.length ∧
      decodeLoop fl L dst 0 0 ndst nsrc i (g ++ src)
        = decodeLoop fl L dst' 0 0 (ndst + 4) (i + g.length) (i + g.length) src := by
  rcases hg with hg | ⟨hl, hd⟩
  · subst hg
    exact ⟨store4 dst ndst 0, store4_length _ _ _, by
      simpa using decodeLoop_z fl L dst 0 ndst nsrc i src h⟩
  · match g, hl with
    | [a, b, c, d, e], _ =>
      have ha := hd a (by simp)
      have hb := hd b (by simp)
      have hc := hd c (by simp)
      have hdd := hd d (by simp)
      have he := hd e (by simp)
      refine ⟨store4 dst ndst ((((((0 * 85 + (a - 33)) % 2 ^ 32 * 85 + (b - 33)) % 2 ^ 32 * 85
        + (c - 33)) % 2 ^ 32 * 85 + (d - 33)) % 2 ^ 32 * 85 + (e - 33)) % 2 ^ 32),
        store4_length _ _ _, ?_⟩
      simp only [List.cons_append, List.nil_append, List.length_cons, List.length_nil]
      rw [decodeLoop_digit fl L dst _ 0 ndst nsrc i a _ h ha (by omega),
        decodeLoop_digit fl L dst _ 1 ndst nsrc (i + 1) b _ h hb (by omega),
        decodeLoop_digit fl L dst _ 2 ndst nsrc (i + 1 + 1) c _ h hc (by omega),
        decodeLoop_digit fl L dst _ 3 ndst nsrc (i + 1 + 1 + 1) d _ h hdd (by omega),
        decodeLoop_digit5 fl L dst _ 4 ndst nsrc (i + 1 + 1 + 1 + 1) e _ h he (by omega)]

/-- Whole groups in a row, as long as they fit. -/
theorem decodeLoop_groups (fl : Bool) (L : Nat) (groups : List Bytes) :
    (∀ g ∈ groups, g = [122] ∨ (g.length = 5 ∧ ∀ b ∈ g, 33 ≤ b ∧ b ≤ 117)) →
    ∀ (dst : Bytes) (ndst nsrc i : Nat) (src : Bytes),
      ndst + 4 * groups.length ≤ dst.length →
      ∃ dst' nsrc', dst'.length = dst.length ∧
        decodeLoop fl L dst 0 0 ndst nsrc i (groups.flatten ++ src)
          = decodeLoop fl L dst' 0 0 (ndst + 4 * groups.length) nsrc'
              (i + groups.flatten.length) src := by
  induction groups with
  | nil => intro _ dst ndst nsrc i src _; exact ⟨dst, nsrc, rfl, by simp⟩
  | cons g gs ih =>
    intro hg dst ndst nsrc i src h
    simp only [List.length_cons] at h
    obtain ⟨d1, hl1, e1⟩ := decodeLoop_group fl L g (hg g (by simp)) dst ndst nsrc i
      (gs.flatten ++ src) (by omega)
    obtain ⟨d2, n2, hl2, e2⟩ := ih (fun x hx => hg x (by simp [hx])) d1 (ndst + 4)
      (i + g.length) (i + g.length) src (by omega)
    refine ⟨d2, n2, hl2.trans hl1, ?_⟩
    simp only [List.flatten_cons, List.append_assoc, List.length_cons, List.length_append]
    rw [e1, e2]
    congr 1 <;> omega

end ascii85

namespace ascii85

theorem decodeEnd_error (L : Nat) (dst : Bytes) (v nb ndst nsrc : Nat) :
    (decodeEnd true L dst v nb ndst nsrc).2.2.2
      = if nb = 1 then some (Error.CorruptInputError L) else none := by
  unfold decodeEnd
  by_cases h0 : nb > 0
  · by_cases h1 : nb = 1
    · simp [h1]
    · simp [h0, h1]
  · have h1 : ¬ nb = 1 := by omega
    simp [h0, h1]

end ascii85

namespace bloom

/-- C7, refuted as stated: the empty string, a text that encodes four bytes loaded into
a state of eight, a text that encodes eight bytes loaded into a state of four, and a
text with a character outside the alphabet after the state is full, all load with a nil
error. -/
theorem LoadFingerprint_error_counterexample :
    ((⟨sampleAlg4.New, [9, 9, 9, 9]⟩ : filter).LoadFingerprint []).2 = none ∧
    ((⟨sampleAlg4.New, [9, 9, 9, 9, 9, 9, 9, 9]⟩ : filter).LoadFingerprint
      [33, 33, 33, 33, 34]).2 = none ∧
    ((⟨sampleAlg4.New, [9, 9, 9, 9]⟩ : filter).LoadFingerprint
      [33, 33, 33, 33, 34, 33, 33, 33, 33, 35]).2 = none ∧
    ((⟨sampleAlg4.New, [9, 9, 9, 9]⟩ : filter).LoadFingerprint
      [33, 33, 33, 33, 34, 126]).2 = none := by
  decide

/-- C7, amended: `LoadFingerprint` checks no length.  For a text made of whole groups
(`z` or five characters between `!` and `u`) followed by fewer than five such characters:
a character above `u` (other than `z` at the start of a group) met while four bytes of
the state are still free gives `CorruptInputError` at its offset; a text ending one
character into a group, with four bytes still free, gives `CorruptInputError` at its
length; otherwise the error is nil, in particular for the empty string, for a text
encoding fewer bytes than the state holds, and for whatever follows once fewer than four
bytes of the state are free. -/
theorem LoadFingerprint_error_cases (f : filter) (groups : List Bytes) (pending : Bytes)
    (hg : ∀ g ∈ groups, g = [122] ∨ (g.length = 5 ∧ ∀ b ∈ g, 33 ≤ b ∧ b ≤ 117))
    (hp : ∀ b ∈ pending, 33 ≤ b ∧ b ≤ 117) (hpl : pending.length < 5)
    (hfit : 4 * groups.length ≤ f.fingerprint.length) :
    (∀ c post, 4 * groups.length + 4 ≤ f.fingerprint.length → 117 < c →
      (c = 122 → pending ≠ []) →
      (f.LoadFingerprint (groups.flatten ++ pending ++ c :: post)).2
        = some (Error.CorruptInputError (groups.flatten ++ pending).length)) ∧
    (4 * groups.length + 4 ≤ f.fingerprint.length → pending.length = 1 →
      (f.LoadFingerprint (groups.flatten ++ pending)).2
        = some (Error.CorruptInputError (groups.flatten ++ pending).length)) ∧
    (pending.length ≠ 1 → (f.LoadFingerprint (groups.flatten ++ pending)).2 = none) ∧
    (∀ rest, f.fingerprint.length < 4 * groups.length + 4 →
      (f.LoadFingerprint (groups.flatten ++ rest)).2 = none) := by
  have full : ∀ rest, f.fingerprint.length < 4 * groups.length + 4 →
      (f.LoadFingerprint (groups.flatten ++ rest)).2 = none := by
    intro rest hfull
    simp only [filter.LoadFingerprint, ascii85.Decode]
    obtain ⟨d1, n1, hl1, e1⟩ := ascii85.decodeLoop_groups true
      (groups.flatten ++ rest).length groups hg f.fingerprint 0 0 0 rest (by omega)
    rw [e1]
    cases rest with
    | nil => simp [ascii85.decodeLoop, ascii85.decodeEnd_error]
    | cons b rest =>
      rw [ascii85.decodeLoop_full _ _ _ _ _ _ _ _ _ _ (by omega)]
  refine ⟨?_, ?_, ?_, full⟩
  · intro c post hfree hc hz
    simp only [filter.LoadFingerprint, ascii85.Decode, List.append_assoc]
    obtain ⟨d1, n1, hl1, e1⟩ := ascii85.decodeLoop_groups true
      (groups.flatten ++ (pending ++ c :: post)).length groups hg f.fingerprint 0 0 0
      (pending ++ c :: post) (by omega)
    obtain ⟨v1, e2⟩ := ascii85.decodeLoop_pending true
      (groups.flatten ++ (pending ++ c :: post)).length pending d1 0 0
      (0 + 4 * groups.length) n1 (0 + groups.flatten.length) (c :: post) (by omega) hp
      (by omega)
    rw [e1, e2, ascii85.decodeLoop_bad _ _ _ _ _ _ _ _ _ _ (by omega) hc (by
      intro h0
      have := hz h0
      cases pending with
      | nil => exact absurd rfl this
      | cons x xs => simp)]
    simp
  · intro hfree hone
    simp only [filter.LoadFingerprint, ascii85.Decode]
    obtain ⟨d1, n1, hl1, e1⟩ := ascii85.decodeLoop_groups true
      (groups.flatten ++ pending).length groups hg f.fingerprint 0 0 0 pending (by omega)
    obtain ⟨v1, e2⟩ := ascii85.decodeLoop_pending true
      (groups.flatten ++ pending).length pending d1 0 0
      (0 + 4 * groups.length) n1 (0 + groups.flatten.length) [] (by omega) hp (by omega)
    rw [List.append_nil] at e2
    rw [e1, e2]
    simp [ascii85.decodeLoop, ascii85.decodeEnd_error, hone]
  · intro hne
    by_cases hfree : 4 * groups.length + 4 ≤ f.fingerprint.length
    · simp only [filter.LoadFingerprint, ascii85.Decode]
      obtain ⟨d1, n1, hl1, e1⟩ := ascii85.decodeLoop_groups true
        (groups.flatten ++ pending).length groups hg f.fingerprint 0 0 0 pending (by omega)
      obtain ⟨v1, e2⟩ := ascii85.decodeLoop_pending true
        (groups.flatten ++ pending).length pending d1 0 0
        (0 + 4 * groups.length) n1 (0 + groups.flatten.length) [] (by omega) hp (by omega)
      rw [List.append_nil] at e2
      rw [e1, e2]
      simp [ascii85.decodeLoop, ascii85.decodeEnd_error, hne]
    · exact full pending (by omega)

theorem LoadFingerprint_error_cases_witness :
    ((⟨sampleAlg4.New, [9, 9, 9, 9, 9, 9, 9, 9]⟩ : filter).LoadFingerprint
        ([[122]].flatten ++ [33, 34] ++ 126 :: [33])).2
        = some (Error.CorruptInputError ([[122]].flatten ++ [33, 34]).length) ∧
      ((⟨sampleAlg4.New, [9, 9, 9, 9, 9, 9, 9, 9]⟩ : filter).LoadFingerprint
        ([[122]].flatten ++ [33, 34])).2 = none :=
  ⟨(LoadFingerprint_error_cases ⟨sampleAlg4.New, [9, 9, 9, 9, 9, 9, 9, 9]⟩ [[122]] [33, 34]
      (by simp) (by decide) (by decide) (by decide)).1 126 [33] (by decide) (by decide)
      (by simp),
    (LoadFingerprint_error_cases ⟨sampleAlg4.New, [9, 9, 9, 9, 9, 9, 9, 9]⟩ [[122]] [33, 34]
      (by simp) (by decide) (by decide) (by decide)).2.2.1 (by decide)⟩

end bloom

namespace ascii85

/-! ## What the decoder writes -/

theorem splice_take (dst : Bytes) (n : Nat) (b : Bytes) (k : Nat) (hk : b.length = k)
    (h : n + k ≤ dst.length) :
    (dst.take n ++ b ++ dst.drop (n + k)).take (n + k) = dst.take n ++ b := by
  apply List.take_left'
  simp only [List.length_append, List.length_take]
  omega

theorem splice_drop (dst : Bytes) (n : Nat) (b : Bytes) (k m : Nat) (hk : b.length = k)
    (h : n + k ≤ dst.length) :
    (dst.take n ++ b ++ dst.drop (n + k)).drop (n + k + m) = dst.drop (n + k + m) := by
  have e : n + k = (dst.take n ++ b).length := by
    simp only [List.length_append, List.length_take]
    omega
  rw [e, List.drop_append, ← e, List.drop_drop]

theorem splice_splice (dst : Bytes) (n : Nat) (b w : Bytes) (k : Nat) (hk : b.length = k)
    (h : n + k ≤ dst.length) :
    (dst.take n ++ b ++ dst.drop (n + k)).take (n + k) ++ w
        ++ (dst.take n ++ b ++ dst.drop (n + k)).drop (n + k + w.length)
      = dst.take n ++ (b ++ w) ++ dst.drop (n + (b ++ w).length) := by
  rw [splice_take dst n b k hk h, splice_drop dst n b k w.length hk h, List.length_append, hk,
    Nat.add_assoc]
  simp only [List.append_assoc]

theorem set_eq_splice (dst : Bytes) (n x : Nat) (h : n + 1 ≤ dst.length) :
    dst.set n x = dst.take n ++ [x] ++ dst.drop (n + 1) := by
  rw [List.set_eq_take_cons_drop x (by omega)]
  simp

theorem store4_eq (dst : Bytes) (n v : Nat) (h : n + 4 ≤ dst.length) :
    store4 dst n v = dst.take n ++ [v >>> 24 % 256, v >>> 16 % 256, v >>> 8 % 256, v % 256]
      ++ dst.drop (n + 4) := by
  induction n generalizing dst with
  | zero =>
    match dst, h with
    | a :: b :: c :: d :: rest, _ => simp [store4]
  | succ n ih =>
    match dst, h with
    | x :: xs, h =>
      have h' : n + 4 ≤ xs.length := by simpa using h
      have e := ih xs h'
      simp only [store4] at e ⊢
      simp only [List.set_cons_succ, List.take_succ_cons, List.cons_append]
      rw [e]
      simp [Nat.add_right_comm]

theorem flushLoop_eq (k : Nat) : ∀ v : Nat, ∃ w : Bytes, w.length = k ∧
    ∀ (dst : Bytes) (ndst : Nat), ndst + k ≤ dst.length →
      flushLoop k dst v ndst = (dst.take ndst ++ w ++ dst.drop (ndst + w.length), ndst + k) := by
  induction k with
  | zero =>
    intro v
    exact ⟨[], rfl, fun dst ndst _ => by simp [flushLoop]⟩
  | succ k ih =>
    intro v
    obtain ⟨w, hw, e⟩ := ih (v <<< 8 % 2 ^ 32)
    refine ⟨[v >>> 24 % 256] ++ w, by simp [hw], ?_⟩
    intro dst ndst h
    have hs := set_eq_splice dst ndst (v >>> 24 % 256) (by omega)
    have hl : (dst.set ndst (v >>> 24 % 256)).length = dst.length := by simp
    rw [flushLoop, e _ (ndst + 1) (by rw [hl]; omega), hs,
      splice_splice dst ndst [v >>> 24 % 256] w 1 rfl (by omega), Nat.add_assoc,
      Nat.add_comm 1 k]

/-- The decoder overwrites a run of bytes that starts at `ndst`; the bytes it stores and
the values it returns depend on the text and on the length of `dst` only. -/
theorem decodeLoop_frame (fl : Bool) (L len : Nat) (src : Bytes) :
    ∀ (v nb ndst nsrc i : Nat), nb < 5 → (0 < nb → ndst + 4 ≤ len) → ndst ≤ len →
      ∃ (w : Bytes) (t : Nat × Nat × Option Error), ndst + w.length ≤ len ∧
        (t.2.2 = none → t.1 = ndst + w.length) ∧
        ∀ dst : Bytes, dst.length = len →
          decodeLoop fl L dst v nb ndst nsrc i src
            = (dst.take ndst ++ w ++ dst.drop (ndst + w.length), t) := by
  induction src with
  | nil =>
    intro v nb ndst nsrc i hnb hfree hle
    simp only [decodeLoop, decodeEnd]
    by_cases hfl : fl = true
    · by_cases h0 : nb > 0
      · by_cases h1 : nb = 1
        · exact ⟨[], (0, 0, some (Error.CorruptInputError L)), by simpa using hle,
            by simp, fun dst _ => by simp [hfl, h1]⟩
        · obtain ⟨w, hw, e⟩ := flushLoop_eq (nb - 1) (padLoop (5 - nb) v)
          have h4 := hfree h0
          refine ⟨w, (ndst + (nb - 1), L, none), by omega, by simp [hw], ?_⟩
          intro dst hd
          simp only [hfl, h0, h1, if_true, if_false]
          rw [e dst ndst (by omega)]
      · exact ⟨[], (ndst, L, none), by simpa using hle, by simp,
          fun dst _ => by simp [hfl, h0]⟩
    · exact ⟨[], (ndst, nsrc, none), by simpa using hle, by simp,
        fun dst _ => by simp [hfl]⟩
  | cons b src ih =>
    intro v nb ndst nsrc i hnb hfree hle
    by_cases hfull : len - ndst < 4
    · exact ⟨[], (ndst, nsrc, none), by simpa using hle, by simp, fun dst hd => by
        rw [decodeLoop_full _ _ _ _ _ _ _ _ _ _ (by rw [hd]; exact hfull)]; simp⟩
    · have h4 : ndst + 4 ≤ len := by omega
      -- a completed group stores four bytes and goes on
      have group : ∀ x : Nat, ∃ (w : Bytes) (t : Nat × Nat × Option Error),
          ndst + w.length ≤ len ∧ (t.2.2 = none → t.1 = ndst + w.length) ∧
          ∀ dst : Bytes, dst.length = len →
            decodeLoop fl L (store4 dst ndst x) 0 0 (ndst + 4) (i + 1) (i + 1) src
              = (dst.take ndst ++ w ++ dst.drop (ndst + w.length), t) := by
        intro x
        obtain ⟨w, t, h1, h2, e⟩ := ih 0 0 (ndst + 4) (i + 1) (i + 1) (by omega)
          (by omega) h4
        refine ⟨[x >>> 24 % 256, x >>> 16 % 256, x >>> 8 % 256, x % 256] ++ w, t,
          by simp only [List.length_append, List.length_cons, List.length_nil]; omega,
          fun ht => by
            rw [h2 ht]
            simp only [List.length_append, List.length_cons, List.length_nil]
            omega, ?_⟩
        intro dst hd
        have hl : (store4 dst ndst x).length = len := by rw [store4_length, hd]
        rw [e _ hl, store4_eq dst ndst x (by rw [hd]; exact h4),
          splice_splice dst ndst [x >>> 24 % 256, x >>> 16 % 256, x >>> 8 % 256, x % 256] w 4
            rfl (by rw [hd]; exact h4)]
      by_cases hsp : b ≤ 32
      · obtain ⟨w, t, h1, h2, e⟩ := ih v nb ndst nsrc (i + 1) hnb hfree hle
        exact ⟨w, t, h1, h2, fun dst hd => by
          rw [decodeLoop_space _ _ _ _ _ _ _ _ _ _ (by rw [hd]; exact h4) hsp]
          exact e dst hd⟩
      · by_cases hz : b = 122 ∧ nb = 0
        · obtain ⟨hb, hn⟩ := hz
          subst hb hn
          obtain ⟨w, t, h1, h2, e⟩ := group 0
          exact ⟨w, t, h1, h2, fun dst hd => by
            rw [decodeLoop_z _ _ _ _ _ _ _ _ (by rw [hd]; exact h4)]
            exact e dst hd⟩
        · by_cases hdig : 33 ≤ b ∧ b ≤ 117
          · by_cases h5 : nb + 1 = 5
            · obtain ⟨w, t, h1, h2, e⟩ := group ((v * 85 + (b - 33)) % 2 ^ 32)
              exact ⟨w, t, h1, h2, fun dst hd => by
                rw [decodeLoop_digit5 _ _ _ _ _ _ _ _ _ _ (by rw [hd]; exact h4) hdig h5]
                exact e dst hd⟩
            · obtain ⟨w, t, h1, h2, e⟩ := ih ((v * 85 + (b - 33)) % 2 ^ 32) (nb + 1) ndst nsrc
                (i + 1) (by omega) (fun _ => h4) hle
              exact ⟨w, t, h1, h2, fun dst hd => by
                rw [decodeLoop_digit _ _ _ _ _ _ _ _ _ _ (by rw [hd]; exact h4) hdig h5]
                exact e dst hd⟩
          · refine ⟨[], (0, 0, some (Error.CorruptInputError i)), by simpa using hle,
              by simp, fun dst hd => ?_⟩
            have h1 : ¬ dst.length - ndst < 4 := by rw [hd]; exact hfull
            simp only [decodeLoop, h1, hsp, hz, hdig, if_false]
            simp

end ascii85

namespace bloom

/-- C8, refuted as stated: on a state of eight bytes the empty text loads with a nil
error and leaves all eight bytes; a text of one group loads with a nil error, replaces
four bytes and leaves the other four, so that the result differs with the prior state. -/
theorem LoadFingerprint_replaces_counterexample :
    ((⟨sampleAlg4.New, [1, 2, 3, 4, 5, 6, 7, 8]⟩ : filter).LoadFingerprint []).2 = none ∧
    ((⟨sampleAlg4.New, [1, 2, 3, 4, 5, 6, 7, 8]⟩ : filter).LoadFingerprint []).1.fingerprint
      = [1, 2, 3, 4, 5, 6, 7, 8] ∧
    ((⟨sampleAlg4.New, [1, 2, 3, 4, 5, 6, 7, 8]⟩ : filter).LoadFingerprint
      [33, 33, 33, 33, 34]).2 = none ∧
    ((⟨sampleAlg4.New, [1, 2, 3, 4, 5, 6, 7, 8]⟩ : filter).LoadFingerprint
      [33, 33, 33, 33, 34]).1.fingerprint = [0, 0, 0, 1, 5, 6, 7, 8] ∧
    ((⟨sampleAlg4.New, [9, 9, 9, 9, 9, 9, 9, 9]⟩ : filter).LoadFingerprint
      [33, 33, 33, 33, 34]).1.fingerprint = [0, 0, 0, 1, 9, 9, 9, 9] := by
  decide

/-- C8, amended: `LoadFingerprint` decodes into the existing state.  The bytes `w` that
the decoder stores depend on the text and on the length of the state only, as does the
error; they replace the leading bytes of the state, the length is kept, the bytes from
position `len(w)` on are those of the prior state, and with a nil error `len(w)` is the
count of decoded bytes that `Decode` returns.  The owned hash is not touched. -/
theorem LoadFingerprint_overwrites (f g : filter) (text : Bytes)
    (hlen : f.fingerprint.length = g.fingerprint.length) :
    ∃ w : Bytes, w.length ≤ f.fingerprint.length ∧
      (f.LoadFingerprint text).1.fingerprint = w ++ f.fingerprint.drop w.length ∧
      (g.LoadFingerprint text).1.fingerprint = w ++ g.fingerprint.drop w.length ∧
      (f.LoadFingerprint text).2 = (g.LoadFingerprint text).2 ∧
      ((f.LoadFingerprint text).2 = none →
        (ascii85.Decode f.fingerprint text true).2.1 = w.length) ∧
      (f.LoadFingerprint text).1.hash = f.hash := by
  obtain ⟨w, t, h1, h2, e⟩ := ascii85.decodeLoop_frame true text.length
    f.fingerprint.length text 0 0 0 0 0 (by omega) (by omega) (by omega)
  refine ⟨w, by omega, ?_, ?_, ?_, ?_, rfl⟩
  · simp [filter.LoadFingerprint, ascii85.Decode, e f.fingerprint rfl]
  · simp [filter.LoadFingerprint, ascii85.Decode, e g.fingerprint hlen.symm]
  · simp [filter.LoadFingerprint, ascii85.Decode, e f.fingerprint rfl,
      e g.fingerprint hlen.symm]
  · intro hn
    simp only [filter.LoadFingerprint, ascii85.Decode, e f.fingerprint rfl] at hn ⊢
    simpa using h2 hn

theorem LoadFingerprint_overwrites_witness :
    ∃ w : Bytes, w.length ≤ 8 ∧
      ((⟨sampleAlg4.New, [1, 2, 3, 4, 5, 6, 7, 8]⟩ : filter).LoadFingerprint
        [33, 33, 33, 33, 34]).1.fingerprint = w ++ [1, 2, 3, 4, 5, 6, 7, 8].drop w.length ∧
      ((⟨sampleAlg4.New, [9, 9, 9, 9, 9, 9, 9, 9]⟩ : filter).LoadFingerprint
        [33, 33, 33, 33, 34]).1.fingerprint = w ++ [9, 9, 9, 9, 9, 9, 9, 9].drop w.length := by
  obtain ⟨w, h1, h2, h3, _⟩ := LoadFingerprint_overwrites
    ⟨sampleAlg4.New, [1, 2, 3, 4, 5, 6, 7, 8]⟩ ⟨sampleAlg4.New, [9, 9, 9, 9, 9, 9, 9, 9]⟩
    [33, 33, 33, 33, 34] rfl
  exact ⟨w, h1, h2, h3⟩

/-- C4, failing input: a primitive with a digest of six bytes.  The state
`[1, 2, 3, 4, 5, 6]` is written by `String` as ten characters; loading them into a new
filter of the same configuration returns a nil error and leaves `[1, 2, 3, 4, 0, 0]`:
the last two bytes are not restored. -/
theorem roundtrip_size_six :
    ∃ a b : filter, New [sampleAlg6.New] = .ok a ∧ New [sampleAlg6.New] = .ok b ∧
      (a.Add []).1.fingerprint = [1, 2, 3, 4, 5, 6] ∧
      (a.Add []).1.String = .ok [33, 60, 78, 63, 43, 34, 85, 52, 114, 44] ∧
      (b.LoadFingerprint [33, 60, 78, 63, 43, 34, 85, 52, 114, 44]).2 = none ∧
      (b.LoadFingerprint [33, 60, 78, 63, 43, 34, 85, 52, 114, 44]).1.fingerprint
        = [1, 2, 3, 4, 0, 0] :=
  ⟨⟨sampleAlg6.New, [0, 0, 0, 0, 0, 0]⟩, ⟨sampleAlg6.New, [0, 0, 0, 0, 0, 0]⟩, rfl, rfl,
    by decide, by decide, by decide, by decide⟩

/-- C5, failing input: a primitive with a digest of six bytes.  After `Add [97]` on a new
filter, `String`, and `LoadFingerprint` of that text into a new filter of the same
configuration, `Contain [97]` answers false on the second filter. -/
theorem save_load_size_six :
    ∃ a b : filter, New [sampleAlg6.New] = .ok a ∧ New [sampleAlg6.New] = .ok b ∧
      (a.Add [97]).2 = .ok () ∧
      (a.Add [97]).1.String = .ok [33, 60, 78, 63, 43, 34, 85, 62, 35, 45] ∧
      (b.LoadFingerprint [33, 60, 78, 63, 43, 34, 85, 62, 35, 45]).2 = none ∧
      ((b.LoadFingerprint [33, 60, 78, 63, 43, 34, 85, 62, 35, 45]).1.Contain [97]).2
        = .ok false :=
  ⟨⟨sampleAlg6.New, [0, 0, 0, 0, 0, 0]⟩, ⟨sampleAlg6.New, [0, 0, 0, 0, 0, 0]⟩, rfl, rfl,
    by decide, by decide, by decide, by decide⟩

end bloom

namespace ascii85

/-! ## Encoding then decoding a state of whole groups -/

theorem pack4_eq (a b c d : Nat) (hb : b < 256) (hc : c < 256) (hd : d < 256) :
    d ||| (c <<< 8) ||| (b <<< 16) ||| (a <<< 24)
      = a * 16777216 + b * 65536 + c * 256 + d := by
  have e1 : d ||| (c <<< 8) = c * 256 + d := by
    rw [Nat.lor_comm, Nat.shiftLeft_eq, Nat.mul_comm c,
      ← Nat.mul_add_lt_is_or (by norm_num; exact hd : d < 2 ^ 8)]
  have e2 : (c * 256 + d) ||| (b <<< 16) = b * 65536 + (c * 256 + d) := by
    rw [Nat.lor_comm, Nat.shiftLeft_eq, Nat.mul_comm b,
      ← Nat.mul_add_lt_is_or (by norm_num; omega : c * 256 + d < 2 ^ 16)]
  have e3 : (b * 65536 + (c * 256 + d)) ||| (a <<< 24)
      = a * 16777216 + (b * 65536 + (c * 256 + d)) := by
    rw [Nat.lor_comm, Nat.shiftLeft_eq, Nat.mul_comm a,
      ← Nat.mul_add_lt_is_or (by norm_num; omega : b * 65536 + (c * 256 + d) < 2 ^ 24)]
  rw [e1, e2, e3]
  omega

theorem digits_range (v : Nat) : ∀ b ∈ digits v, 33 ≤ b ∧ b ≤ 117 := by
  intro b hb
  simp only [digits, List.mem_cons, List.mem_singleton, List.not_mem_nil, or_false] at hb
  omega

theorem digits_value (v : Nat) (hv : v < 4294967296) :
    (((((0 * 85 + (33 + v / 85 / 85 / 85 / 85 % 85 - 33)) % 4294967296 * 85
      + (33 + v / 85 / 85 / 85 % 85 - 33)) % 4294967296 * 85
      + (33 + v / 85 / 85 % 85 - 33)) % 4294967296 * 85
      + (33 + v / 85 % 85 - 33)) % 4294967296 * 85
      + (33 + v % 85 - 33)) % 4294967296 = v := by
  have h4 : (0 * 85 + (33 + v / 85 / 85 / 85 / 85 % 85 - 33)) % 4294967296
      = v / 85 / 85 / 85 / 85 := by omega
  rw [h4]
  have h3 : (v / 85 / 85 / 85 / 85 * 85 + (33 + v / 85 / 85 / 85 % 85 - 33)) % 4294967296
      = v / 85 / 85 / 85 := by omega
  rw [h3]
  have h2 : (v / 85 / 85 / 85 * 85 + (33 + v / 85 / 85 % 85 - 33)) % 4294967296
      = v / 85 / 85 := by omega
  rw [h2]
  have h1 : (v / 85 / 85 * 85 + (33 + v / 85 % 85 - 33)) % 4294967296 = v / 85 := by omega
  rw [h1]
  omega

theorem bytes_of_pack (a b c d : Nat) (ha : a < 256) (hb : b < 256) (hc : c < 256)
    (hd : d < 256) :
    [(a * 16777216 + b * 65536 + c * 256 + d) >>> 24 % 256,
      (a * 16777216 + b * 65536 + c * 256 + d) >>> 16 % 256,
      (a * 16777216 + b * 65536 + c * 256 + d) >>> 8 % 256,
      (a * 16777216 + b * 65536 + c * 256 + d) % 256] = [a, b, c, d] := by
  simp only [Nat.shiftRight_eq_div_pow]
  norm_num
  omega

/-- A state of `4 * k` bytes is encoded without a panic, and decoding the text stores
the same bytes again, whatever `dst` held. -/
theorem encode_decode (k : Nat) : ∀ (s : Bytes), s.length = 4 * k → (∀ b ∈ s, b < 256) →
    ∀ ebuf : Bytes, 5 * k ≤ ebuf.length →
    ∃ (out : Bytes) (n : Nat), Encode ebuf s = .ok (out, n) ∧ out.length = ebuf.length ∧
      ∀ (fl : Bool) (L : Nat) (dst : Bytes) (ndst nsrc i : Nat), ndst + s.length ≤ dst.length →
        ∃ (nsrc' i' : Nat) (rest : Bytes),
          decodeLoop fl L dst 0 0 ndst nsrc i out
            = decodeLoop fl L (dst.take ndst ++ s ++ dst.drop (ndst + s.length)) 0 0
                (ndst + s.length) nsrc' i' rest := by
  induction k with
  | zero =>
    intro s hs _ ebuf _
    have e : s = [] := List.length_eq_zero.1 (by simpa using hs)
    subst e
    refine ⟨ebuf, 0, by simp [Encode], rfl, ?_⟩
    intro fl L dst ndst nsrc i _
    exact ⟨nsrc, i, ebuf, by simp⟩
  | succ k ih =>
    intro s hs hb ebuf he
    match s, hs, hb with
    | a :: b :: c :: d :: s', hs, hb =>
      have hs' : s'.length = 4 * k := by
        simp only [List.length_cons] at hs
        omega
      have ha := hb a (by simp)
      have hbb := hb b (by simp)
      have hc := hb c (by simp)
      have hd := hb d (by simp)
      have hb' : ∀ x ∈ s', x < 256 := fun x hx => hb x (by simp [hx])
      have he5 : ¬ ebuf.length < 5 := by omega
      have hv := pack4_eq a b c d hbb hc hd
      by_cases h0 : d ||| (c <<< 8) ||| (b <<< 16) ||| (a <<< 24) = 0
      · -- the group is zero and is written as `z`
        have hz : a = 0 ∧ b = 0 ∧ c = 0 ∧ d = 0 := by
          rw [hv] at h0
          omega
        obtain ⟨ea, eb, ec, ed⟩ := hz
        subst ea eb ec ed
        obtain ⟨out, n, ho, hl, hdec⟩ := ih s' hs' hb' ([0, 0, 0, 0] ++ ebuf.drop 5)
          (by simp only [List.length_append, List.length_cons, List.length_nil,
            List.length_drop]; omega)
        refine ⟨122 :: out, n + 1, ?_, ?_, ?_⟩
        · simp only [Encode, he5, if_false, h0, if_true, ho]
        · simp only [List.length_cons, hl, List.length_append, List.length_nil,
            List.length_drop]
          omega
        · intro fl L dst ndst nsrc i hfit
          simp only [List.length_cons] at hfit
          have h4 : ndst + 4 ≤ dst.length := by omega
          obtain ⟨n', i', rest, e⟩ := hdec fl L (store4 dst ndst 0) (ndst + 4) (i + 1) (i + 1)
            (by rw [store4_length]; omega)
          refine ⟨n', i', rest, ?_⟩
          rw [decodeLoop_z fl L dst 0 ndst nsrc i out h4, e, store4_eq dst ndst 0 h4,
            splice_splice dst ndst [0 >>> 24 % 256, 0 >>> 16 % 256, 0 >>> 8 % 256, 0 % 256] s' 4
              rfl h4]
          simp [Nat.add_assoc, Nat.add_comm 4]
      · -- the group is written as five characters
        have hlt : a * 16777216 + b * 65536 + c * 256 + d < 4294967296 := by omega
        obtain ⟨out, n, ho, hl, hdec⟩ := ih s' hs' hb' (ebuf.drop 5)
          (by simp only [List.length_drop]; omega)
        refine ⟨digits (a * 16777216 + b * 65536 + c * 256 + d) ++ out, n + 5, ?_, ?_, ?_⟩
        · have h0' : ¬ a * 16777216 + b * 65536 + c * 256 + d = 0 := by rw [← hv]; exact h0
          simp only [Encode, he5, if_false, ho, hv, h0']
        · simp only [List.length_append, hl, List.length_drop, digits, List.length_cons,
            List.length_nil]
          omega
        · intro fl L dst ndst nsrc i hfit
          simp only [List.length_cons] at hfit
          have h4 : ndst + 4 ≤ dst.length := by omega
          have hr := digits_range (a * 16777216 + b * 65536 + c * 256 + d)
          have hval := digits_value (a * 16777216 + b * 65536 + c * 256 + d) hlt
          have hbytes := bytes_of_pack a b c d ha hbb hc hd
          obtain ⟨n', i', rest, e⟩ := hdec fl L
            (store4 dst ndst (a * 16777216 + b * 65536 + c * 256 + d)) (ndst + 4)
            (i + 1 + 1 + 1 + 1 + 1) (i + 1 + 1 + 1 + 1 + 1) (by rw [store4_length]; omega)
          refine ⟨n', i', rest, ?_⟩
          simp only [digits, List.mem_cons, List.mem_singleton, List.not_mem_nil, or_false,
            forall_eq_or_imp, forall_eq] at hr
          obtain ⟨r0, r1, r2, r3, r4⟩ := hr
          simp only [digits, List.cons_append, List.nil_append]
          rw [decodeLoop_digit fl L dst _ 0 ndst nsrc i _ _ h4 r0 (by omega),
            decodeLoop_digit fl L dst _ 1 ndst nsrc (i + 1) _ _ h4 r1 (by omega),
            decodeLoop_digit fl L dst _ 2 ndst nsrc (i + 1 + 1) _ _ h4 r2 (by omega),
            decodeLoop_digit fl L dst _ 3 ndst nsrc (i + 1 + 1 + 1) _ _ h4 r3 (by omega),
            decodeLoop_digit5 fl L dst _ 4 ndst nsrc (i + 1 + 1 + 1 + 1) _ _ h4 r4 (by omega)]
          norm_num only at hval ⊢
          rw [hval, e, store4_eq dst ndst _ h4, hbytes,
            splice_splice dst ndst [a, b, c, d] s' 4 rfl h4]
          simp [Nat.add_assoc, Nat.add_comm 4]

end ascii85

namespace bloom

/-- Round trip for a state of whole groups: when the length of the state is a multiple
of four, `String` returns a text, and `LoadFingerprint` of that text into any filter
with a state of the same length returns a nil error and leaves exactly that state. -/
theorem String_LoadFingerprint_of_whole_groups (f g : filter) (k : Nat)
    (hk : f.fingerprint.length = 4 * k) (hb : ∀ b ∈ f.fingerprint, b < 256)
    (hg : g.fingerprint.length = f.fingerprint.length) :
    ∃ text, f.String = .ok text ∧ (g.LoadFingerprint text).2 = none ∧
      (g.LoadFingerprint text).1.fingerprint = f.fingerprint := by
  obtain ⟨out, n, ho, _, hdec⟩ := ascii85.encode_decode k f.fingerprint hk hb
    (List.replicate (ascii85.MaxEncodedLen f.fingerprint.length) 0)
    (by simp only [List.length_replicate, ascii85.MaxEncodedLen, hk]; omega)
  obtain ⟨n', i', rest, e⟩ := hdec true out.length g.fingerprint 0 0 0 (by omega)
  have hfull : g.fingerprint.take 0 ++ f.fingerprint
      ++ g.fingerprint.drop (0 + f.fingerprint.length) = f.fingerprint := by
    rw [← hg]
    simp
  rw [hfull] at e
  refine ⟨out, by simp only [filter.String, ho], ?_, ?_⟩
  · simp only [filter.LoadFingerprint, ascii85.Decode, e]
    cases rest with
    | nil => simp [ascii85.decodeLoop, ascii85.decodeEnd_error]
    | cons b rest => rw [ascii85.decodeLoop_full _ _ _ _ _ _ _ _ _ _ (by omega)]
  · simp only [filter.LoadFingerprint, ascii85.Decode, e]
    cases rest with
    | nil => simp [ascii85.decodeLoop, ascii85.decodeEnd]
    | cons b rest => rw [ascii85.decodeLoop_full _ _ _ _ _ _ _ _ _ _ (by omega)]

end bloom

/-! ## Construction -/

namespace bloom

/-- C11: what `New` builds.  For a non-empty list `New` returns a nil error and a filter
whose state has the length `Size()` of the owned hash, every byte zero; the owned hash
is the element itself when the list has one element, and otherwise a `MultipleHash` that
holds the list in the given order. -/
theorem New_builds (hashList : List Hash) (hne : hashList ≠ []) :
    ∃ f : filter, New hashList = .ok f ∧
      f.fingerprint.length = f.hash.Size ∧ (∀ b ∈ f.fingerprint, b = 0) ∧
      (∀ h, hashList = [h] → f.hash = h) ∧
      (hashList.length ≠ 1 → ∃ indexes,
        f.hash = Hash.MultipleHash hashList indexes hashList.length) := by
  cases hashList with
  | nil => exact absurd rfl hne
  | cons a t =>
    cases t with
    | nil =>
      refine ⟨⟨a, List.replicate a.Size 0⟩, rfl, by simp, ?_, ?_, by simp⟩
      · intro b hb
        exact (List.mem_replicate.1 hb).2
      · intro h hh
        simp only [List.cons.injEq, and_true] at hh
        exact hh
    | cons b t =>
      refine ⟨⟨Hash.MultipleHash (a :: b :: t) (multiplehash.indexesLoop [0] 0 (a :: b :: t))
        (a :: b :: t).length, List.replicate (Hash.MultipleHash (a :: b :: t)
          (multiplehash.indexesLoop [0] 0 (a :: b :: t)) (a :: b :: t).length).Size 0⟩,
        ?_, by simp, ?_, ?_, ?_⟩
      · simp [New, multiplehash.New]
      · intro x hx
        exact (List.mem_replicate.1 hx).2
      · intro h hh
        simp at hh
      · intro _
        exact ⟨_, rfl⟩

theorem New_builds_witness :
    ∃ f : filter, New [sampleAlg.New, sampleAlg4.New] = .ok f ∧
      f.fingerprint.length = f.hash.Size ∧ (∀ b ∈ f.fingerprint, b = 0) := by
  obtain ⟨f, h1, h2, h3, _⟩ := New_builds [sampleAlg.New, sampleAlg4.New] (by simp)
  exact ⟨f, h1, h2, h3⟩

/-- C12: `bloom.New` and `multiplehash.New` fail exactly on the empty list, with
`ErrInvalidHashList`; a failure carries no filter and no hash. -/
theorem New_error_iff (hashList : List Hash) :
    ((∃ e, New hashList = .error e) ↔ hashList = []) ∧
    (∀ e, New hashList = .error e → e = Error.ErrInvalidHashList) ∧
    ((∃ e, multiplehash.New hashList = .error e) ↔ hashList = []) ∧
    (∀ e, multiplehash.New hashList = .error e → e = Error.ErrInvalidHashList) := by
  cases hashList with
  | nil => simp [New, multiplehash.New]
  | cons a t =>
    cases t with
    | nil => simp [New, multiplehash.New]
    | cons b t => simp [New, multiplehash.New]

end bloom

/-! ## Sizes -/

theorem indexesLoop_append (hs : List Hash) : ∀ (indexes : List Nat) (i : Nat),
    ∃ more, multiplehash.indexesLoop indexes i hs = indexes ++ more := by
  induction hs with
  | nil => intro indexes i; exact ⟨[], by simp [multiplehash.indexesLoop]⟩
  | cons h hs ih =>
    intro indexes i
    obtain ⟨more, e⟩ := ih (indexes ++ [indexes.getD i 0 + h.Size]) (i + 1)
    exact ⟨[indexes.getD i 0 + h.Size] ++ more, by
      simp only [multiplehash.indexesLoop, e, List.append_assoc]⟩

/-- Entry `i + j` of the table is entry `i` plus the sizes of the first `j` hashes. -/
theorem indexesLoop_getD (hs : List Hash) : ∀ (indexes : List Nat) (i j : Nat),
    indexes.length = i + 1 → j ≤ hs.length →
    (multiplehash.indexesLoop indexes i hs).getD (i + j) 0
      = indexes.getD i 0 + ((hs.take j).map Hash.Size).sum := by
  induction hs with
  | nil =>
    intro indexes i j _ hj
    have : j = 0 := by simpa using hj
    subst this
    simp [multiplehash.indexesLoop]
  | cons h hs ih =>
    intro indexes i j hl hj
    cases j with
    | zero =>
      obtain ⟨more, e⟩ := indexesLoop_append (h :: hs) indexes i
      rw [e]
      simp only [Nat.add_zero, List.take_zero, List.map_nil, List.sum_nil]
      rw [List.getD_append _ _ _ _ (by omega)]
    | succ j =>
      simp only [List.length_cons, Nat.add_le_add_iff_right] at hj
      have e := ih (indexes ++ [indexes.getD i 0 + h.Size]) (i + 1) j (by simp [hl]) hj
      have e2 : (indexes ++ [indexes.getD i 0 + h.Size]).getD (i + 1) 0
          = indexes.getD i 0 + h.Size := by
        rw [List.getD_append_right _ _ _ _ (by omega)]
        simp [hl]
      rw [e2] at e
      simp only [multiplehash.indexesLoop, List.take_succ_cons, List.map_cons, List.sum_cons]
      rw [show i + (j + 1) = i + 1 + j by omega, e]
      omega

theorem getLastD_eq_getD (l : List Nat) (k : Nat) (h : l.length = k + 1) :
    l.getLastD 0 = l.getD k 0 := by
  induction l generalizing k with
  | nil => simp at h
  | cons a l ih =>
    cases l with
    | nil =>
      have : k = 0 := by simpa using h
      subst this
      simp
    | cons b l =>
      cases k with
      | zero => simp at h
      | succ k =>
        have := ih k (by simpa using h)
        simpa using this

theorem multiplehash_New_Size (hashList : List Hash) (m : Hash)
    (h : multiplehash.New hashList = .ok m) : m.Size = (hashList.map Hash.Size).sum := by
  unfold multiplehash.New at h
  split at h
  · simp at h
  · simp only [Except.ok.injEq] at h
    subst h
    simp only [Hash.Size]
    rw [getLastD_eq_getD _ hashList.length (by simp [indexesLoop_length]; omega)]
    have e := indexesLoop_getD hashList [0] 0 hashList.length rfl (Nat.le_refl _)
    simpa using e

theorem resetEach_new (alg : Alg) (saltList : List (Option Bytes)) :
    customhash.resetEach (saltList.map fun _ => alg.New) saltList
      = saltList.map fun s => Hash.prim alg (s.getD []) := by
  induction saltList with
  | nil => simp [customhash.resetEach]
  | cons s ss ih =>
    cases s with
    | none =>
      simp only [List.map_cons, customhash.resetEach, ih]
      simp [Alg.New, Hash.Reset]
    | some s =>
      simp only [List.map_cons, customhash.resetEach, ih]
      simp [Alg.New, Hash.Reset, Hash.Write]

theorem customhash_New_eq (alg : Alg) (saltList : List (Option Bytes)) (c : Hash)
    (h : customhash.New alg saltList = .ok c) :
    saltList ≠ [] ∧
      c = Hash.CustomHash alg (saltList.map fun s => Hash.prim alg (s.getD [])) saltList := by
  unfold customhash.New at h
  split at h
  · simp at h
  · rename_i hne
    simp only [Except.ok.injEq] at h
    subst h
    refine ⟨fun e => hne (by simp [e]), ?_⟩
    simp only [Hash.Reset, resetEach_new]

/-- C13: size additivity.  The table of a `MultipleHash` built by `New` has as entry `j`
the sum of the sizes of the first `j` hashes, and `Size()`, its last entry, is the sum of
all sizes; a `CustomHash` built by `New` from `n` salts has size `n` times the size of
the algorithm. -/
theorem Size_additive :
    (∀ (hashList : List Hash) (m : Hash), multiplehash.New hashList = .ok m →
      m.Size = (hashList.map Hash.Size).sum ∧
      ∃ indexes, m = Hash.MultipleHash hashList indexes hashList.length ∧
        indexes.length = hashList.length + 1 ∧
        ∀ j, j ≤ hashList.length →
          indexes.getD j 0 = ((hashList.take j).map Hash.Size).sum) ∧
    (∀ (hashType : Alg) (saltList : List (Option Bytes)) (c : Hash),
      customhash.New hashType saltList = .ok c →
      c.Size = saltList.length * hashType.size) := by
  constructor
  · intro hashList m h
    refine ⟨multiplehash_New_Size hashList m h, ?_⟩
    unfold multiplehash.New at h
    split at h
    · simp at h
    · simp only [Except.ok.injEq] at h
      subst h
      refine ⟨_, rfl, by simp [indexesLoop_length]; omega, ?_⟩
      intro j hj
      simpa using indexesLoop_getD hashList [0] 0 j rfl hj
  · intro hashType saltList c h
    obtain ⟨hne, e⟩ := customhash_New_eq hashType saltList c h
    subst e
    cases saltList with
    | nil => exact absurd rfl hne
    | cons s ss => simp [Hash.Size]

theorem Size_additive_witness :
    (Hash.MultipleHash [sampleAlg.New, sampleAlg4.New]
        (multiplehash.indexesLoop [0] 0 [sampleAlg.New, sampleAlg4.New]) 2).Size
      = ([sampleAlg.New, sampleAlg4.New].map Hash.Size).sum :=
  (Size_additive.1 [sampleAlg.New, sampleAlg4.New] _ rfl).1

/-! ## Digests of the wrappers -/

theorem sumJoin_eq (hs : List Hash) (b : Bytes) :
    sumJoin hs b = (hs.map fun h => h.Sum b).flatten := by
  induction hs with
  | nil => simp [sumJoin]
  | cons h hs ih => simp [sumJoin, ih]

theorem sumJoin_length (hs : List Hash) (h : ∀ x ∈ hs, (x.Sum []).length = x.Size) :
    (sumJoin hs []).length = (hs.map Hash.Size).sum := by
  induction hs with
  | nil => simp [sumJoin]
  | cons x xs ih =>
    simp only [sumJoin, List.length_append, List.map_cons, List.sum_cons]
    rw [h x (by simp), ih (fun y hy => h y (by simp [hy]))]

/-- C14: the digest of a `MultipleHash` built by `New` is the digests of its hashes
joined in list order; it has `Size()` bytes whenever every hash gives `Size()` bytes.
`Sum` is a function of the hash: it returns bytes and no new state. -/
theorem MultipleHash_Sum (hashList : List Hash) (m : Hash)
    (hnew : multiplehash.New hashList = .ok m) :
    m.Sum [] = (hashList.map fun h => h.Sum []).flatten ∧
    ((∀ h ∈ hashList, (h.Sum []).length = h.Size) → (m.Sum []).length = m.Size) := by
  have hs := multiplehash_New_Size hashList m hnew
  unfold multiplehash.New at hnew
  split at hnew
  · simp at hnew
  · simp only [Except.ok.injEq] at hnew
    subst hnew
    refine ⟨by simp only [Hash.Sum, sumJoin_eq], ?_⟩
    intro h
    rw [hs]
    simp only [Hash.Sum]
    exact sumJoin_length hashList h

theorem MultipleHash_Sum_witness :
    (Hash.MultipleHash [sampleAlg.New, sampleAlg4.New]
        (multiplehash.indexesLoop [0] 0 [sampleAlg.New, sampleAlg4.New]) 2).Sum []
      = ([sampleAlg.New, sampleAlg4.New].map fun h => h.Sum []).flatten :=
  (MultipleHash_Sum [sampleAlg.New, sampleAlg4.New] _ rfl).1

/-- C15, failing input: with two sub-hashes the slice `b = [7]` is put in front of each
digest.  `Sum [7]` of a `MultipleHash` over two primitives is `[7, 0, 0, 7, 0, 0, 0, 7]`
and not `[7] ++ Sum []`; of a `CustomHash` with two salts it is `[7, 0, 0, 7, 1, 5]`; the
lengths are `2 * len(b) + Size()`. -/
theorem Sum_repeats_argument :
    ∃ m c : Hash, multiplehash.New [sampleAlg.New, sampleAlg4.New] = .ok m ∧
      customhash.New sampleAlg [none, some [5]] = .ok c ∧
      m.Sum [] = [0, 0, 0, 0, 0, 7] ∧ m.Size = 6 ∧
      m.Sum [7] = [7, 0, 0, 7, 0, 0, 0, 7] ∧
      c.Sum [] = [0, 0, 1, 5] ∧ c.Size = 4 ∧
      c.Sum [7] = [7, 0, 0, 7, 1, 5] :=
  ⟨_, _, rfl, rfl, by decide, by decide, by decide, by decide, by decide, by decide⟩

/-! ## Sequences of writes on the wrappers -/

theorem writeMany_prim (alg : Alg) (xs : List Bytes) : ∀ buf : Bytes,
    (Hash.prim alg buf).writeMany xs = Hash.prim alg (buf ++ xs.flatten) := by
  induction xs with
  | nil => intro buf; simp [Hash.writeMany]
  | cons x xs ih =>
    intro buf
    simp only [Hash.writeMany, Hash.Write, ih, List.flatten_cons, List.append_assoc]

theorem writeMany_SlatHash (salt : Bytes) (xs : List Bytes) : ∀ h : Hash,
    (Hash.SlatHash h salt).writeMany xs = Hash.SlatHash (h.writeMany xs) salt := by
  induction xs with
  | nil => intro h; simp [Hash.writeMany]
  | cons x xs ih =>
    intro h
    simp only [Hash.writeMany, Hash.Write, ih]

theorem valid_writeMany (xs : List Bytes) : ∀ h : Hash, h.valid → (h.writeMany xs).valid := by
  induction xs with
  | nil => intro h hv; simpa [Hash.writeMany] using hv
  | cons x xs ih =>
    intro h hv
    simp only [Hash.writeMany]
    exact ih _ (valid_Write h x hv)

theorem Reset_writeMany (xs : List Bytes) : ∀ h : Hash, h.valid →
    (h.writeMany xs).Reset = h.Reset := by
  induction xs with
  | nil => intro h _; simp [Hash.writeMany]
  | cons x xs ih =>
    intro h hv
    simp only [Hash.writeMany]
    rw [ih _ (valid_Write h x hv), Reset_Write h x hv]

/-- C16: `SlatHash` prepends its salt.  After `salthash.New(H, s)`, and after any later
`Reset`, writing `x1 .. xk` and taking `Sum(nil)` gives what the reset `H` gives after
writing `s, x1, .., xk`; for an outside primitive that is its digest of
`s ++ x1 ++ .. ++ xk`.  What was written to `H` before the wrapping, or to the wrapper
before the `Reset`, has no influence. -/
theorem SlatHash_prepends_salt (H : Hash) (s p : Bytes) (xs earlier : List Bytes)
    (hv : H.valid) :
    ((salthash.New H s).writeMany xs).Sum [] = (H.Reset.writeMany (s :: xs)).Sum [] ∧
    (∀ alg buf, H = Hash.prim alg buf →
      ((salthash.New H s).writeMany xs).Sum [] = alg.digest (s ++ xs.flatten)) ∧
    ((salthash.New H s).writeMany earlier).Reset = salthash.New H s ∧
    salthash.New (H.Write p).1 s = salthash.New H s := by
  have e1 : ((salthash.New H s).writeMany xs).Sum [] = (H.Reset.writeMany (s :: xs)).Sum [] := by
    simp only [salthash.New, Hash.Reset, writeMany_SlatHash, Hash.Sum, Hash.writeMany]
  refine ⟨e1, ?_, ?_, ?_⟩
  · intro alg buf hH
    rw [e1, hH]
    simp only [Hash.Reset, writeMany_prim, Hash.Sum, List.nil_append, List.flatten_cons]
  · have hvs : (Hash.SlatHash H s).valid := by simpa [Hash.valid] using hv
    rw [Reset_writeMany earlier _ (by
      simpa only [salthash.New] using valid_Reset _ hvs)]
    simp only [salthash.New]
    exact Reset_Reset _ hvs
  · simp only [salthash.New, Hash.Reset, Reset_Write H p hv]

theorem SlatHash_prepends_salt_witness :
    ((salthash.New (Hash.prim sampleAlg [9, 9]) [5]).writeMany [[1], [2, 3]]).Sum []
      = sampleAlg.digest ([5] ++ [[1], [2, 3]].flatten) :=
  (SlatHash_prepends_salt (Hash.prim sampleAlg [9, 9]) [5] [] [[1], [2, 3]] []
    (by simp [Hash.valid])).2.1 sampleAlg [9, 9] rfl

theorem writeEach_prims (alg : Alg) (hw : ∀ buf p, (alg.writeResult buf p).2 = none)
    (p : Bytes) (bufs : List Bytes) : ∀ acc : Nat × Option Error,
    (customhash.writeEach (bufs.map (Hash.prim alg)) p acc).1
      = (bufs.map fun b => b ++ p).map (Hash.prim alg) := by
  induction bufs with
  | nil => intro acc; simp [customhash.writeEach]
  | cons b bs ih =>
    intro acc
    simp only [List.map_cons, customhash.writeEach, Hash.Write, hw]
    rw [ih]

theorem writeMany_CustomHash_prims (alg : Alg)
    (hw : ∀ buf p, (alg.writeResult buf p).2 = none) (saltList : List (Option Bytes))
    (xs : List Bytes) : ∀ bufs : List Bytes,
    (Hash.CustomHash alg (bufs.map (Hash.prim alg)) saltList).writeMany xs
      = Hash.CustomHash alg ((bufs.map fun b => b ++ xs.flatten).map (Hash.prim alg))
          saltList := by
  induction xs with
  | nil => intro bufs; simp [Hash.writeMany]
  | cons x xs ih =>
    intro bufs
    simp only [Hash.writeMany, Hash.Write, writeEach_prims alg hw]
    rw [ih]
    simp [List.map_map, Function.comp_def]

theorem sumJoin_prims (alg : Alg) (bufs : List Bytes) :
    sumJoin (bufs.map (Hash.prim alg)) [] = (bufs.map alg.digest).flatten := by
  induction bufs with
  | nil => simp [sumJoin]
  | cons b bs ih => simp [sumJoin, Hash.Sum, ih]

theorem allValid_prims (alg : Alg) (bufs : List Bytes) :
    allValid (bufs.map (Hash.prim alg)) := by
  induction bufs with
  | nil => simp [allValid]
  | cons b bs ih => simp [allValid, Hash.valid, ih]

theorem customhash_New_valid (alg : Alg) (saltList : List (Option Bytes)) (c : Hash)
    (h : customhash.New alg saltList = .ok c) : c.valid ∧ c.Reset = c := by
  have hv : (Hash.CustomHash alg (saltList.map fun _ => alg.New) saltList).valid := by
    unfold customhash.New at h
    split at h
    · simp at h
    · rename_i hne
      simp only [Hash.valid, List.length_map, true_and]
      have := allValid_prims alg (saltList.map fun _ => ([] : Bytes))
      simp only [List.map_map] at this
      exact ⟨this, by omega⟩
  unfold customhash.New at h
  split at h
  · simp at h
  · simp only [Except.ok.injEq] at h
    subst h
    exact ⟨valid_Reset _ hv, Reset_Reset _ hv⟩

/-- C17: the digest of a `CustomHash`.  For an algorithm whose `Write` never returns an
error, after `customhash.New(H, salts)`, and after any later `Reset`, writing `x1 .. xk`
and taking `Sum(nil)` gives the digests of `s ++ x1 ++ .. ++ xk` for the salts `s` in
list order, joined; a nil salt gives no prefix. -/
theorem CustomHash_digest (alg : Alg) (saltList : List (Option Bytes)) (c : Hash)
    (xs earlier : List Bytes) (hnew : customhash.New alg saltList = .ok c)
    (hw : ∀ buf p, (alg.writeResult buf p).2 = none) :
    (c.writeMany xs).Sum []
      = (saltList.map fun s => alg.digest (s.getD [] ++ xs.flatten)).flatten ∧
    (c.writeMany earlier).Reset = c := by
  obtain ⟨hv, hr⟩ := customhash_New_valid alg saltList c hnew
  refine ⟨?_, by rw [Reset_writeMany earlier c hv, hr]⟩
  obtain ⟨_, e⟩ := customhash_New_eq alg saltList c hnew
  have e' : c = Hash.CustomHash alg ((saltList.map fun s => s.getD []).map (Hash.prim alg))
      saltList := by
    rw [e]
    simp only [List.map_map]
    rfl
  rw [e', writeMany_CustomHash_prims alg hw]
  simp only [Hash.Sum]
  rw [sumJoin_prims]
  simp [List.map_map, Function.comp_def]

theorem CustomHash_digest_witness :
    (Hash.CustomHash sampleAlg [Hash.prim sampleAlg [], Hash.prim sampleAlg [5]]
        [none, some [5]] |>.writeMany [[1], [2, 3]]).Sum []
      = ([none, some [5]].map fun s =>
          sampleAlg.digest (s.getD [] ++ [[1], [2, 3]].flatten)).flatten :=
  (CustomHash_digest sampleAlg [none, some [5]] _ [[1], [2, 3]] [] rfl
    (fun _ _ => rfl)).1

/-- C18: `customhash.New` fails exactly on the empty salt list, with
`ErrInvalidHashList`, and a failure carries no hash; for a non-empty list the hash built
holds exactly one sub-hash per salt. -/
theorem customhash_New_error_iff (hashType : Alg) (saltList : List (Option Bytes)) :
    ((∃ e, customhash.New hashType saltList = .error e) ↔ saltList = []) ∧
    (∀ e, customhash.New hashType saltList = .error e → e = Error.ErrInvalidHashList) ∧
    (saltList ≠ [] → ∃ hash, customhash.New hashType saltList
        = .ok (Hash.CustomHash hashType hash saltList) ∧ hash.length = saltList.length) := by
  cases saltList with
  | nil => simp [customhash.New]
  | cons s ss =>
    refine ⟨by simp [customhash.New], by simp [customhash.New], ?_⟩
    intro _
    refine ⟨customhash.resetEach ((s :: ss).map fun _ => hashType.New) (s :: ss), ?_, ?_⟩
    · simp [customhash.New, Hash.Reset]
    · rw [resetEach_length]
      simp

theorem customhash_New_error_iff_witness :
    ∃ hash, customhash.New sampleAlg [none, some [5]]
        = .ok (Hash.CustomHash sampleAlg hash [none, some [5]]) ∧
      hash.length = [none, some [5]].length :=
  (customhash_New_error_iff sampleAlg [none, some [5]]).2.2 (by simp)

/-! ## Writes through the wrappers -/

theorem writeAll_fst (hs : List Hash) (p : Bytes) :
    (multiplehash.writeAll hs p).1 = hs.map fun h => (h.Write p).1 := by
  induction hs with
  | nil => simp [multiplehash.writeAll]
  | cons h hs ih => simp [multiplehash.writeAll, ih]

theorem writeAll_error (hs : List Hash) (p : Bytes) :
    (multiplehash.writeAll hs p).2.2 = none ↔ ∀ h ∈ hs, (h.Write p).2.2 = none := by
  induction hs with
  | nil => simp [multiplehash.writeAll]
  | cons h hs ih =>
    simp only [multiplehash.writeAll, List.mem_cons, forall_eq_or_imp]
    cases he : (h.Write p).2.2 with
    | none => simp [firstError, ih]
    | some e => simp [firstError]

/-- C19: `MultipleHash.Write` hands `p` once to every sub-hash, whether or not another
sub-write fails, and returns an error exactly when some sub-write returns an error. -/
theorem MultipleHash_Write (hashList : List Hash) (indexes : List Nat) (numberHash : Nat)
    (p : Bytes) :
    ((Hash.MultipleHash hashList indexes numberHash).Write p).1
      = Hash.MultipleHash (hashList.map fun h => (h.Write p).1) indexes numberHash ∧
    (((Hash.MultipleHash hashList indexes numberHash).Write p).2.2 ≠ none ↔
      ∃ h ∈ hashList, (h.Write p).2.2 ≠ none) := by
  refine ⟨by simp only [Hash.Write, writeAll_fst], ?_⟩
  simp only [Hash.Write, ne_eq, writeAll_error]
  constructor
  · intro h
    by_contra hc
    exact h (fun x hx => by
      by_contra hx'
      exact hc ⟨x, hx, hx'⟩)
  · rintro ⟨x, hx, hx'⟩ h
    exact hx' (h x hx)

theorem writeEach_all (p : Bytes) (hs : List Hash) : ∀ acc : Nat × Option Error,
    (∀ x ∈ hs, (x.Write p).2.2 = none) →
    (customhash.writeEach hs p acc).1 = hs.map fun h => (h.Write p).1 := by
  induction hs with
  | nil => intro acc _; simp [customhash.writeEach]
  | cons h hs ih =>
    intro acc hok
    have h1 := hok h (by simp)
    simp only [customhash.writeEach, List.map_cons]
    split
    · rename_i e he
      rw [h1] at he
      simp at he
    · rw [ih _ (fun x hx => hok x (by simp [hx]))]

theorem writeEach_last (p : Bytes) (init : List Hash) (last : Hash) :
    ∀ acc : Nat × Option Error, (∀ x ∈ init ++ [last], (x.Write p).2.2 = none) →
    (customhash.writeEach (init ++ [last]) p acc).2 = ((last.Write p).2.1, none) := by
  induction init with
  | nil =>
    intro acc hok
    have h1 := hok last (by simp)
    simp only [List.nil_append, customhash.writeEach]
    split
    · rename_i e he
      rw [h1] at he
      simp at he
    · rw [← h1]
  | cons h hs ih =>
    intro acc hok
    have h1 := hok h (by simp)
    simp only [List.cons_append, customhash.writeEach]
    split
    · rename_i e he
      rw [h1] at he
      simp at he
    · exact ih _ (fun x hx => hok x (by simp only [List.cons_append, List.mem_cons]; exact Or.inr hx))

theorem writeEach_fails (p : Bytes) (h : Hash) (post : List Hash) (e : Error)
    (he : (h.Write p).2.2 = some e) (pre : List Hash) : ∀ acc : Nat × Option Error,
    (∀ x ∈ pre, (x.Write p).2.2 = none) →
    customhash.writeEach (pre ++ h :: post) p acc
      = ((pre.map fun x => (x.Write p).1) ++ (h.Write p).1 :: post,
          ((h.Write p).2.1, some e)) := by
  induction pre with
  | nil =>
    intro acc _
    simp only [List.nil_append, customhash.writeEach, List.map_nil]
    split
    · rename_i e' he'
      rw [he] at he'
      simp only [Option.some.injEq] at he'
      rw [he']
    · rename_i hn
      rw [he] at hn
      simp at hn
  | cons x xs ih =>
    intro acc hok
    have h1 := hok x (by simp)
    simp only [List.cons_append, customhash.writeEach, List.map_cons]
    split
    · rename_i e' he'
      rw [h1] at he'
      simp at he'
    · rw [List.append_eq, ih _ (fun y hy => hok y (by simp [hy]))]

/-- C20: `CustomHash.Write` hands `p` to the sub-hashes in list order.  When a sub-write
fails, the sub-hashes before it have received `p`, the failing one has been called, those
after it are untouched, and its count and error are returned.  When no sub-write fails
every sub-hash has received `p`, the error is nil and the count is that of the last
sub-write, which is `len(p)` when that sub-write reports the whole slice. -/
theorem CustomHash_Write (hashType : Alg) (hash : List Hash)
    (saltList : List (Option Bytes)) (p : Bytes) :
    (∀ pre h post e, hash = pre ++ h :: post → (∀ x ∈ pre, (x.Write p).2.2 = none) →
      (h.Write p).2.2 = some e →
      (Hash.CustomHash hashType hash saltList).Write p
        = (Hash.CustomHash hashType
            ((pre.map fun x => (x.Write p).1) ++ (h.Write p).1 :: post) saltList,
          ((h.Write p).2.1, some e))) ∧
    (∀ init last, hash = init ++ [last] → (∀ x ∈ hash, (x.Write p).2.2 = none) →
      (Hash.CustomHash hashType hash saltList).Write p
        = (Hash.CustomHash hashType (hash.map fun x => (x.Write p).1) saltList,
          ((last.Write p).2.1, none)) ∧
      ((last.Write p).2.1 = p.length →
        ((Hash.CustomHash hashType hash saltList).Write p).2 = (p.length, none))) := by
  constructor
  · intro pre h post e hh hok he
    subst hh
    simp only [Hash.Write, writeEach_fails p h post e he pre _ hok]
  · intro init last hh hok
    have e1 := writeEach_all p hash (0, none) hok
    have e2 := writeEach_last p init last (0, none) (hh ▸ hok)
    rw [← hh] at e2
    have e3 : (Hash.CustomHash hashType hash saltList).Write p
        = (Hash.CustomHash hashType (hash.map fun x => (x.Write p).1) saltList,
          ((last.Write p).2.1, none)) := by
      simp only [Hash.Write, e1, e2]
    refine ⟨e3, ?_⟩
    intro hl
    rw [e3, hl]

theorem CustomHash_Write_witness :
    (Hash.CustomHash sampleAlg
        ([Hash.prim sampleAlg []] ++ Hash.prim sampleFailing [] :: [Hash.prim sampleAlg [4]])
        [none, none, none]).Write [1]
      = (Hash.CustomHash sampleAlg
          (([Hash.prim sampleAlg []].map fun x => (x.Write [1]).1)
            ++ ((Hash.prim sampleFailing []).Write [1]).1 :: [Hash.prim sampleAlg [4]])
          [none, none, none],
        (((Hash.prim sampleFailing []).Write [1]).2.1, some (Error.external 1))) :=
  (CustomHash_Write sampleAlg _ [none, none, none] [1]).1 [Hash.prim sampleAlg []]
    (Hash.prim sampleFailing []) [Hash.prim sampleAlg [4]] (Error.external 1) rfl
    (by simp [Hash.Write, sampleAlg]) rfl

/-! ## Sizes do not depend on the state -/

mutual
theorem Write_nil_fst : ∀ h : Hash, (h.Write []).1 = h
  | .prim _ _ => by simp [Hash.Write]
  | .SlatHash hash _ => by simp only [Hash.Write, Write_nil_fst hash]
  | .MultipleHash hashList _ _ => by simp only [Hash.Write, writeAll_nil hashList]
  | .CustomHash _ hash _ => by simp only [Hash.Write, writeEach_nil hash (0, none)]
theorem writeAll_nil : ∀ hs : List Hash, (multiplehash.writeAll hs []).1 = hs
  | [] => by simp [multiplehash.writeAll]
  | h :: hs => by simp only [multiplehash.writeAll, Write_nil_fst h, writeAll_nil hs]
theorem writeEach_nil : ∀ (hs : List Hash) (acc : Nat × Option Error),
    (customhash.writeEach hs [] acc).1 = hs
  | [], _ => by simp [customhash.writeEach]
  | h :: hs, _ => by
    simp only [customhash.writeEach]
    split
    · rw [Write_nil_fst h]
    · rw [Write_nil_fst h, writeEach_nil hs]
end

theorem Size_Write : ∀ (h : Hash) (p : Bytes), (h.Write p).1.Size = h.Size
  | .prim _ _, _ => by simp [Hash.Write, Hash.Size]
  | .SlatHash hash _, p => by simp only [Hash.Write, Hash.Size, Size_Write hash p]
  | .MultipleHash _ _ _, _ => by simp only [Hash.Write, Hash.Size]
  | .CustomHash _ [] _, _ => by simp [Hash.Write, customhash.writeEach, Hash.Size]
  | .CustomHash _ (h :: hs) _, p => by
    simp only [Hash.Write, customhash.writeEach]
    split
    · simp only [Hash.Size, Size_Write h p]
    · simp only [Hash.Size, Size_Write h p, writeEach_length]

theorem Size_Reset : ∀ h : Hash, h.Reset.Size = h.Size
  | .prim _ _ => by simp [Hash.Reset, Hash.Size]
  | .SlatHash hash salt => by
    simp only [Hash.Reset, Hash.Size, Size_Write, Size_Reset hash]
  | .MultipleHash _ _ _ => by simp only [Hash.Reset, Hash.Size]
  | .CustomHash _ [] _ => by simp [Hash.Reset, customhash.resetEach, Hash.Size]
  | .CustomHash _ (h :: hs) [] => by simp [Hash.Reset, customhash.resetEach]
  | .CustomHash _ (h :: hs) (none :: ss) => by
    simp only [Hash.Reset, customhash.resetEach, Hash.Size, Size_Reset h, resetEach_length]
  | .CustomHash _ (h :: hs) (some s :: ss) => by
    simp only [Hash.Reset, customhash.resetEach, Hash.Size, Size_Write, Size_Reset h,
      resetEach_length]

mutual
theorem BlockSize_Write : ∀ (h : Hash) (p : Bytes), (h.Write p).1.BlockSize = h.BlockSize
  | .prim _ _, _ => by simp [Hash.Write, Hash.BlockSize]
  | .SlatHash hash _, p => by simp only [Hash.Write, Hash.BlockSize, BlockSize_Write hash p]
  | .MultipleHash hashList _ _, p => by
    simp only [Hash.Write, Hash.BlockSize, blockSizeSum_writeAll hashList p]
  | .CustomHash _ [] _, _ => by simp [Hash.Write, customhash.writeEach, Hash.BlockSize]
  | .CustomHash _ (h :: hs) _, p => by
    simp only [Hash.Write, customhash.writeEach]
    split
    · simp only [Hash.BlockSize, BlockSize_Write h p]
    · simp only [Hash.BlockSize, BlockSize_Write h p]
theorem blockSizeSum_writeAll : ∀ (hs : List Hash) (p : Bytes),
    multiplehash.blockSizeSum (multiplehash.writeAll hs p).1 = multiplehash.blockSizeSum hs
  | [], _ => by simp [multiplehash.writeAll]
  | h :: hs, p => by
    simp only [multiplehash.writeAll, multiplehash.blockSizeSum, BlockSize_Write h p,
      blockSizeSum_writeAll hs p]
end

mutual
theorem BlockSize_Reset : ∀ h : Hash, h.Reset.BlockSize = h.BlockSize
  | .prim _ _ => by simp [Hash.Reset, Hash.BlockSize]
  | .SlatHash hash salt => by
    simp only [Hash.Reset, Hash.BlockSize, BlockSize_Write, BlockSize_Reset hash]
  | .MultipleHash hashList _ _ => by
    simp only [Hash.Reset, Hash.BlockSize, blockSizeSum_resetAll hashList]
  | .CustomHash _ [] _ => by simp [Hash.Reset, customhash.resetEach, Hash.BlockSize]
  | .CustomHash _ (h :: hs) [] => by simp [Hash.Reset, customhash.resetEach]
  | .CustomHash _ (h :: hs) (none :: ss) => by
    simp only [Hash.Reset, customhash.resetEach, Hash.BlockSize, BlockSize_Reset h]
  | .CustomHash _ (h :: hs) (some s :: ss) => by
    simp only [Hash.Reset, customhash.resetEach, Hash.BlockSize, BlockSize_Write,
      BlockSize_Reset h]
theorem blockSizeSum_resetAll : ∀ hs : List Hash,
    multiplehash.blockSizeSum (multiplehash.resetAll hs) = multiplehash.blockSizeSum hs
  | [] => by simp [multiplehash.resetAll]
  | h :: hs => by
    simp only [multiplehash.resetAll, multiplehash.blockSizeSum, BlockSize_Reset h,
      blockSizeSum_resetAll hs]
end

/-- C21: an empty salt is the identity decoration.  `salthash.New(H, nil)` has the size
and block size of `H`, its `Write` returns what the `Write` of the reset `H` returns, and
its digest of `x` is that of the reset `H`; `customhash.New(alg, [nil])` has the size
and block size of the algorithm, its `Write` returns what a new instance returns, and
its digest of `x` is the unsalted digest of `x`. -/
theorem empty_salt_identity (H : Hash) (alg : Alg) (x : Bytes) :
    (salthash.New H []).Size = H.Size ∧
    (salthash.New H []).BlockSize = H.BlockSize ∧
    ((salthash.New H []).Write x).2 = (H.Reset.Write x).2 ∧
    ((salthash.New H []).Write x).1.Sum [] = (H.Reset.Write x).1.Sum [] ∧
    ((salthash.New alg.New []).Write x).1.Sum [] = alg.digest x ∧
    (∃ c, customhash.New alg [none] = .ok c ∧
      c.Size = alg.size ∧ c.BlockSize = alg.blockSize ∧
      (c.Write x).2 = (alg.New.Write x).2 ∧
      (c.Write x).1.Sum [] = (alg.New.Write x).1.Sum [] ∧
      (c.Write x).1.Sum [] = alg.digest x) := by
  have e : salthash.New H [] = Hash.SlatHash H.Reset [] := by
    simp only [salthash.New, Hash.Reset, Write_nil_fst]
  refine ⟨?_, ?_, ?_, ?_, ?_, ?_⟩
  · rw [e]
    simp only [Hash.Size, Size_Reset]
  · rw [e]
    simp only [Hash.BlockSize, BlockSize_Reset]
  · rw [e]
    simp only [Hash.Write]
  · rw [e]
    simp only [Hash.Write, Hash.Sum]
  · simp [salthash.New, Alg.New, Hash.Reset, Hash.Write, Hash.Sum]
  · refine ⟨Hash.CustomHash alg [Hash.prim alg []] [none], ?_, ?_, ?_, ?_, ?_, ?_⟩
    · simp [customhash.New, Hash.Reset, customhash.resetEach, Alg.New]
    · simp [Hash.Size]
    · simp [Hash.BlockSize]
    · simp only [Hash.Write, customhash.writeEach, Alg.New]
      split
      · rename_i e' he
        rw [← he]
      · rfl
    · simp only [Hash.Write, customhash.writeEach, Alg.New]
      split <;> simp [Hash.Sum, sumJoin]
    · simp only [Hash.Write, customhash.writeEach]
      split <;> simp [Hash.Sum, sumJoin]

namespace ascii85

/-! ## `Encode` never panics in a slice of `MaxEncodedLen` bytes -/

theorem digits_length (v : Nat) : (digits v).length = 5 := rfl

theorem Encode_spec (n : Nat) : ∀ (s : Bytes), s.length ≤ n → ∀ dst : Bytes,
    MaxEncodedLen s.length ≤ dst.length →
    ∃ (out : Bytes) (cnt : Nat), Encode dst s = .ok (out, cnt) ∧ out.length = dst.length ∧
      cnt = (encoded s).length ∧ out.take cnt = encoded s := by
  induction n with
  | zero =>
    intro s hs dst _
    have e : s = [] := List.length_eq_zero.1 (by omega)
    subst e
    exact ⟨dst, 0, by simp [Encode], rfl, by simp [encoded], by simp [encoded]⟩
  | succ n ih =>
    intro s hs dst hd
    match s, hs, hd with
    | [], _, _ => exact ⟨dst, 0, by simp [Encode], rfl, by simp [encoded], by simp [encoded]⟩
    | [s0], _, hd =>
      have h5 : ¬ dst.length < 5 := by
        simp only [MaxEncodedLen, List.length_cons, List.length_nil] at hd
        omega
      refine ⟨digits (s0 <<< 24) ++ dst.drop 5, 2, by simp [Encode, encodeShort, h5], ?_,
        by simp [encoded, digits], ?_⟩
      · simp only [List.length_append, digits_length, List.length_drop]; omega
      · simp only [encoded]
        rw [List.take_append_of_le_length (by simp [digits])]
    | [s0, s1], _, hd =>
      have h5 : ¬ dst.length < 5 := by
        simp only [MaxEncodedLen, List.length_cons, List.length_nil] at hd
        omega
      refine ⟨digits ((s1 <<< 16) ||| (s0 <<< 24)) ++ dst.drop 5, 3,
        by simp [Encode, encodeShort, h5], ?_, by simp [encoded, digits], ?_⟩
      · simp only [List.length_append, digits_length, List.length_drop]; omega
      · simp only [encoded]
        rw [List.take_append_of_le_length (by simp [digits])]
    | [s0, s1, s2], _, hd =>
      have h5 : ¬ dst.length < 5 := by
        simp only [MaxEncodedLen, List.length_cons, List.length_nil] at hd
        omega
      refine ⟨digits ((s2 <<< 8) ||| (s1 <<< 16) ||| (s0 <<< 24)) ++ dst.drop 5, 4,
        by simp [Encode, encodeShort, h5], ?_, by simp [encoded, digits], ?_⟩
      · simp only [List.length_append, digits_length, List.length_drop]; omega
      · simp only [encoded]
        rw [List.take_append_of_le_length (by simp [digits])]
    | s0 :: s1 :: s2 :: s3 :: src, hs, hd =>
      simp only [List.length_cons] at hs hd
      have hm : MaxEncodedLen (src.length + 1 + 1 + 1 + 1) = MaxEncodedLen src.length + 5 := by
        simp only [MaxEncodedLen]; omega
      rw [hm] at hd
      have h5 : ¬ dst.length < 5 := by omega
      by_cases h0 : s3 ||| (s2 <<< 8) ||| (s1 <<< 16) ||| (s0 <<< 24) = 0
      · obtain ⟨out, cnt, ho, hl, hc, ht⟩ := ih src (by omega) ([0, 0, 0, 0] ++ dst.drop 5)
          (by simp only [List.length_append, List.length_cons, List.length_nil,
            List.length_drop]; omega)
        refine ⟨122 :: out, cnt + 1, by simp only [Encode, h5, if_false, h0, if_true, ho],
          ?_, ?_, ?_⟩
        · simp only [List.length_cons, hl, List.length_append, List.length_nil,
            List.length_drop]
          omega
        · simp [encoded, h0, hc]
        · simp only [encoded, h0, if_true, List.take_succ_cons, ht, List.singleton_append]
      · obtain ⟨out, cnt, ho, hl, hc, ht⟩ := ih src (by omega) (dst.drop 5)
          (by simp only [List.length_drop]; omega)
        refine ⟨digits (s3 ||| (s2 <<< 8) ||| (s1 <<< 16) ||| (s0 <<< 24)) ++ out, cnt + 5,
          by simp only [Encode, h5, if_false, h0, ho], ?_, ?_, ?_⟩
        · simp only [List.length_append, digits_length, hl, List.length_drop]
          omega
        · simp [encoded, h0, hc, digits_length]
          omega
        · simp only [encoded, h0, if_false]
          rw [Nat.add_comm cnt 5,
            show 5 = (digits (s3 ||| (s2 <<< 8) ||| (s1 <<< 16) ||| (s0 <<< 24))).length
              from rfl, List.take_append, ht]

theorem encoded_range (n : Nat) : ∀ (s : Bytes), s.length ≤ n →
    ∀ b ∈ encoded s, (33 ≤ b ∧ b ≤ 117) ∨ b = 122 := by
  induction n with
  | zero =>
    intro s hs b hb
    have e : s = [] := List.length_eq_zero.1 (by omega)
    subst e
    simp [encoded] at hb
  | succ n ih =>
    intro s hs b hb
    match s, hs, hb with
    | [], _, hb => simp [encoded] at hb
    | [s0], _, hb => exact Or.inl (digits_range _ b (List.mem_of_mem_take hb))
    | [s0, s1], _, hb => exact Or.inl (digits_range _ b (List.mem_of_mem_take hb))
    | [s0, s1, s2], _, hb => exact Or.inl (digits_range _ b (List.mem_of_mem_take hb))
    | s0 :: s1 :: s2 :: s3 :: src, hs, hb =>
      simp only [List.length_cons] at hs
      simp only [encoded, List.mem_append] at hb
      rcases hb with hb | hb
      · split at hb
        · exact Or.inr (by simpa using hb)
        · exact Or.inl (digits_range _ b hb)
      · exact ih src (by omega) b hb

end ascii85

namespace bloom

theorem String_ok (f : filter) :
    ∃ text, f.String = .ok text ∧
      text.take (ascii85.encoded f.fingerprint).length = ascii85.encoded f.fingerprint := by
  obtain ⟨out, cnt, ho, _, hc, ht⟩ := ascii85.Encode_spec f.fingerprint.length f.fingerprint
    (Nat.le_refl _) (List.replicate (ascii85.MaxEncodedLen f.fingerprint.length) 0) (by simp)
  exact ⟨out, by simp only [filter.String, ho], by rw [← hc, ht]⟩

/-- C22, refuted as stated: the state of four zero bytes of a new filter is written as
the five bytes `z, 0, 0, 0, 0`: the group of four bytes takes one character, and the
four bytes after it are NUL, which is no printable character. -/
theorem String_textual_counterexample :
    ∃ f : filter, New [sampleAlg4.New] = .ok f ∧ f.fingerprint = [0, 0, 0, 0] ∧
      f.String = .ok [122, 0, 0, 0, 0] :=
  ⟨⟨sampleAlg4.New, [0, 0, 0, 0]⟩, rfl, rfl, by decide⟩

/-- C22, amended: `String` is total.  For every filter it returns, without a panic, a
string that starts with the ASCII85 text of the state; every character of that text is
between `!` and `u` or is `z`; in it a zero group of four bytes is the one character
`z` and every other group of four bytes is five characters between `!` and `u`. -/
theorem String_total (f : filter) :
    (∃ text, f.String = .ok text ∧
      text.take (ascii85.encoded f.fingerprint).length = ascii85.encoded f.fingerprint) ∧
    (∀ b ∈ ascii85.encoded f.fingerprint, (33 ≤ b ∧ b ≤ 117) ∨ b = 122) ∧
    (∀ s0 s1 s2 s3 rest, s3 ||| (s2 <<< 8) ||| (s1 <<< 16) ||| (s0 <<< 24) = 0 →
      ascii85.encoded (s0 :: s1 :: s2 :: s3 :: rest) = 122 :: ascii85.encoded rest) ∧
    (∀ s0 s1 s2 s3 rest, s3 ||| (s2 <<< 8) ||| (s1 <<< 16) ||| (s0 <<< 24) ≠ 0 →
      ∃ g, g.length = 5 ∧ (∀ b ∈ g, 33 ≤ b ∧ b ≤ 117) ∧
        ascii85.encoded (s0 :: s1 :: s2 :: s3 :: rest) = g ++ ascii85.encoded rest) := by
  refine ⟨String_ok f, ascii85.encoded_range _ _ (Nat.le_refl _), ?_, ?_⟩
  · intro s0 s1 s2 s3 rest h0
    simp [ascii85.encoded, h0]
  · intro s0 s1 s2 s3 rest h0
    exact ⟨ascii85.digits (s3 ||| (s2 <<< 8) ||| (s1 <<< 16) ||| (s0 <<< 24)),
      ascii85.digits_length _, ascii85.digits_range _, by
        simp only [ascii85.encoded, h0, if_false]⟩

theorem String_total_witness :
    ∃ g, g.length = 5 ∧ (∀ b ∈ g, 33 ≤ b ∧ b ≤ 117) ∧
      ascii85.encoded (1 :: 2 :: 3 :: 4 :: [0, 0, 0, 0]) = g ++ ascii85.encoded [0, 0, 0, 0] :=
  (String_total ⟨sampleAlg4.New, [1, 2, 3, 4, 0, 0, 0, 0]⟩).2.2.2 1 2 3 4 [0, 0, 0, 0]
    (by decide)

end bloom

theorem writeAll_count (hs : List Hash) (p : Bytes) :
    (multiplehash.writeAll hs p).2.1 = (hs.map fun h => (h.Write p).2.1).sum := by
  induction hs with
  | nil => simp [multiplehash.writeAll]
  | cons h hs ih => simp [multiplehash.writeAll, ih]

theorem sum_map_const (hs : List Hash) (g : Hash → Nat) (c : Nat) (h : ∀ x ∈ hs, g x = c) :
    (hs.map g).sum = hs.length * c := by
  induction hs with
  | nil => simp
  | cons x xs ih =>
    simp only [List.map_cons, List.sum_cons, List.length_cons]
    rw [h x (by simp), ih (fun y hy => h y (by simp [hy])), Nat.add_mul]
    omega

/-- C23: the count returned by `Write` of a `MultipleHash` built by `New` over `k`
hashes is the sum of the counts of the `k` sub-writes divided by `k`, in integer
division; it is `len(p)` when every sub-write reports `len(p)`. -/
theorem MultipleHash_Write_count (hashList : List Hash) (m : Hash) (p : Bytes)
    (hnew : multiplehash.New hashList = .ok m) :
    (m.Write p).2.1 = (hashList.map fun h => (h.Write p).2.1).sum / hashList.length ∧
    ((∀ h ∈ hashList, (h.Write p).2.1 = p.length) → (m.Write p).2.1 = p.length) := by
  unfold multiplehash.New at hnew
  split at hnew
  · simp at hnew
  · rename_i hne
    simp only [Except.ok.injEq] at hnew
    subst hnew
    have e : ((Hash.MultipleHash hashList (multiplehash.indexesLoop [0] 0 hashList)
        hashList.length).Write p).2.1
        = (hashList.map fun h => (h.Write p).2.1).sum / hashList.length := by
      simp only [Hash.Write, writeAll_count]
    refine ⟨e, ?_⟩
    intro hall
    rw [e, sum_map_const hashList _ p.length hall]
    exact Nat.mul_div_cancel_left _ (by omega)

theorem MultipleHash_Write_count_witness :
    ((Hash.MultipleHash [sampleAlg.New, sampleFailing.New]
        (multiplehash.indexesLoop [0] 0 [sampleAlg.New, sampleFailing.New]) 2).Write
        [1, 2, 3]).2.1
      = ([sampleAlg.New, sampleFailing.New].map fun h => (h.Write [1, 2, 3]).2.1).sum
        / [sampleAlg.New, sampleFailing.New].length :=
  (MultipleHash_Write_count [sampleAlg.New, sampleFailing.New] _ [1, 2, 3] rfl).1

namespace bloom

/-- C29: queries are read-only on the state.  `Contain` leaves the fingerprint as it was
and, for a valid owned hash, leaves that hash in its reset state; `ContainFingerprint`
(which returns for an `fp` as long as the state) and `String` leave the whole filter as
it was. -/
theorem queries_read_only (f : filter) (v fp : Bytes) (hv : f.hash.valid) :
    (f.Contain v).1.fingerprint = f.fingerprint ∧
    (f.Contain v).1.hash.Reset = (f.Contain v).1.hash ∧
    (∀ g, f.step (Op.Contain v) = .ok g → g.fingerprint = f.fingerprint) ∧
    (∀ g, f.step (Op.ContainFingerprint fp) = .ok g → g = f) ∧
    (fp.length = f.fingerprint.length → f.step (Op.ContainFingerprint fp) = .ok f) ∧
    f.step Op.String = .ok f := by
  refine ⟨rfl, ?_, ?_, ?_, ?_, ?_⟩
  · simp only [filter.Contain, filter.hashBytes]
    exact Reset_Reset _ (valid_Write f.hash v hv)
  · intro g hg
    simp only [filter.step] at hg
    split at hg
    · simp only [Result.ok.injEq] at hg
      subst hg
      rfl
    · simp at hg
  · intro g hg
    simp only [filter.step] at hg
    split at hg
    · simp only [Result.ok.injEq] at hg
      exact hg.symm
    · simp at hg
  · intro hl
    simp only [filter.step, filter.ContainFingerprint]
    rcases coverLoop_total f.fingerprint fp (Nat.le_of_eq hl.symm) with h | h <;> simp [h]
  · obtain ⟨text, ht, _⟩ := String_ok f
    simp only [filter.step, ht]

theorem queries_read_only_witness :
    ((⟨sampleAlg.New, [1, 99]⟩ : filter).Contain [97]).1.fingerprint = [1, 99] ∧
      (⟨sampleAlg.New, [1, 99]⟩ : filter).step Op.String = .ok ⟨sampleAlg.New, [1, 99]⟩ :=
  ⟨(queries_read_only ⟨sampleAlg.New, [1, 99]⟩ [97] [0, 0] (by simp [Alg.New, Hash.valid])).1,
    (queries_read_only ⟨sampleAlg.New, [1, 99]⟩ [97] [0, 0]
      (by simp [Alg.New, Hash.valid])).2.2.2.2.2⟩

/-! ## Order and multiplicity of merges -/

theorem orLoop_idem (s a : Bytes) (hl : s.length ≤ a.length) :
    (orLoop (orLoop s a).1 a).1 = (orLoop s a).1 := by
  induction s generalizing a with
  | nil => simp [orLoop]
  | cons v vs ih =>
    cases a with
    | nil => simp at hl
    | cons x xs =>
      simp only [List.length_cons, Nat.add_le_add_iff_right] at hl
      simp [orLoop, lor_lor_self, ih xs hl]

theorem orLoop_comm (s a b : Bytes) (ha : s.length ≤ a.length) (hb : s.length ≤ b.length) :
    (orLoop (orLoop s a).1 b).1 = (orLoop (orLoop s b).1 a).1 := by
  induction s generalizing a b with
  | nil => simp [orLoop]
  | cons v vs ih =>
    cases a with
    | nil => simp at ha
    | cons x xs =>
      cases b with
      | nil => simp at hb
      | cons y ys =>
        simp only [List.length_cons, Nat.add_le_add_iff_right] at ha hb
        simp only [orLoop, ih xs ys ha hb, List.cons.injEq, and_true]
        rw [Nat.lor_assoc, Nat.lor_comm x y, ← Nat.lor_assoc]

theorem ext_getD (l1 l2 : Bytes) (hl : l1.length = l2.length)
    (h : ∀ i, i < l1.length → l1.getD i 0 = l2.getD i 0) : l1 = l2 := by
  induction l1 generalizing l2 with
  | nil =>
    cases l2 with
    | nil => rfl
    | cons y ys => simp at hl
  | cons x xs ih =>
    cases l2 with
    | nil => simp at hl
    | cons y ys =>
      have h0 := h 0 (by simp)
      simp only [List.getD_cons_zero] at h0
      rw [h0, ih ys (by simpa using hl) (fun i hi => by
        simpa using h (i + 1) (by simpa using hi))]

theorem foldl_orLoop_length (fps : List Bytes) : ∀ s : Bytes,
    (List.foldl (fun t a => (orLoop t a).1) s fps).length = s.length := by
  induction fps with
  | nil => intro s; rfl
  | cons a fps ih =>
    intro s
    simp only [List.foldl_cons]
    rw [ih, orLoop_length]

/-- Bit `k` of byte `i` after a sequence of merges: set before, or set in one of the
merged fingerprints. -/
theorem foldl_orLoop_testBit (fps : List Bytes) : ∀ s : Bytes,
    (∀ a ∈ fps, s.length ≤ a.length) → ∀ i k, i < s.length →
    ((List.foldl (fun t a => (orLoop t a).1) s fps).getD i 0).testBit k
      = ((s.getD i 0).testBit k || fps.any fun a => (a.getD i 0).testBit k) := by
  induction fps with
  | nil => intro s _ i k _; simp
  | cons a fps ih =>
    intro s hl i k hi
    have ha := hl a (by simp)
    simp only [List.foldl_cons, List.any_cons]
    rw [ih _ (fun x hx => by rw [orLoop_length]; exact hl x (by simp [hx])) i k
      (by rw [orLoop_length]; exact hi), orLoop_getD s a i hi ha, Nat.testBit_or,
      Bool.or_assoc]

theorem foldl_orLoop_set (s : Bytes) (as bs : List Bytes)
    (ha : ∀ a ∈ as, s.length ≤ a.length) (hb : ∀ a ∈ bs, s.length ≤ a.length)
    (hset : ∀ x, x ∈ as ↔ x ∈ bs) :
    List.foldl (fun t a => (orLoop t a).1) s as
      = List.foldl (fun t a => (orLoop t a).1) s bs := by
  apply ext_getD
  · rw [foldl_orLoop_length, foldl_orLoop_length]
  · intro i hi
    rw [foldl_orLoop_length] at hi
    apply Nat.eq_of_testBit_eq
    intro k
    rw [foldl_orLoop_testBit as s ha i k hi, foldl_orLoop_testBit bs s hb i k hi]
    congr 1
    rw [Bool.eq_iff_iff]
    simp only [List.any_eq_true]
    constructor
    · rintro ⟨x, hx, hk⟩
      exact ⟨x, (hset x).1 hx, hk⟩
    · rintro ⟨x, hx, hk⟩
      exact ⟨x, (hset x).2 hx, hk⟩

theorem run_AddFingerprints (fps : List Bytes) : ∀ f : filter,
    (∀ a ∈ fps, f.fingerprint.length ≤ a.length) →
    f.run (fps.map Op.AddFingerprint)
      = .ok ⟨f.hash, List.foldl (fun t a => (orLoop t a).1) f.fingerprint fps⟩ := by
  induction fps with
  | nil => intro f _; rfl
  | cons a fps ih =>
    intro f hl
    have ha := hl a (by simp)
    have hok : (orLoop f.fingerprint a).2 = .ok () := (orLoop_ok_iff _ _).2 ha
    simp only [List.map_cons, filter.run, filter.step, filter.AddFingerprint, hok,
      List.foldl_cons]
    rw [ih _ (fun x hx => by
      simp only [orLoop_length]
      exact hl x (by simp [hx]))]

theorem run_Adds (vs : List Bytes) : ∀ f g : filter, f.hash.valid → f.hash.Reset = f.hash →
    f.run (vs.map Op.Add) = .ok g →
    (∀ v ∈ vs, f.fingerprint.length ≤ (f.hashBytes v).2.length) ∧
    g = ⟨f.hash, List.foldl (fun t a => (orLoop t a).1) f.fingerprint
      (vs.map fun v => (f.hashBytes v).2)⟩ := by
  induction vs with
  | nil =>
    intro f g _ _ h
    simp only [List.map_nil, filter.run, Result.ok.injEq] at h
    subst h
    exact ⟨by simp, rfl⟩
  | cons v vs ih =>
    intro f g hv hr h
    simp only [List.map_cons, filter.run] at h
    cases hs : f.step (Op.Add v) with
    | panic => rw [hs] at h; simp at h
    | ok m =>
      rw [hs] at h
      have k := step_keeps f m (Op.Add v) (by simp) hv hr hs
      simp only [filter.step] at hs
      split at hs
      · rename_i u hu
        simp only [Result.ok.injEq] at hs
        rw [Add_result f v hv hr] at hu
        have hlen := (orLoop_ok_iff _ _).1 (by rw [hu])
        have hm : m = ⟨f.hash, (orLoop f.fingerprint (f.hashBytes v).2).1⟩ := by
          rw [← hs]
          simp only [filter.Add, filter.AddFingerprint, hashBytes_fst f v hv hr]
        obtain ⟨h1, h2⟩ := ih m g (k.1 ▸ hv) (by rw [k.1]; exact hr) h
        have hd : ∀ w, (m.hashBytes w).2 = (f.hashBytes w).2 :=
          fun w => hashBytes_snd_congr f m w k.1
        refine ⟨?_, ?_⟩
        · intro w hw
          rcases List.mem_cons.1 hw with e | e
          · rw [e]; exact hlen
          · have := h1 w e
            rw [hd w, k.2.1] at this
            exact this
        · rw [h2]
          simp only [hd, List.map_cons, List.foldl_cons]
          rw [hm]
      · simp at hs

/-- C30: `AddFingerprint` is idempotent and commutative on fingerprints as long as the
state; so adding the members of two lists of such fingerprints that have the same
elements, in any order and multiplicity, gives the same filter, and so does adding two
lists of values with the same elements (for a valid owned hash in its reset state, and
when the calls return). -/
theorem AddFingerprint_idempotent_commutative (f : filter) (a b : Bytes)
    (ha : a.length = f.fingerprint.length) (hb : b.length = f.fingerprint.length) :
    ((f.AddFingerprint a).1.AddFingerprint a).1 = (f.AddFingerprint a).1 ∧
    ((f.AddFingerprint a).1.AddFingerprint b).1 = ((f.AddFingerprint b).1.AddFingerprint a).1 ∧
    (∀ as bs : List Bytes, (∀ x ∈ as, x.length = f.fingerprint.length) →
      (∀ x ∈ bs, x.length = f.fingerprint.length) → (∀ x, x ∈ as ↔ x ∈ bs) →
      ∃ g, f.run (as.map Op.AddFingerprint) = .ok g ∧
        f.run (bs.map Op.AddFingerprint) = .ok g) ∧
    (∀ (vs ws : List Bytes) (g g' : filter), f.hash.valid → f.hash.Reset = f.hash →
      (∀ x, x ∈ vs ↔ x ∈ ws) → f.run (vs.map Op.Add) = .ok g →
      f.run (ws.map Op.Add) = .ok g' → g = g') := by
  refine ⟨?_, ?_, ?_, ?_⟩
  · simp only [filter.AddFingerprint, orLoop_idem _ _ (Nat.le_of_eq ha.symm)]
  · simp only [filter.AddFingerprint,
      orLoop_comm _ _ _ (Nat.le_of_eq ha.symm) (Nat.le_of_eq hb.symm)]
  · intro as bs has hbs hset
    have h1 : ∀ x ∈ as, f.fingerprint.length ≤ x.length :=
      fun x hx => Nat.le_of_eq (has x hx).symm
    have h2 : ∀ x ∈ bs, f.fingerprint.length ≤ x.length :=
      fun x hx => Nat.le_of_eq (hbs x hx).symm
    refine ⟨_, run_AddFingerprints as f h1, ?_⟩
    rw [run_AddFingerprints bs f h2, foldl_orLoop_set f.fingerprint as bs h1 h2 hset]
  · intro vs ws g g' hv hr hset hg hg'
    obtain ⟨l1, e1⟩ := run_Adds vs f g hv hr hg
    obtain ⟨l2, e2⟩ := run_Adds ws f g' hv hr hg'
    rw [e1, e2]
    congr 1
    apply foldl_orLoop_set
    · intro x hx
      obtain ⟨v, hv', rfl⟩ := List.mem_map.1 hx
      exact l1 v hv'
    · intro x hx
      obtain ⟨v, hv', rfl⟩ := List.mem_map.1 hx
      exact l2 v hv'
    · intro x
      simp only [List.mem_map]
      constructor
      · rintro ⟨v, hv', rfl⟩
        exact ⟨v, (hset v).1 hv', rfl⟩
      · rintro ⟨v, hv', rfl⟩
        exact ⟨v, (hset v).2 hv', rfl⟩

theorem AddFingerprint_idempotent_commutative_witness :
    (((⟨sampleAlg.New, [1, 4]⟩ : filter).AddFingerprint [2, 8]).1.AddFingerprint [16, 1]).1
      = (((⟨sampleAlg.New, [1, 4]⟩ : filter).AddFingerprint [16, 1]).1.AddFingerprint
          [2, 8]).1 :=
  (AddFingerprint_idempotent_commutative ⟨sampleAlg.New, [1, 4]⟩ [2, 8] [16, 1] rfl rfl).2.1

end bloom

namespace ascii85

/-! ## What whole groups leave in the destination -/

theorem decodeLoop_group_store (g : Bytes)
    (hg : g = [122] ∨ (g.length = 5 ∧ ∀ b ∈ g, 33 ≤ b ∧ b ≤ 117)) :
    ∃ v : Nat, ∀ (fl : Bool) (L : Nat) (dst : Bytes) (ndst nsrc i : Nat) (src : Bytes),
      ndst + 4 ≤ dst.length →
      decodeLoop fl L dst 0 0 ndst nsrc i (g ++ src)
        = decodeLoop fl L (store4 dst ndst v) 0 0 (ndst + 4) (i + g.length) (i + g.length)
            src := by
  rcases hg with hg | ⟨hl, hd⟩
  · subst hg
    exact ⟨0, fun fl L dst ndst nsrc i src h => by
      simpa using decodeLoop_z fl L dst 0 ndst nsrc i src h⟩
  · match g, hl with
    | [a, b, c, d, e], _ =>
      have ha := hd a (by simp)
      have hb := hd b (by simp)
      have hc := hd c (by simp)
      have hdd := hd d (by simp)
      have he := hd e (by simp)
      refine ⟨(((((0 * 85 + (a - 33)) % 2 ^ 32 * 85 + (b - 33)) % 2 ^ 32 * 85
        + (c - 33)) % 2 ^ 32 * 85 + (d - 33)) % 2 ^ 32 * 85 + (e - 33)) % 2 ^ 32, ?_⟩
      intro fl L dst ndst nsrc i src h
      simp only [List.cons_append, List.nil_append, List.length_cons, List.length_nil]
      rw [decodeLoop_digit fl L dst _ 0 ndst nsrc i a _ h ha (by omega),
        decodeLoop_digit fl L dst _ 1 ndst nsrc (i + 1) b _ h hb (by omega),
        decodeLoop_digit fl L dst _ 2 ndst nsrc (i + 1 + 1) c _ h hc (by omega),
        decodeLoop_digit fl L dst _ 3 ndst nsrc (i + 1 + 1 + 1) d _ h hdd (by omega),
        decodeLoop_digit5 fl L dst _ 4 ndst nsrc (i + 1 + 1 + 1 + 1) e _ h he (by omega)]

/-- Whole groups that fit overwrite four bytes each, from `ndst` on; what they leave does
not depend on what follows them in the text. -/
theorem decodeLoop_groups_written (groups : List Bytes)
    (hg : ∀ g ∈ groups, g = [122] ∨ (g.length = 5 ∧ ∀ b ∈ g, 33 ≤ b ∧ b ≤ 117)) :
    ∀ (dst : Bytes) (ndst : Nat), ndst + 4 * groups.length ≤ dst.length →
    ∃ dst' : Bytes, dst'.length = dst.length ∧ dst'.take ndst = dst.take ndst ∧
      dst'.drop (ndst + 4 * groups.length) = dst.drop (ndst + 4 * groups.length) ∧
      ∀ (fl : Bool) (L nsrc i : Nat) (src : Bytes), ∃ nsrc',
        decodeLoop fl L dst 0 0 ndst nsrc i (groups.flatten ++ src)
          = decodeLoop fl L dst' 0 0 (ndst + 4 * groups.length) nsrc'
              (i + groups.flatten.length) src := by
  induction groups with
  | nil =>
    intro dst ndst _
    exact ⟨dst, rfl, rfl, rfl, fun fl L nsrc i src => ⟨nsrc, by simp⟩⟩
  | cons g gs ih =>
    intro dst ndst h
    simp only [List.length_cons] at h
    obtain ⟨v, e1⟩ := decodeLoop_group_store g (hg g (by simp))
    have h4 : ndst + 4 ≤ dst.length := by omega
    have hs := store4_eq dst ndst v h4
    obtain ⟨d2, hl2, ht2, hd2, e2⟩ := ih (fun x hx => hg x (by simp [hx]))
      (store4 dst ndst v) (ndst + 4) (by rw [store4_length]; omega)
    refine ⟨d2, by rw [hl2, store4_length], ?_, ?_, ?_⟩
    · have t := congrArg (List.take ndst) ht2
      rw [List.take_take, List.take_take, Nat.min_eq_left (by omega)] at t
      rw [t, hs, List.append_assoc, List.take_left' (by
        simp only [List.length_take]; omega)]
    · simp only [List.length_cons]
      rw [show ndst + 4 * (gs.length + 1) = ndst + 4 + 4 * gs.length by omega, hd2, hs,
        splice_drop dst ndst [v >>> 24 % 256, v >>> 16 % 256, v >>> 8 % 256, v % 256] 4
          (4 * gs.length) rfl h4]
    · intro fl L nsrc i src
      obtain ⟨n2, e2'⟩ := e2 fl L (i + g.length) (i + g.length) src
      refine ⟨n2, ?_⟩
      simp only [List.flatten_cons, List.append_assoc, List.length_cons, List.length_append]
      rw [e1 fl L dst ndst nsrc i _ h4, e2']
      congr 1 <;> omega

end ascii85

namespace ascii85

theorem decodeEnd_dst (L : Nat) (dst : Bytes) (v nb ndst nsrc : Nat) (h : nb ≤ 1) :
    (decodeEnd true L dst v nb ndst nsrc).1 = dst := by
  unfold decodeEnd
  by_cases h0 : nb > 0
  · have h1 : nb = 1 := by omega
    simp [h1]
  · simp [h0]

end ascii85

namespace bloom

/-- C28, refuted as stated: on a state of eight bytes, a text of one whole group followed
by a character outside the alphabet returns `CorruptInputError` at offset 5 and leaves
the first four bytes replaced by what the group decodes to. -/
theorem LoadFingerprint_atomic_counterexample :
    ((⟨sampleAlg4.New, [9, 9, 9, 9, 9, 9, 9, 9]⟩ : filter).LoadFingerprint
      [33, 33, 33, 33, 34, 126]).2 = some (Error.CorruptInputError 5) ∧
    ((⟨sampleAlg4.New, [9, 9, 9, 9, 9, 9, 9, 9]⟩ : filter).LoadFingerprint
      [33, 33, 33, 33, 34, 126]).1.fingerprint = [0, 0, 0, 1, 9, 9, 9, 9] := by
  decide

/-- C28, amended: `LoadFingerprint` is not atomic.  When the text is whole groups
followed by fewer than five characters and then a character outside the alphabet, or
ends one character into a group, with four bytes of the state still free, the call
returns an error and leaves the state that loading the whole groups alone leaves: the
length is kept, the bytes from position `4 * (number of whole groups)` on are those of
the prior state, and with no whole group before the error the state is the prior
state. -/
theorem LoadFingerprint_error_state (f : filter) (groups : List Bytes) (pending : Bytes)
    (hg : ∀ g ∈ groups, g = [122] ∨ (g.length = 5 ∧ ∀ b ∈ g, 33 ≤ b ∧ b ≤ 117))
    (hp : ∀ b ∈ pending, 33 ≤ b ∧ b ≤ 117) (hpl : pending.length < 5)
    (hfree : 4 * groups.length + 4 ≤ f.fingerprint.length) :
    (∀ c post, 117 < c → (c = 122 → pending ≠ []) →
      (f.LoadFingerprint (groups.flatten ++ pending ++ c :: post)).2 ≠ none ∧
      (f.LoadFingerprint (groups.flatten ++ pending ++ c :: post)).1.fingerprint
        = (f.LoadFingerprint groups.flatten).1.fingerprint) ∧
    (pending.length = 1 →
      (f.LoadFingerprint (groups.flatten ++ pending)).2 ≠ none ∧
      (f.LoadFingerprint (groups.flatten ++ pending)).1.fingerprint
        = (f.LoadFingerprint groups.flatten).1.fingerprint) ∧
    (f.LoadFingerprint groups.flatten).1.fingerprint.length = f.fingerprint.length ∧
    (f.LoadFingerprint groups.flatten).1.fingerprint.drop (4 * groups.length)
      = f.fingerprint.drop (4 * groups.length) ∧
    (groups = [] → (f.LoadFingerprint groups.flatten).1.fingerprint = f.fingerprint) := by
  obtain ⟨d, hl, _, hd, e⟩ := ascii85.decodeLoop_groups_written groups hg f.fingerprint 0
    (by omega)
  simp only [Nat.zero_add] at hd
  -- what loading the whole groups alone leaves
  have base : (f.LoadFingerprint groups.flatten).1.fingerprint = d := by
    obtain ⟨n1, e1⟩ := e true groups.flatten.length 0 0 []
    rw [List.append_nil] at e1
    simp only [filter.LoadFingerprint, ascii85.Decode, e1, ascii85.decodeLoop]
    exact ascii85.decodeEnd_dst _ _ _ _ _ _ (by omega)
  refine ⟨?_, ?_, by rw [base, hl], by rw [base, hd], ?_⟩
  · intro c post hc hz
    obtain ⟨n1, e1⟩ := e true (groups.flatten ++ (pending ++ c :: post)).length 0 0
      (pending ++ c :: post)
    obtain ⟨v1, e2⟩ := ascii85.decodeLoop_pending true
      (groups.flatten ++ (pending ++ c :: post)).length pending d 0 0
      (0 + 4 * groups.length) n1 (0 + groups.flatten.length) (c :: post) (by omega) hp
      (by omega)
    have e3 := ascii85.decodeLoop_bad true (groups.flatten ++ (pending ++ c :: post)).length
      d v1 (0 + pending.length) (0 + 4 * groups.length) n1
      (0 + groups.flatten.length + pending.length) c post (by omega) hc (by
        intro h0
        have := hz h0
        cases pending with
        | nil => exact absurd rfl this
        | cons x xs => simp)
    rw [base]
    simp only [filter.LoadFingerprint, ascii85.Decode, List.append_assoc, e1, e2, e3]
    simp
  · intro hone
    obtain ⟨n1, e1⟩ := e true (groups.flatten ++ pending).length 0 0 pending
    obtain ⟨v1, e2⟩ := ascii85.decodeLoop_pending true (groups.flatten ++ pending).length
      pending d 0 0 (0 + 4 * groups.length) n1 (0 + groups.flatten.length) [] (by omega) hp
      (by omega)
    rw [List.append_nil] at e2
    rw [base]
    simp only [filter.LoadFingerprint, ascii85.Decode, e1, e2, ascii85.decodeLoop]
    refine ⟨?_, ascii85.decodeEnd_dst _ _ _ _ _ _ (by omega)⟩
    rw [ascii85.decodeEnd_error]
    simp [hone]
  · intro hnil
    subst hnil
    rfl

theorem LoadFingerprint_error_state_witness :
    ((⟨sampleAlg4.New, [9, 9, 9, 9, 9, 9, 9, 9]⟩ : filter).LoadFingerprint
        ([[33, 33, 33, 33, 34]].flatten ++ [35] ++ 126 :: [])).1.fingerprint
      = ((⟨sampleAlg4.New, [9, 9, 9, 9, 9, 9, 9, 9]⟩ : filter).LoadFingerprint
          [[33, 33, 33, 33, 34]].flatten).1.fingerprint :=
  ((LoadFingerprint_error_state ⟨sampleAlg4.New, [9, 9, 9, 9, 9, 9, 9, 9]⟩
    [[33, 33, 33, 33, 34]] [35] (by simp) (by decide) (by decide) (by decide)).1 126 []
    (by decide) (by simp)).2

end bloom

/-! ## Calls on the wrappers over a list -/

theorem resetAll_eq_map (hs : List Hash) : multiplehash.resetAll hs = hs.map Hash.Reset := by
  induction hs with
  | nil => simp [multiplehash.resetAll]
  | cons h hs ih => simp [multiplehash.resetAll, ih]

theorem calls_MultipleHash (cs : List HashCall) : ∀ (hs : List Hash) (indexes : List Nat)
    (n : Nat), (Hash.MultipleHash hs indexes n).calls cs
      = Hash.MultipleHash (hs.map fun h => h.calls cs) indexes n := by
  induction cs with
  | nil => intro hs indexes n; simp [Hash.calls]
  | cons c cs ih =>
    intro hs indexes n
    cases c with
    | Write p =>
      simp only [Hash.calls, Hash.call, Hash.Write, writeAll_fst, ih, List.map_map]
      rfl
    | Reset =>
      simp only [Hash.calls, Hash.call, Hash.Reset, resetAll_eq_map, ih, List.map_map]
      rfl

theorem resetEach_pairs (alg : Alg) (ps : List (Bytes × Option Bytes)) :
    customhash.resetEach (ps.map fun q => Hash.prim alg q.1) (ps.map Prod.snd)
      = ps.map fun q => Hash.prim alg (q.2.getD []) := by
  induction ps with
  | nil => simp [customhash.resetEach]
  | cons q ps ih =>
    obtain ⟨b, s⟩ := q
    cases s with
    | none =>
      simp only [List.map_cons, customhash.resetEach, ih]
      simp [Hash.Reset]
    | some s =>
      simp only [List.map_cons, customhash.resetEach, ih]
      simp [Hash.Reset, Hash.Write]

/-- A `CustomHash` over instances of one algorithm and the `MultipleHash` over the
`SlatHash` wrappers of instances with the same content stay in step under `Write` and
`Reset`, when the `Write` of the algorithm returns no error. -/
theorem custom_multi_calls (alg : Alg) (hw : ∀ buf p, (alg.writeResult buf p).2 = none)
    (indexes : List Nat) (n : Nat) (cs : List HashCall) :
    ∀ ps : List (Bytes × Option Bytes), ∃ ps' : List (Bytes × Option Bytes),
      ps'.length = ps.length ∧
      (Hash.CustomHash alg (ps.map fun q => Hash.prim alg q.1) (ps.map Prod.snd)).calls cs
        = Hash.CustomHash alg (ps'.map fun q => Hash.prim alg q.1) (ps'.map Prod.snd) ∧
      (Hash.MultipleHash (ps.map fun q => Hash.SlatHash (Hash.prim alg q.1) (q.2.getD []))
          indexes n).calls cs
        = Hash.MultipleHash
            (ps'.map fun q => Hash.SlatHash (Hash.prim alg q.1) (q.2.getD [])) indexes n := by
  induction cs with
  | nil => intro ps; exact ⟨ps, rfl, rfl, rfl⟩
  | cons c cs ih =>
    intro ps
    cases c with
    | Write p =>
      obtain ⟨ps', hl, e1, e2⟩ := ih (ps.map fun q => (q.1 ++ p, q.2))
      refine ⟨ps', by simpa using hl, ?_, ?_⟩
      · rw [← e1]
        simp only [Hash.calls, Hash.call, Hash.Write]
        have hh : (ps.map fun q => Hash.prim alg q.1)
            = (ps.map Prod.fst).map (Hash.prim alg) := by simp [List.map_map, Function.comp_def]
        rw [hh, writeEach_prims alg hw]
        simp [List.map_map, Function.comp_def]
      · rw [← e2]
        simp only [Hash.calls, Hash.call, Hash.Write, writeAll_fst]
        simp [List.map_map, Function.comp_def, Hash.Write]
    | Reset =>
      obtain ⟨ps', hl, e1, e2⟩ := ih (ps.map fun q => (q.2.getD [], q.2))
      refine ⟨ps', by simpa using hl, ?_, ?_⟩
      · rw [← e1]
        simp only [Hash.calls, Hash.call, Hash.Reset, resetEach_pairs]
        simp [List.map_map, Function.comp_def]
      · rw [← e2]
        simp only [Hash.calls, Hash.call, Hash.Reset, resetAll_eq_map]
        simp [List.map_map, Function.comp_def, Hash.Reset, Hash.Write]

/-- C26: `CustomHash` refines the composition it replaces.  For an algorithm whose
`Write` returns no error, `customhash.New(alg, salts)` and `multiplehash.New` over the
hashes `salthash.New(alg.New(), s)`, for the salts `s` in order, have the same `Size()`
and the same `Sum(nil)` after every sequence of `Write` and `Reset` calls; with one salt
that digest is the digest of `salthash.New(alg.New(), s)` after the same calls. -/
theorem CustomHash_refines (alg : Alg) (saltList : List (Option Bytes)) (c m : Hash)
    (cs : List HashCall) (hw : ∀ buf p, (alg.writeResult buf p).2 = none)
    (hc : customhash.New alg saltList = .ok c)
    (hm : multiplehash.New (saltList.map fun s => salthash.New alg.New (s.getD [])) = .ok m) :
    (c.calls cs).Size = (m.calls cs).Size ∧
    (c.calls cs).Sum [] = (m.calls cs).Sum [] ∧
    (∀ s, saltList = [s] →
      (c.calls cs).Sum [] = ((salthash.New alg.New (s.getD [])).calls cs).Sum []) := by
  obtain ⟨hne, ec⟩ := customhash_New_eq alg saltList c hc
  have hsize := multiplehash_New_Size _ m hm
  have em : ∃ indexes, m = Hash.MultipleHash
      (saltList.map fun s => salthash.New alg.New (s.getD [])) indexes saltList.length := by
    unfold multiplehash.New at hm
    split at hm
    · simp at hm
    · simp only [Except.ok.injEq] at hm
      exact ⟨multiplehash.indexesLoop [0] 0
        (saltList.map fun s => salthash.New alg.New (s.getD [])), by rw [← hm]; simp⟩
  obtain ⟨indexes, em⟩ := em
  have enew : ∀ s : Option Bytes, salthash.New alg.New (s.getD [])
      = Hash.SlatHash (Hash.prim alg (s.getD [])) (s.getD []) := by
    intro s
    simp [salthash.New, Alg.New, Hash.Reset, Hash.Write]
  obtain ⟨ps', hl, e1, e2⟩ := custom_multi_calls alg hw indexes saltList.length cs
    (saltList.map fun s => (s.getD [], s))
  have ec' : c.calls cs
      = Hash.CustomHash alg (ps'.map fun q => Hash.prim alg q.1) (ps'.map Prod.snd) := by
    rw [← e1, ec]
    simp [List.map_map, Function.comp_def]
  have em' : m.calls cs = Hash.MultipleHash
      (ps'.map fun q => Hash.SlatHash (Hash.prim alg q.1) (q.2.getD [])) indexes
      saltList.length := by
    rw [← e2, em]
    simp [List.map_map, Function.comp_def, enew]
  have hsum : (c.calls cs).Sum [] = (m.calls cs).Sum [] := by
    rw [ec', em']
    simp [Hash.Sum, sumJoin_eq, List.map_map, Function.comp_def]
  refine ⟨?_, hsum, ?_⟩
  · have hms : (m.calls cs).Size = m.Size := by
      rw [em', em]
      simp only [Hash.Size]
    rw [hms, hsize, ec']
    have hl' : ps'.length = saltList.length := by simpa using hl
    cases ps' with
    | nil =>
      have : saltList = [] := List.length_eq_zero.1 hl'.symm
      exact absurd this hne
    | cons q qs =>
      simp only [List.map_cons, Hash.Size]
      rw [sum_map_const _ Hash.Size alg.size (fun x hx => by
        obtain ⟨s, _, rfl⟩ := List.mem_map.1 hx
        simp [enew, Hash.Size])]
      simp only [List.length_cons, List.length_map] at hl' ⊢
      rw [← hl']
  · intro s hs
    subst hs
    rw [hsum, em, calls_MultipleHash]
    simp [Hash.Sum, sumJoin]

theorem CustomHash_refines_witness :
    ((Hash.CustomHash sampleAlg [Hash.prim sampleAlg [], Hash.prim sampleAlg [5]]
        [none, some [5]]).calls [HashCall.Write [1], HashCall.Reset, HashCall.Write [2]]).Sum []
      = ((Hash.MultipleHash
          ([none, some [5]].map fun s => salthash.New sampleAlg.New (s.getD []))
          (multiplehash.indexesLoop [0] 0
            ([none, some [5]].map fun s => salthash.New sampleAlg.New (s.getD [])))
          2).calls [HashCall.Write [1], HashCall.Reset, HashCall.Write [2]]).Sum [] :=
  (CustomHash_refines sampleAlg [none, some [5]] _ _
    [HashCall.Write [1], HashCall.Reset, HashCall.Write [2]] (fun _ _ => rfl) rfl rfl).2.1

/-! ## The length of the state -/

theorem calls_append (a : List HashCall) : ∀ (h : Hash) (b : List HashCall),
    h.calls (a ++ b) = (h.calls a).calls b := by
  induction a with
  | nil => intro h b; rfl
  | cons c a ih =>
    intro h b
    simp only [List.cons_append, Hash.calls]
    exact ih _ _

theorem Size_calls (cs : List HashCall) : ∀ h : Hash, (h.calls cs).Size = h.Size := by
  induction cs with
  | nil => intro h; rfl
  | cons c cs ih =>
    intro h
    cases c with
    | Write p => simp only [Hash.calls, Hash.call, ih, Size_Write]
    | Reset => simp only [Hash.calls, Hash.call, ih, Size_Reset]

theorem prim_sumSized (alg : Alg) (hd : ∀ b, (alg.digest b).length = alg.size) :
    ∀ buf, (Hash.prim alg buf).sumSized := by
  intro buf cs
  induction cs generalizing buf with
  | nil => simp [Hash.calls, Hash.Sum, Hash.Size, hd]
  | cons c cs ih =>
    cases c with
    | Write p => exact ih (buf ++ p)
    | Reset => exact ih []

theorem sumJoin_calls_length (cs : List HashCall) (hs : List Hash)
    (h : ∀ x ∈ hs, x.sumSized) :
    (sumJoin (hs.map fun x => x.calls cs) []).length = (hs.map Hash.Size).sum := by
  induction hs with
  | nil => simp [sumJoin]
  | cons x xs ih =>
    simp only [List.map_cons, sumJoin, List.length_append, List.sum_cons]
    rw [h x (by simp) cs, ih (fun y hy => h y (by simp [hy]))]

namespace bloom

theorem New_sumSized (hashList : List Hash) (f : filter)
    (hs : ∀ h ∈ hashList, h.sumSized) (hnew : New hashList = .ok f) : f.hash.sumSized := by
  cases hashList with
  | nil => simp [New, multiplehash.New] at hnew
  | cons a t =>
    cases t with
    | nil =>
      simp only [New, Except.ok.injEq] at hnew
      subst hnew
      exact hs a (by simp)
    | cons b t =>
      have hm : multiplehash.New (a :: b :: t)
          = .ok (Hash.MultipleHash (a :: b :: t)
              (multiplehash.indexesLoop [0] 0 (a :: b :: t)) (a :: b :: t).length) := by
        simp [multiplehash.New]
      have hsz := multiplehash_New_Size _ _ hm
      simp only [New, hm, Except.ok.injEq] at hnew
      subst hnew
      intro cs
      simp only [calls_MultipleHash, Hash.Sum]
      rw [sumJoin_calls_length cs _ hs, ← hsz]

theorem LoadFingerprint_length (f : filter) (text : Bytes) :
    (f.LoadFingerprint text).1.fingerprint.length = f.fingerprint.length := by
  obtain ⟨w, t, h1, _, e⟩ := ascii85.decodeLoop_frame true text.length
    f.fingerprint.length text 0 0 0 0 0 (by omega) (by omega) (by omega)
  simp only [filter.LoadFingerprint, ascii85.Decode, e f.fingerprint rfl, List.take_zero,
    List.nil_append, List.length_append, List.length_drop]
  omega

/-- One call that fits keeps the invariant: the owned hash is the hash of the new filter
after some calls, and the state keeps its length. -/
theorem step_fits (h0 : Hash) (n : Nat) (hs : h0.sumSized) (hn : n = h0.Size) (g : filter)
    (op : Op) (hop : op.fits n) (hg : ∃ cs, g.hash = h0.calls cs)
    (hl : g.fingerprint.length = n) :
    ∃ g', g.step op = .ok g' ∧ (∃ cs, g'.hash = h0.calls cs) ∧ g'.fingerprint.length = n := by
  obtain ⟨cs, hcs⟩ := hg
  have hdig : ∀ v, ((g.hash.Write v).1.Sum []).length = n := by
    intro v
    have := hs (cs ++ [HashCall.Write v])
    rw [calls_append] at this
    simp only [Hash.calls, Hash.call] at this
    rw [hcs, hn]
    exact this
  have hnext : ∀ v, ∃ cs', (g.hash.Write v).1.Reset = h0.calls cs' := by
    intro v
    refine ⟨cs ++ [HashCall.Write v, HashCall.Reset], ?_⟩
    rw [calls_append, ← hcs]
    rfl
  cases op with
  | Add v =>
    have hok : (g.Add v).2 = .ok () := by
      simp only [filter.Add, filter.AddFingerprint, filter.hashBytes]
      exact (orLoop_ok_iff _ _).2 (by rw [hdig v, hl])
    refine ⟨(g.Add v).1, by simp only [filter.step, hok], hnext v, ?_⟩
    simp only [filter.Add, filter.AddFingerprint, filter.hashBytes, orLoop_length, hl]
  | AddFingerprint fp =>
    have hfp : fp.length = n := hop
    have hok : (g.AddFingerprint fp).2 = .ok () := by
      simp only [filter.AddFingerprint]
      exact (orLoop_ok_iff _ _).2 (by rw [hfp, hl])
    refine ⟨(g.AddFingerprint fp).1, by simp only [filter.step, hok], ⟨cs, hcs⟩, ?_⟩
    simp only [filter.AddFingerprint, orLoop_length, hl]
  | Contain v =>
    have hc := coverLoop_total g.fingerprint ((g.hash.Write v).1.Sum [])
      (by rw [hdig v, hl])
    refine ⟨(g.Contain v).1, ?_, hnext v, hl⟩
    simp only [filter.step, filter.Contain, filter.ContainFingerprint, filter.hashBytes]
    rcases hc with h | h <;> simp [h]
  | ContainFingerprint fp =>
    have hfp : fp.length = n := hop
    have hc := coverLoop_total g.fingerprint fp (by rw [hfp, hl])
    refine ⟨g, ?_, ⟨cs, hcs⟩, hl⟩
    simp only [filter.step, filter.ContainFingerprint]
    rcases hc with h | h <;> simp [h]
  | LoadFingerprint str =>
    exact ⟨(g.LoadFingerprint str).1, rfl, ⟨cs, hcs⟩, by rw [LoadFingerprint_length, hl]⟩
  | String =>
    obtain ⟨text, ht, _⟩ := String_ok g
    exact ⟨g, by simp only [filter.step, ht], ⟨cs, hcs⟩, hl⟩

theorem run_fits (h0 : Hash) (n : Nat) (hs : h0.sumSized) (hn : n = h0.Size)
    (ops : List Op) : ∀ g : filter, (∀ op ∈ ops, op.fits n) → (∃ cs, g.hash = h0.calls cs) →
    g.fingerprint.length = n →
    ∃ g', g.run ops = .ok g' ∧ (∃ cs, g'.hash = h0.calls cs) ∧ g'.fingerprint.length = n := by
  induction ops with
  | nil => intro g _ hg hl; exact ⟨g, rfl, hg, hl⟩
  | cons op ops ih =>
    intro g hop hg hl
    obtain ⟨g1, e1, hg1, hl1⟩ := step_fits h0 n hs hn g op (hop op (by simp)) hg hl
    obtain ⟨g2, e2, hg2, hl2⟩ := ih g1 (fun o ho => hop o (by simp [ho])) hg1 hl1
    exact ⟨g2, by simp only [filter.run, e1, e2], hg2, hl2⟩

/-- C27: index safety and the length of the state.  For a filter built by `New` over
hashes whose `Sum(nil)` always has `Size()` bytes, every sequence of calls in which
`AddFingerprint` and `ContainFingerprint` receive fingerprints as long as the state runs
without a panic; in the filter reached the state has `Size()` bytes, and `Add` and
`Contain` return for every value. -/
theorem length_invariant (hashList : List Hash) (f : filter) (ops : List Op)
    (hs : ∀ h ∈ hashList, h.sumSized) (hnew : New hashList = .ok f)
    (hfit : ∀ op ∈ ops, op.fits f.fingerprint.length) :
    ∃ g, f.run ops = .ok g ∧ g.fingerprint.length = g.hash.Size ∧
      g.hash.Size = f.hash.Size ∧
      ∀ v, (g.Add v).2 = .ok () ∧ ∃ b, (g.Contain v).2 = .ok b := by
  have hss := New_sumSized hashList f hs hnew
  have hfl : f.fingerprint.length = f.hash.Size := by
    rw [New_fingerprint hashList f hnew]
    simp
  obtain ⟨g, e, ⟨cs, hcs⟩, hl⟩ := run_fits f.hash f.fingerprint.length hss hfl ops f hfit
    ⟨[], rfl⟩ rfl
  have hsz : g.hash.Size = f.hash.Size := by rw [hcs, Size_calls]
  refine ⟨g, e, by rw [hl, hsz, hfl], hsz, ?_⟩
  intro v
  obtain ⟨g1, e1, _, _⟩ := step_fits f.hash f.fingerprint.length hss hfl g (Op.Add v) trivial
    ⟨cs, hcs⟩ hl
  obtain ⟨g2, e2, _, _⟩ := step_fits f.hash f.fingerprint.length hss hfl g (Op.Contain v)
    trivial ⟨cs, hcs⟩ hl
  constructor
  · simp only [filter.step] at e1
    split at e1
    · rename_i u hu
      rw [hu]
    · simp at e1
  · simp only [filter.step] at e2
    split at e2
    · rename_i b hb
      exact ⟨b, hb⟩
    · simp at e2

theorem length_invariant_witness :
    ∃ g, (⟨Hash.MultipleHash [sampleAlg.New, sampleAlg4.New] [0, 2, 6] 2,
          [0, 0, 0, 0, 0, 0]⟩ : filter).run
        [Op.Add [97], Op.AddFingerprint [1, 2, 3, 4, 5, 6], Op.LoadFingerprint [122],
          Op.String] = .ok g ∧
      g.fingerprint.length = g.hash.Size ∧ g.hash.Size = 6 ∧
      ∀ v, (g.Add v).2 = .ok () ∧ ∃ b, (g.Contain v).2 = .ok b :=
  length_invariant [sampleAlg.New, sampleAlg4.New] _ _
    (by
      intro h hh
      simp only [List.mem_cons, List.mem_singleton, List.not_mem_nil, or_false] at hh
      rcases hh with rfl | rfl
      · exact prim_sumSized sampleAlg (fun _ => rfl) []
      · exact prim_sumSized sampleAlg4 (fun _ => rfl) [])
    rfl
    (by
      intro op hop
      simp only [List.mem_cons, List.mem_singleton, List.not_mem_nil, or_false] at hop
      rcases hop with rfl | rfl | rfl | rfl <;> simp [Op.fits])

end bloom

/-! ## The string of a filter over several hashes -/

namespace bloom

/-- C25, the code against the claim: over two primitives with four-byte digests, after
`Add` of the one-byte value `0`, the state of the filter over both is the concatenation
`[0, 0, 0, 0] ++ [1, 0, 0, 7]` of the states of the two filters over one primitive, and
so is the encoded text; but `String` returns the whole buffer of `MaxEncodedLen` bytes,
so the four NUL bytes left after the group written as `z` stand at the end of the
string of the filter over both and in the middle of the concatenation of the two
strings. -/
theorem String_composite_zero_group :
    ∃ F f1 f2 G g1 g2, New [sampleAlg4z.New, sampleAlg4.New] = .ok F ∧
      New [sampleAlg4z.New] = .ok f1 ∧ New [sampleAlg4.New] = .ok f2 ∧
      F.run [Op.Add [0]] = .ok G ∧ f1.run [Op.Add [0]] = .ok g1 ∧
      f2.run [Op.Add [0]] = .ok g2 ∧
      G.fingerprint = g1.fingerprint ++ g2.fingerprint ∧
      ascii85.encoded G.fingerprint
        = ascii85.encoded g1.fingerprint ++ ascii85.encoded g2.fingerprint ∧
      g1.String = .ok [122, 0, 0, 0, 0] ∧
      g2.String = .ok [33, 60, 60, 42, 41] ∧
      G.String = .ok [122, 33, 60, 60, 42, 41, 0, 0, 0, 0] :=
  ⟨⟨Hash.MultipleHash [sampleAlg4z.New, sampleAlg4.New] [0, 4, 8] 2, [0, 0, 0, 0, 0, 0, 0, 0]⟩,
    ⟨sampleAlg4z.New, [0, 0, 0, 0]⟩, ⟨sampleAlg4.New, [0, 0, 0, 0]⟩,
    ⟨Hash.MultipleHash [sampleAlg4z.New, sampleAlg4.New] [0, 4, 8] 2, [0, 0, 0, 0, 1, 0, 0, 7]⟩,
    ⟨sampleAlg4z.New, [0, 0, 0, 0]⟩, ⟨sampleAlg4.New, [1, 0, 0, 7]⟩,
    rfl, rfl, rfl, rfl, rfl, rfl, rfl, by decide, by decide, by decide, by decide⟩

end bloom

/-! ## The state of a filter over several hashes -/

namespace bloom

theorem orLoop_append_append (s s' d' : Bytes) : ∀ d : Bytes, s.length = d.length →
    orLoop (s ++ s') (d ++ d') = ((orLoop s d).1 ++ (orLoop s' d').1, (orLoop s' d').2) := by
  induction s with
  | nil =>
    intro d h
    cases d with
    | nil => simp [orLoop]
    | cons x xs => simp at h
  | cons v vs ih =>
    intro d h
    cases d with
    | nil => simp at h
    | cons x xs =>
      have h' : vs.length = xs.length := by simpa using h
      simp only [List.cons_append, orLoop, List.append_eq, ih xs h']

theorem orLoop_flatten {α : Type} (l : List α) (S D : α → Bytes)
    (h : ∀ x ∈ l, (S x).length = (D x).length) :
    orLoop (l.map S).flatten (l.map D).flatten
      = ((l.map fun x => (orLoop (S x) (D x)).1).flatten, .ok ()) := by
  induction l with
  | nil => simp [orLoop]
  | cons x xs ih =>
    simp only [List.map_cons, List.flatten_cons]
    rw [orLoop_append_append _ _ _ _ (h x (by simp)), ih (fun y hy => h y (by simp [hy]))]

theorem flatten_replicate (hs : List Hash) :
    (hs.map fun h => List.replicate h.Size 0).flatten
      = List.replicate (hs.map Hash.Size).sum 0 := by
  induction hs with
  | nil => simp
  | cons x xs ih => simp only [List.map_cons, List.flatten_cons, List.sum_cons, ih,
      List.replicate_add]

/-- One `Add` on a filter over the hashes `ps.map fst` whose state is the concatenation
of the states `ps.map snd`: every hash is written and reset, and every part of the state
is merged with the digest of its hash. -/
theorem Add_pairs (ps : List (Hash × Bytes)) (idx : List Nat) (n : Nat) (v : Bytes)
    (hinv : ∀ q ∈ ps, ((q.1.Write v).1.Sum []).length = q.2.length) :
    (⟨Hash.MultipleHash (ps.map Prod.fst) idx n, (ps.map Prod.snd).flatten⟩ : filter).Add v
      = (⟨Hash.MultipleHash
            ((ps.map fun q => ((q.1.Write v).1.Reset,
              (orLoop q.2 ((q.1.Write v).1.Sum [])).1)).map Prod.fst) idx n,
          ((ps.map fun q => ((q.1.Write v).1.Reset,
              (orLoop q.2 ((q.1.Write v).1.Sum [])).1)).map Prod.snd).flatten⟩, .ok ()) := by
  have h := orLoop_flatten ps Prod.snd (fun q => (q.1.Write v).1.Sum [])
    (fun q hq => (hinv q hq).symm)
  simp only [filter.Add, filter.AddFingerprint, filter.hashBytes, Hash.Write, Hash.Sum,
    Hash.Reset, writeAll_fst, resetAll_eq_map, sumJoin_eq, List.map_map, Function.comp_def]
  rw [h]

theorem Add_pair (q : Hash × Bytes) (v : Bytes)
    (h : ((q.1.Write v).1.Sum []).length = q.2.length) :
    (⟨q.1, q.2⟩ : filter).Add v
      = (⟨(q.1.Write v).1.Reset, (orLoop q.2 ((q.1.Write v).1.Sum [])).1⟩, .ok ()) := by
  have hok := (orLoop_ok_iff q.2 ((q.1.Write v).1.Sum [])).2 (by rw [h])
  simp only [filter.Add, filter.AddFingerprint, filter.hashBytes, hok]

theorem run_Adds_pairs (idx : List Nat) (n : Nat) (vs : List Bytes) :
    ∀ ps : List (Hash × Bytes),
      (∀ q ∈ ps, ∀ cs, ((q.1.calls cs).Sum []).length = q.2.length) →
      ∃ ps' : List (Hash × Bytes), ps'.length = ps.length ∧
        (⟨Hash.MultipleHash (ps.map Prod.fst) idx n, (ps.map Prod.snd).flatten⟩ : filter).run
            (vs.map Op.Add)
          = .ok ⟨Hash.MultipleHash (ps'.map Prod.fst) idx n, (ps'.map Prod.snd).flatten⟩ ∧
        ∀ (i : Nat) (q : Hash × Bytes), ps[i]? = some q → ∃ q', ps'[i]? = some q' ∧
          (⟨q.1, q.2⟩ : filter).run (vs.map Op.Add) = .ok ⟨q'.1, q'.2⟩ := by
  induction vs with
  | nil =>
    intro ps _
    exact ⟨ps, rfl, rfl, fun i q hq => ⟨q, hq, rfl⟩⟩
  | cons v vs ih =>
    intro ps hinv
    have hinv1 : ∀ q ∈ ps.map (fun q => ((q.1.Write v).1.Reset,
        (orLoop q.2 ((q.1.Write v).1.Sum [])).1)),
        ∀ cs, ((q.1.calls cs).Sum []).length = q.2.length := by
      intro q1 hq1 cs
      obtain ⟨q, hq, rfl⟩ := List.mem_map.1 hq1
      rw [orLoop_length]
      exact hinv q hq (HashCall.Write v :: HashCall.Reset :: cs)
    obtain ⟨ps', hl, hr, hi⟩ := ih _ hinv1
    refine ⟨ps', by rw [hl, List.length_map], ?_, ?_⟩
    · simp only [List.map_cons, filter.run, filter.step,
        Add_pairs ps idx n v (fun q hq => hinv q hq [HashCall.Write v])]
      exact hr
    · intro i q hq
      obtain ⟨q', hq', hrun⟩ := hi i _ (by rw [List.getElem?_map, hq]; rfl)
      refine ⟨q', hq', ?_⟩
      simp only [List.map_cons, filter.run, filter.step,
        Add_pair q v (hinv q (List.getElem?_mem hq) [HashCall.Write v])]
      exact hrun

/-- C24: the state of a filter over several hashes is the concatenation of the parts.
For hashes `h1..hk`, `k ≥ 2`, whose `Sum(nil)` always has `Size()` bytes, and values
`v1..vn`, the calls `Add(v1)..Add(vn)` return on `New(h1..hk)` and on every `New(hi)`,
and the state of the first is the concatenation, in list order, of the states of the
others. -/
theorem composite_state_concat (hashList : List Hash) (F : filter) (vs : List Bytes)
    (hk : 2 ≤ hashList.length) (hs : ∀ h ∈ hashList, h.sumSized)
    (hnew : New hashList = .ok F) :
    ∃ (G : filter) (gs : List filter), F.run (vs.map Op.Add) = .ok G ∧
      gs.length = hashList.length ∧
      (∀ (i : Nat) (h : Hash), hashList[i]? = some h → ∃ f g, New [h] = .ok f ∧
        f.run (vs.map Op.Add) = .ok g ∧ gs[i]? = some g) ∧
      G.fingerprint = (gs.map fun g => g.fingerprint).flatten := by
  cases hashList with
  | nil => simp at hk
  | cons a t =>
    cases t with
    | nil => simp at hk
    | cons b t =>
      have hm : multiplehash.New (a :: b :: t)
          = .ok (Hash.MultipleHash (a :: b :: t)
              (multiplehash.indexesLoop [0] 0 (a :: b :: t)) (a :: b :: t).length) := by
        simp [multiplehash.New]
      have hsz := multiplehash_New_Size _ _ hm
      simp only [New, hm, Except.ok.injEq] at hnew
      have hF : F = ⟨Hash.MultipleHash
          (((a :: b :: t).map fun h => (h, List.replicate h.Size 0)).map Prod.fst)
          (multiplehash.indexesLoop [0] 0 (a :: b :: t)) (a :: b :: t).length,
          (((a :: b :: t).map fun h => (h, List.replicate h.Size 0)).map Prod.snd).flatten⟩ := by
        rw [← hnew, hsz, ← flatten_replicate]
        simp only [List.map_map, Function.comp_def, List.map_id']
      obtain ⟨ps', hl, hr, hi⟩ := run_Adds_pairs (multiplehash.indexesLoop [0] 0 (a :: b :: t))
        (a :: b :: t).length vs ((a :: b :: t).map fun h => (h, List.replicate h.Size 0))
        (by
          intro q hq cs
          obtain ⟨h, hh, rfl⟩ := List.mem_map.1 hq
          simp only [List.length_replicate]
          exact hs h hh cs)
      refine ⟨_, ps'.map fun q => ⟨q.1, q.2⟩, by rw [hF]; exact hr, ?_, ?_, ?_⟩
      · rw [List.length_map, hl, List.length_map]
      · intro i h hh
        obtain ⟨q', hq', hrun⟩ := hi i (h, List.replicate h.Size 0)
          (by rw [List.getElem?_map, hh]; rfl)
        exact ⟨⟨h, List.replicate h.Size 0⟩, ⟨q'.1, q'.2⟩, rfl, hrun,
          by rw [List.getElem?_map, hq']; rfl⟩
      · simp only [List.map_map, Function.comp_def]

theorem composite_state_concat_witness :
    ∃ (G : filter) (gs : List filter),
      (⟨Hash.MultipleHash [sampleAlg.New, sampleAlg4.New] [0, 2, 6] 2,
          [0, 0, 0, 0, 0, 0]⟩ : filter).run ([[97], [1, 2]].map Op.Add) = .ok G ∧
      gs.length = 2 ∧
      (∀ (i : Nat) (h : Hash), [sampleAlg.New, sampleAlg4.New][i]? = some h →
        ∃ f g, New [h] = .ok f ∧
        f.run ([[97], [1, 2]].map Op.Add) = .ok g ∧ gs[i]? = some g) ∧
      G.fingerprint = (gs.map fun g => g.fingerprint).flatten :=
  composite_state_concat [sampleAlg.New, sampleAlg4.New] _ [[97], [1, 2]] (by decide)
    (by
      intro h hh
      simp only [List.mem_cons, List.mem_singleton, List.not_mem_nil, or_false] at hh
      rcases hh with rfl | rfl
      · exact prim_sumSized sampleAlg (fun _ => rfl) []
      · exact prim_sumSized sampleAlg4 (fun _ => rfl) [])
    rfl

end bloom

/-! ## The filter over one hash and the filter over a group of one -/

namespace bloom

theorem hashBytes_group_of_one (h : Hash) (indexes : List Nat) (n : Nat) (fp v : Bytes) :
    (⟨Hash.MultipleHash [h] indexes n, fp⟩ : filter).hashBytes v
      = (⟨Hash.MultipleHash [((⟨h, fp⟩ : filter).hashBytes v).1.hash] indexes n, fp⟩,
          ((⟨h, fp⟩ : filter).hashBytes v).2) := by
  simp [filter.hashBytes, Hash.Write, multiplehash.writeAll, Hash.Sum, sumJoin, Hash.Reset,
    multiplehash.resetAll]

/-- One call on the two filters: the same answer, and either both panic or both return,
with the same state and the hash of the one as the only member of the other. -/
theorem step_group_of_one (h : Hash) (indexes : List Nat) (n : Nat) (fp : Bytes) (op : Op) :
    (⟨Hash.MultipleHash [h] indexes n, fp⟩ : filter).answer op
        = (⟨h, fp⟩ : filter).answer op ∧
    (((⟨h, fp⟩ : filter).step op = .panic ∧
        (⟨Hash.MultipleHash [h] indexes n, fp⟩ : filter).step op = .panic) ∨
      ∃ h' fp', (⟨h, fp⟩ : filter).step op = .ok ⟨h', fp'⟩ ∧
        (⟨Hash.MultipleHash [h] indexes n, fp⟩ : filter).step op
          = .ok ⟨Hash.MultipleHash [h'] indexes n, fp'⟩) := by
  cases op with
  | Add v =>
    have e2 : ((⟨Hash.MultipleHash [h] indexes n, fp⟩ : filter).Add v).2
        = ((⟨h, fp⟩ : filter).Add v).2 := by
      simp only [filter.Add, filter.AddFingerprint, hashBytes_group_of_one]
      rfl
    have e1 : ((⟨Hash.MultipleHash [h] indexes n, fp⟩ : filter).Add v).1
        = ⟨Hash.MultipleHash [((⟨h, fp⟩ : filter).Add v).1.hash] indexes n,
            ((⟨h, fp⟩ : filter).Add v).1.fingerprint⟩ := by
      simp only [filter.Add, filter.AddFingerprint, hashBytes_group_of_one]
      rfl
    constructor
    · simp only [filter.answer, e2]
    · simp only [filter.step, e1, e2]
      cases ((⟨h, fp⟩ : filter).Add v).2 with
      | ok u => exact Or.inr ⟨_, _, rfl, rfl⟩
      | panic => exact Or.inl ⟨rfl, rfl⟩
  | AddFingerprint x =>
    constructor
    · rfl
    · simp only [filter.step, filter.AddFingerprint]
      cases (orLoop fp x).2 with
      | ok u => exact Or.inr ⟨_, _, rfl, rfl⟩
      | panic => exact Or.inl ⟨rfl, rfl⟩
  | Contain v =>
    have e2 : ((⟨Hash.MultipleHash [h] indexes n, fp⟩ : filter).Contain v).2
        = ((⟨h, fp⟩ : filter).Contain v).2 := by
      simp only [filter.Contain, filter.ContainFingerprint, hashBytes_group_of_one]
      rfl
    have e1 : ((⟨Hash.MultipleHash [h] indexes n, fp⟩ : filter).Contain v).1
        = ⟨Hash.MultipleHash [((⟨h, fp⟩ : filter).Contain v).1.hash] indexes n,
            ((⟨h, fp⟩ : filter).Contain v).1.fingerprint⟩ := by
      simp only [filter.Contain, filter.ContainFingerprint, hashBytes_group_of_one]
      rfl
    constructor
    · simp only [filter.answer, e2]
    · simp only [filter.step, e1, e2]
      cases ((⟨h, fp⟩ : filter).Contain v).2 with
      | ok u => exact Or.inr ⟨_, _, rfl, rfl⟩
      | panic => exact Or.inl ⟨rfl, rfl⟩
  | ContainFingerprint x =>
    constructor
    · rfl
    · simp only [filter.step, filter.ContainFingerprint]
      cases coverLoop fp x with
      | ok u => exact Or.inr ⟨_, _, rfl, rfl⟩
      | panic => exact Or.inl ⟨rfl, rfl⟩
  | LoadFingerprint str => exact ⟨rfl, Or.inr ⟨_, _, rfl, rfl⟩⟩
  | String =>
    constructor
    · rfl
    · simp only [filter.step, filter.String]
      cases ascii85.Encode (List.replicate (ascii85.MaxEncodedLen fp.length) 0) fp with
      | ok u => exact Or.inr ⟨_, _, rfl, rfl⟩
      | panic => exact Or.inl ⟨rfl, rfl⟩

theorem run_group_of_one (indexes : List Nat) (n : Nat) (ops : List Op) :
    ∀ (h : Hash) (fp : Bytes),
    (⟨Hash.MultipleHash [h] indexes n, fp⟩ : filter).answers ops
        = (⟨h, fp⟩ : filter).answers ops ∧
    (((⟨h, fp⟩ : filter).run ops = .panic ∧
        (⟨Hash.MultipleHash [h] indexes n, fp⟩ : filter).run ops = .panic) ∨
      ∃ h' fp', (⟨h, fp⟩ : filter).run ops = .ok ⟨h', fp'⟩ ∧
        (⟨Hash.MultipleHash [h] indexes n, fp⟩ : filter).run ops
          = .ok ⟨Hash.MultipleHash [h'] indexes n, fp'⟩) := by
  induction ops with
  | nil => intro h fp; exact ⟨rfl, Or.inr ⟨h, fp, rfl, rfl⟩⟩
  | cons op ops ih =>
    intro h fp
    obtain ⟨ha, hstep⟩ := step_group_of_one h indexes n fp op
    rcases hstep with ⟨p1, p2⟩ | ⟨h', fp', e1, e2⟩
    · exact ⟨by simp only [filter.answers, ha, p1, p2], Or.inl ⟨by
        simp only [filter.run, p1], by simp only [filter.run, p2]⟩⟩
    · obtain ⟨ia, irun⟩ := ih h' fp'
      refine ⟨by simp only [filter.answers, ha, e1, e2, ia], ?_⟩
      simp only [filter.run, e1, e2]
      exact irun

/-- C31: the single-primitive shortcut does not change behaviour.  For every hash `h`
and every sequence of calls, the filter `New(h)`, which owns `h` itself, and the filter
that the other branch of `New` would build, owning `multiplehash.New(h)` with a zero
state of its `Size()`, start from the same state, return the same results call by call,
and either both panic or both end in the same state. -/
theorem single_shortcut (h m : Hash) (f : filter) (ops : List Op)
    (hnew : New [h] = .ok f) (hm : multiplehash.New [h] = .ok m) :
    (⟨m, List.replicate m.Size 0⟩ : filter).fingerprint = f.fingerprint ∧
    (⟨m, List.replicate m.Size 0⟩ : filter).answers ops = f.answers ops ∧
    ((f.run ops = .panic ∧ (⟨m, List.replicate m.Size 0⟩ : filter).run ops = .panic) ∨
      ∃ g1 g2, f.run ops = .ok g1 ∧
        (⟨m, List.replicate m.Size 0⟩ : filter).run ops = .ok g2 ∧
        g2.fingerprint = g1.fingerprint) := by
  have hsz : m.Size = h.Size := by
    rw [multiplehash_New_Size [h] m hm]
    simp
  have em : m = Hash.MultipleHash [h] (multiplehash.indexesLoop [0] 0 [h]) 1 := by
    simp only [multiplehash.New] at hm
    split at hm
    · simp at hm
    · simp only [Except.ok.injEq] at hm
      rw [← hm]
      rfl
  simp only [New, Except.ok.injEq] at hnew
  subst hnew
  rw [hsz]
  subst em
  obtain ⟨ha, hrun⟩ := run_group_of_one (multiplehash.indexesLoop [0] 0 [h]) 1 ops h
    (List.replicate h.Size 0)
  refine ⟨rfl, ha, ?_⟩
  rcases hrun with ⟨p1, p2⟩ | ⟨h', fp', e1, e2⟩
  · exact Or.inl ⟨p1, p2⟩
  · exact Or.inr ⟨_, _, e1, e2, rfl⟩

theorem single_shortcut_witness :
    (⟨Hash.MultipleHash [sampleAlg.New] [0, 2] 1, [0, 0]⟩ : filter).answers
        [Op.Add [97], Op.Contain [97], Op.AddFingerprint [1], Op.String]
      = (⟨sampleAlg.New, [0, 0]⟩ : filter).answers
        [Op.Add [97], Op.Contain [97], Op.AddFingerprint [1], Op.String] :=
  (single_shortcut sampleAlg.New (Hash.MultipleHash [sampleAlg.New] [0, 2] 1)
    ⟨sampleAlg.New, [0, 0]⟩ [Op.Add [97], Op.Contain [97], Op.AddFingerprint [1], Op.String]
    rfl rfl).2.1

end bloom

/-! ## The pooled filter of the service -/

namespace bloom

theorem orLoop_bytes (s : Bytes) : ∀ d : Bytes, (∀ b ∈ s, b < 256) → (∀ b ∈ d, b < 256) →
    ∀ b ∈ (orLoop s d).1, b < 256 := by
  induction s with
  | nil => intro d _ _ b hb; simp [orLoop] at hb
  | cons v vs ih =>
    intro d hs hd b hb
    cases d with
    | nil => exact hs b (by simpa [orLoop] using hb)
    | cons x xs =>
      simp only [orLoop, List.mem_cons] at hb
      rcases hb with rfl | hb
      · exact Nat.or_lt_two_pow (n := 8) (hs v (by simp)) (hd x (by simp))
      · exact ih xs (fun c hc => hs c (by simp [hc])) (fun c hc => hd c (by simp [hc])) b hb

/-- `Add` on a filter whose hash is valid, in its reset state and returns digests of
`Size()` bytes: the hash is as before and the digest of the value is merged. -/
theorem Add_reset_state (h : Hash) (b0 w : Bytes) (hv : h.valid) (hr : h.Reset = h)
    (hs : h.sumSized) (hl : b0.length = h.Size) :
    (⟨h, b0⟩ : filter).Add w = (⟨h, (orLoop b0 ((h.Write w).1.Sum [])).1⟩, .ok ()) := by
  have hd : ((h.Write w).1.Sum []).length = h.Size := hs [HashCall.Write w]
  have hf := hashBytes_fst ⟨h, b0⟩ w hv hr
  have hok := (orLoop_ok_iff b0 ((h.Write w).1.Sum [])).2 (by rw [hd, hl])
  simp only [filter.Add, filter.AddFingerprint, hf]
  simp only [filter.hashBytes, hok]

/-- Loading the string of a state of whole groups into a filter of the same length
replaces the whole state. -/
theorem LoadFingerprint_stored (h : Hash) (st p s : Bytes) (k : Nat) (hk : st.length = 4 * k)
    (hb : ∀ b ∈ st, b < 256) (hp : p.length = st.length)
    (hstr : (⟨h, st⟩ : filter).String = .ok s) :
    (⟨h, p⟩ : filter).LoadFingerprint s = (⟨h, st⟩, none) := by
  obtain ⟨text, ht, he, hf⟩ := String_LoadFingerprint_of_whole_groups ⟨h, st⟩ ⟨h, p⟩ k hk hb hp
  rw [hstr] at ht
  simp only [Result.ok.injEq] at ht
  subst ht
  refine Prod.ext ?_ he
  show (⟨h, ((⟨h, p⟩ : filter).LoadFingerprint s).1.fingerprint⟩ : filter) = ⟨h, st⟩
  rw [hf]

end bloom

namespace server

/-- What `AddURL` does once the state `b0` is loaded into the pooled filter. -/
theorem AddURL_loaded (g : Service) (h : Hash) (p u w b0 st s : Bytes)
    (hload : (match g.data u with
      | some fp => (⟨h, p⟩ : bloom.filter).LoadFingerprint fp
      | none => ((⟨h, p⟩ : bloom.filter).Reset, none)) = (⟨h, b0⟩, none))
    (hadd : (⟨h, b0⟩ : bloom.filter).Add w = (⟨h, st⟩, .ok ()))
    (hstr : (⟨h, st⟩ : bloom.filter).String = .ok s) :
    g.AddURL ⟨h, p⟩ u (some w)
      = .ok (⟨fun k => if k = u then some s else g.data k⟩, ⟨h, st⟩, .OK) := by
  simp only [Service.AddURL, hload, hadd, hstr]

/-- C32: no cross-identity bleed through the pooled filter.  Let the pooled filters own
a valid hash in its reset state whose digests have `Size()` bytes, a multiple of four,
and let the string stored for `u`, if any, be the `String()` of a state of that length.
Then `AddURL(u, w)` returns OK whatever the pooled filter held (`p1` or `p2`), and stores
the same string in both cases: the `String()` of the state `st` that is the digest of
`w` merged into the state stored for `u`, or into the all-zero state when `u` has none.
The other identities keep what they had, and afterwards `ContainURL(u, w)` answers OK
on any pooled filter. -/
theorem no_cross_identity_bleed (g : Service) (h : Hash) (p1 p2 p3 u w : Bytes) (k : Nat)
    (hv : h.valid) (hr : h.Reset = h) (hs : h.sumSized)
    (hb : ∀ b ∈ (h.Write w).1.Sum [], b < 256) (h4 : h.Size = 4 * k)
    (hl1 : p1.length = h.Size) (hl2 : p2.length = h.Size) (hl3 : p3.length = h.Size)
    (hdata : ∀ s, g.data u = some s → ∃ st : Bytes, st.length = h.Size ∧
      (∀ b ∈ st, b < 256) ∧ (⟨h, st⟩ : bloom.filter).String = .ok s) :
    ∃ (g' : Service) (s st : Bytes),
      g.AddURL ⟨h, p1⟩ u (some w) = .ok (g', ⟨h, st⟩, .OK) ∧
      g.AddURL ⟨h, p2⟩ u (some w) = .ok (g', ⟨h, st⟩, .OK) ∧
      g'.data u = some s ∧ (∀ v, v ≠ u → g'.data v = g.data v) ∧
      st.length = h.Size ∧ (∀ b ∈ st, b < 256) ∧
      (⟨h, st⟩ : bloom.filter).String = .ok s ∧
      (g.data u = none →
        st = (bloom.orLoop (List.replicate h.Size 0) ((h.Write w).1.Sum [])).1) ∧
      (∀ s0 st0 : Bytes, g.data u = some s0 → st0.length = h.Size → (∀ b ∈ st0, b < 256) →
        (⟨h, st0⟩ : bloom.filter).String = .ok s0 →
        st = (bloom.orLoop st0 ((h.Write w).1.Sum [])).1) ∧
      ∃ q, g'.ContainURL ⟨h, p3⟩ u w = .ok (q, .OK) := by
  have hd : ((h.Write w).1.Sum []).length = h.Size := hs [HashCall.Write w]
  -- the state the pooled filter holds before `Add`, whatever it held before
  have hbase : ∃ b0 : Bytes, b0.length = h.Size ∧ (∀ b ∈ b0, b < 256) ∧
      (∀ p : Bytes, p.length = h.Size →
        (match g.data u with
          | some fp => (⟨h, p⟩ : bloom.filter).LoadFingerprint fp
          | none => ((⟨h, p⟩ : bloom.filter).Reset, none)) = (⟨h, b0⟩, none)) ∧
      (g.data u = none → b0 = List.replicate h.Size 0) ∧
      (∀ s0 st0 : Bytes, g.data u = some s0 → st0.length = h.Size → (∀ b ∈ st0, b < 256) →
        (⟨h, st0⟩ : bloom.filter).String = .ok s0 → b0 = st0) := by
    cases hdu : g.data u with
    | none =>
      refine ⟨List.replicate h.Size 0, by simp, ?_, ?_, fun _ => rfl, ?_⟩
      · intro b hb0
        rw [List.eq_of_mem_replicate hb0]
        decide
      · intro p hp
        simp only [bloom.filter.Reset, hp]
      · intro s0 st0 hc
        simp at hc
    | some s0 =>
      obtain ⟨st0, hl0, hb0, hstr0⟩ := hdata s0 hdu
      refine ⟨st0, hl0, hb0, ?_, ?_, ?_⟩
      · intro p hp
        exact bloom.LoadFingerprint_stored h st0 p s0 k (by rw [hl0, h4]) hb0
          (by rw [hp, hl0]) hstr0
      · intro hc
        simp at hc
      · intro s1 st1 hs1 hl1' hb1 hstr1
        simp only [Option.some.injEq] at hs1
        subst hs1
        have e0 := bloom.LoadFingerprint_stored h st0 p1 s0 k (by rw [hl0, h4]) hb0
          (by rw [hl1, hl0]) hstr0
        have e1 := bloom.LoadFingerprint_stored h st1 p1 s0 k (by rw [hl1', h4]) hb1
          (by rw [hl1, hl1']) hstr1
        rw [e0] at e1
        simp only [Prod.mk.injEq, bloom.filter.mk.injEq, true_and, and_true] at e1
        exact e1
  obtain ⟨b0, hlb, hbb, hload, hnone, hsome⟩ := hbase
  have hadd := bloom.Add_reset_state h b0 w hv hr hs hlb
  have hlst : (bloom.orLoop b0 ((h.Write w).1.Sum [])).1.length = h.Size := by
    rw [bloom.orLoop_length, hlb]
  have hbst := bloom.orLoop_bytes b0 ((h.Write w).1.Sum []) hbb hb
  obtain ⟨s, hstr, _⟩ := bloom.String_ok ⟨h, (bloom.orLoop b0 ((h.Write w).1.Sum [])).1⟩
  refine ⟨⟨fun v => if v = u then some s else g.data v⟩, s,
    (bloom.orLoop b0 ((h.Write w).1.Sum [])).1,
    AddURL_loaded g h p1 u w b0 _ s (hload p1 hl1) hadd hstr,
    AddURL_loaded g h p2 u w b0 _ s (hload p2 hl2) hadd hstr,
    by simp, ?_, hlst, hbst, hstr, ?_, ?_, ?_⟩
  · intro v hvu
    simp [hvu]
  · intro hn
    rw [hnone hn]
  · intro s0 st0 h1 h2 h3 h5
    rw [hsome s0 st0 h1 h2 h3 h5]
  · have hl := bloom.LoadFingerprint_stored h (bloom.orLoop b0 ((h.Write w).1.Sum [])).1 p3 s k
      (by rw [hlst, h4]) hbst (by rw [hl3, hlst]) hstr
    have hcov := bloom.coverLoop_orLoop_self b0 ((h.Write w).1.Sum []) (by rw [hlb, hd])
    have hf := bloom.hashBytes_fst ⟨h, (bloom.orLoop b0 ((h.Write w).1.Sum [])).1⟩ w hv hr
    have hc : ((⟨h, (bloom.orLoop b0 ((h.Write w).1.Sum [])).1⟩ : bloom.filter).Contain w)
        = (⟨h, (bloom.orLoop b0 ((h.Write w).1.Sum [])).1⟩, .ok true) := by
      simp only [bloom.filter.Contain, bloom.filter.ContainFingerprint, hf]
      simp only [bloom.filter.hashBytes, hcov]
    refine ⟨⟨h, (bloom.orLoop b0 ((h.Write w).1.Sum [])).1⟩, ?_⟩
    simp only [Service.ContainURL, if_true, hl, hc]

theorem no_cross_identity_bleed_witness :
    ∃ (g' : Service) (s st : Bytes),
      (⟨fun k => if k = [117] then some [33, 60, 60, 42, 41] else none⟩ : Service).AddURL
          ⟨sampleAlg4.New, [9, 9, 9, 9]⟩ [117] (some [97])
        = .ok (g', ⟨sampleAlg4.New, st⟩, .OK) ∧
      (⟨fun k => if k = [117] then some [33, 60, 60, 42, 41] else none⟩ : Service).AddURL
          ⟨sampleAlg4.New, [255, 0, 255, 0]⟩ [117] (some [97])
        = .ok (g', ⟨sampleAlg4.New, st⟩, .OK) ∧
      g'.data [117] = some s ∧
      st = (bloom.orLoop [1, 0, 0, 7] ((sampleAlg4.New.Write [97]).1.Sum [])).1 ∧
      ∃ q, g'.ContainURL ⟨sampleAlg4.New, [7, 7, 7, 7]⟩ [117] [97] = .ok (q, .OK) := by
  obtain ⟨g', s, st, h1, h2, h3, _, _, _, _, _, h9, h10⟩ := no_cross_identity_bleed
    ⟨fun k => if k = [117] then some [33, 60, 60, 42, 41] else none⟩ sampleAlg4.New
    [9, 9, 9, 9] [255, 0, 255, 0] [7, 7, 7, 7] [117] [97] 1
    (by simp [Alg.New, Hash.valid]) rfl (prim_sumSized sampleAlg4 (fun _ => rfl) [])
    (by decide) rfl rfl rfl rfl
    (by
      intro s hs
      simp only [if_true, Option.some.injEq] at hs
      subst hs
      exact ⟨[1, 0, 0, 7], rfl, by decide, by decide⟩)
  exact ⟨g', s, st, h1, h2, h3,
    h9 [33, 60, 60, 42, 41] [1, 0, 0, 7] (by simp) rfl (by decide) (by decide), h10⟩

end server

/-! ## The configuration of the pooled filter -/

/-- The digest of a `CustomHash` built by `New`, after any calls of `Write` and `Reset`,
is the join of one digest of the algorithm per salt, when the `Write` of the algorithm
returns no error. -/
theorem customhash_New_digests (alg : Alg) (hw : ∀ buf p, (alg.writeResult buf p).2 = none)
    (salts : List (Option Bytes)) (c : Hash) (hc : customhash.New alg salts = .ok c)
    (cs : List HashCall) :
    ∃ bufs : List Bytes, bufs.length = salts.length ∧
      (c.calls cs).Sum [] = (bufs.map alg.digest).flatten := by
  obtain ⟨_, ec⟩ := customhash_New_eq alg salts c hc
  obtain ⟨ps', hl, e1, _⟩ := custom_multi_calls alg hw [] 0 cs
    (salts.map fun s => (s.getD [], s))
  simp only [List.map_map, Function.comp_def, List.map_id'] at e1
  refine ⟨ps'.map Prod.fst, by simpa using hl, ?_⟩
  rw [ec, e1]
  simp [Hash.Sum, sumJoin_eq, List.map_map, Function.comp_def]

namespace server

/-- The filter that the pool of the service builds, for an algorithm whose `Write`
returns no error and whose digests are `size` bytes: its hash is valid and in its reset
state, every digest has `Size()` bytes, `Size()` is a multiple of four, and so is the
length of the state. -/
theorem hashPool_New_config (alg : Alg) (hw : ∀ buf p, (alg.writeResult buf p).2 = none)
    (hd : ∀ b, (alg.digest b).length = alg.size) (hbyte : ∀ b, ∀ x ∈ alg.digest b, x < 256) :
    ∃ f, hashPool.New alg = .ok f ∧ f.hash.valid ∧ f.hash.Reset = f.hash ∧
      f.hash.sumSized ∧ f.hash.Size = 4 * (4 * alg.size) ∧
      f.fingerprint.length = f.hash.Size ∧
      ∀ w, ∀ x ∈ (f.hash.Write w).1.Sum [], x < 256 := by
  have hc : ∃ c, customhash.New alg saltList = .ok c := by
    simp [customhash.New, saltList]
  obtain ⟨c, hc⟩ := hc
  obtain ⟨hcv, hcr⟩ := customhash_New_valid alg saltList c hc
  obtain ⟨_, ec⟩ := customhash_New_eq alg saltList c hc
  have hcsize : c.Size = 8 * alg.size := by
    rw [ec]
    simp [Hash.Size, saltList]
  have hcs : c.sumSized := by
    intro cs
    obtain ⟨bufs, hl, e⟩ := customhash_New_digests alg hw saltList c hc cs
    rw [e, hcsize, List.length_flatten, List.map_map]
    have : (bufs.map (List.length ∘ alg.digest)) = bufs.map fun _ => alg.size := by
      apply List.map_congr_left
      intro b _
      exact hd b
    rw [this]
    simp only [List.map_const', List.sum_replicate, smul_eq_mul, hl]
    rfl
  have hm : multiplehash.New [c, c]
      = .ok (Hash.MultipleHash [c, c] (multiplehash.indexesLoop [0] 0 [c, c]) 2) := by
    simp [multiplehash.New]
  have hnew : bloom.New [c, c]
      = .ok ⟨Hash.MultipleHash [c, c] (multiplehash.indexesLoop [0] 0 [c, c]) 2,
          List.replicate (Hash.MultipleHash [c, c]
            (multiplehash.indexesLoop [0] 0 [c, c]) 2).Size 0⟩ := by
    simp only [bloom.New, hm]
  have hall : ∀ x ∈ [c, c], x = c := by
    intro x hx
    simpa using hx
  obtain ⟨hfv, hfr⟩ := bloom.New_hash [c, c] _ (fun x hx => by rw [hall x hx]; exact hcv)
    (fun x hx => by rw [hall x hx]; exact hcr) hnew
  have hfs := bloom.New_sumSized [c, c] _ (fun x hx => by rw [hall x hx]; exact hcs) hnew
  have hsz := multiplehash_New_Size [c, c] _ hm
  refine ⟨_, by simp only [hashPool.New, hc, hnew], hfv, hfr, hfs, ?_, by simp, ?_⟩
  · rw [hsz]
    simp only [List.map_cons, List.map_nil, List.sum_cons, List.sum_nil, hcsize]
    omega
  · intro w x hx
    obtain ⟨bufs, _, e⟩ := customhash_New_digests alg hw saltList c hc [HashCall.Write w]
    simp only [Hash.calls, Hash.call] at e
    simp only [Hash.Write, multiplehash.writeAll, Hash.Sum, sumJoin, List.append_nil,
      List.mem_append, or_self, e, List.mem_flatten, List.mem_map] at hx
    obtain ⟨l, ⟨b, _, rfl⟩, hxl⟩ := hx
    exact hbyte b x hxl

end server
